import Mathlib

/-!
# trng: the `lagfib4plus` engine and the `binomial_dist` sampler

A shallow embedding of `src/src/lagfib4plus.hpp` and `src/src/binomial_dist.hpp`.

* `unsigned int` values (the index, the lags) are natural numbers taken modulo `2 ^ 32`;
  words of `result_type` are natural numbers taken modulo `2 ^ wordbits`.
* The state array `r[ceil2<D>]` is a function from slot positions to words; only the
  positions below `ceil2 D` belong to the array, and no operation reads or writes another.
* Streams are lists of characters together with a fail flag.
* The sampler is embedded twice. In exact arithmetic, `double` values are rationals and `int`
  values are integers without a bound: the table as the design means it. In machine
  arithmetic, the counter of the table's first loop is the 32-bit `int` and `double` is
  IEEE 754 binary64 with its rounding, its infinities and its NaN: the table as the program
  computes it.
-/

namespace trng

/-! ## Helpers of `trng/utility.hpp` -/

/-- Doubling loop behind `ceil2`: the first of `w, 2 w, 4 w, ...` that is at least `x`. -/
def ceil2Aux : Nat → Nat → Nat → Nat
  | 0, w, _ => w
  | fuel + 1, w, x => if x ≤ w then w else ceil2Aux fuel (2 * w) x

/-- Modelled from the spec: `utility::ceil2<x>::result` of `trng/utility.hpp`, which is not
among the sources; "`W` is the smallest power of two ≥ D". -/
def ceil2 (x : Nat) : Nat := ceil2Aux x 1 x

/-- Modelled from the spec: `utility::mask<x>::result` of `trng/utility.hpp`, which is not
among the sources; "index arithmetic is always taken modulo `W` via a bitmask (W is a power
of two by construction)". -/
def mask (x : Nat) : Nat := ceil2 x - 1

/-! ## The engine `lagfib4plus<integer_type, A, B, C, D>` -/

/-- Template arguments of `lagfib4plus`: `wordbits` is
`std::numeric_limits<integer_type>::digits`, the four lags are `unsigned int`. -/
structure Species where
  wordbits : Nat
  A : Nat
  B : Nat
  C : Nat
  D : Nat
deriving DecidableEq, Repr

/-- The class `parameter_type`: it has no data members. -/
structure parameter_type where
deriving DecidableEq, Repr

/-- The class `status_type`: `result_type r[ceil2<D>]` and `unsigned int index`. -/
structure status_type where
  r : Nat → Nat
  index : Nat

/-- The engine object: members `P` and `S`. -/
structure lagfib4plus where
  P : parameter_type
  S : status_type

/-- The constructor `status_type()`: every slot and the index are zero. -/
def status_type.init : status_type :=
  { r := fun _ => 0, index := 0 }

/-- Subtraction of two `unsigned int` values. -/
def sub32 (a b : Nat) : Nat := (a % 2 ^ 32 + (2 ^ 32 - b % 2 ^ 32)) % 2 ^ 32

/-- Addition of two words of `result_type`. -/
def wadd (sp : Species) (a b : Nat) : Nat := (a + b) % 2 ^ sp.wordbits

/-- The private member `step()`. -/
def step (sp : Species) (S : status_type) : status_type :=
  let index := (S.index + 1) % 2 ^ 32
  let index := index &&& mask sp.D
  let v :=
    wadd sp
      (wadd sp
        (wadd sp (S.r (sub32 index sp.A &&& mask sp.D)) (S.r (sub32 index sp.B &&& mask sp.D)))
        (S.r (sub32 index sp.C &&& mask sp.D)))
      (S.r (sub32 index sp.D &&& mask sp.D))
  { r := Function.update S.r index v, index := index }

/-- The call operator `operator()()`: one step, then the word at the index. -/
def generate (sp : Species) (R : lagfib4plus) : Nat × lagfib4plus :=
  let S := step sp R.S
  (S.r S.index, { R with S := S })

/-- The engine after `k` calls of `generate()`. -/
def run (sp : Species) : Nat → lagfib4plus → lagfib4plus
  | 0, R => R
  | k + 1, R => (generate sp (run sp k R)).2

/-- The `k`-th value returned by `generate()`, counted from `k = 1`. -/
def nth_value (sp : Species) (R : lagfib4plus) (k : Nat) : Nat :=
  (generate sp (run sp (k - 1) R)).1

/-- The sixteen typedefs at the end of `lagfib4plus.hpp`; `ul` and `ull` are the numbers of
bits of `unsigned long` and of `unsigned long long`. -/
def lagfib4plus_521_ul (ul : Nat) : Species := ⟨ul, 168, 205, 242, 521⟩
def lagfib4plus_521_ull (ull : Nat) : Species := ⟨ull, 168, 205, 242, 521⟩
def lagfib4plus_607_ul (ul : Nat) : Species := ⟨ul, 147, 239, 515, 607⟩
def lagfib4plus_607_ull (ull : Nat) : Species := ⟨ull, 147, 239, 515, 607⟩
def lagfib4plus_1279_ul (ul : Nat) : Species := ⟨ul, 418, 705, 992, 1279⟩
def lagfib4plus_1279_ull (ull : Nat) : Species := ⟨ull, 418, 705, 992, 1279⟩
def lagfib4plus_2281_ul (ul : Nat) : Species := ⟨ul, 305, 610, 915, 2281⟩
def lagfib4plus_2281_ull (ull : Nat) : Species := ⟨ull, 305, 610, 915, 2281⟩
def lagfib4plus_3217_ul (ul : Nat) : Species := ⟨ul, 576, 871, 1461, 3217⟩
def lagfib4plus_3217_ull (ull : Nat) : Species := ⟨ull, 576, 871, 1461, 3217⟩
def lagfib4plus_4423_ul (ul : Nat) : Species := ⟨ul, 1419, 1736, 2053, 4423⟩
def lagfib4plus_4423_ull (ull : Nat) : Species := ⟨ull, 1419, 1736, 2053, 4423⟩
def lagfib4plus_9689_ul (ul : Nat) : Species := ⟨ul, 471, 2032, 4064, 9689⟩
def lagfib4plus_9689_ull (ull : Nat) : Species := ⟨ull, 471, 2032, 4064, 9689⟩
def lagfib4plus_19937_ul (ul : Nat) : Species := ⟨ul, 3860, 7083, 11580, 19937⟩
def lagfib4plus_19937_ull (ull : Nat) : Species := ⟨ull, 3860, 7083, 11580, 19937⟩

/-- All predefined species. -/
def predefined (ul ull : Nat) : List Species :=
  [lagfib4plus_521_ul ul, lagfib4plus_521_ull ull, lagfib4plus_607_ul ul,
   lagfib4plus_607_ull ull, lagfib4plus_1279_ul ul, lagfib4plus_1279_ull ull,
   lagfib4plus_2281_ul ul, lagfib4plus_2281_ull ull, lagfib4plus_3217_ul ul,
   lagfib4plus_3217_ull ull, lagfib4plus_4423_ul ul, lagfib4plus_4423_ull ull,
   lagfib4plus_9689_ul ul, lagfib4plus_9689_ull ull, lagfib4plus_19937_ul ul,
   lagfib4plus_19937_ull ull]

/-! ### Seeding -/

/-- A bit source `gen`: the constants `gen::min` and `gen::max` and the call operator, which
returns a value (at least `min`) and moves the source to its next state. -/
structure gen (σ : Type) where
  min : Nat
  max : Nat
  next : σ → Nat × σ

/-- The state of the source `g` after `k` calls, from the state `st`. -/
def gen.state {σ : Type} (g : gen σ) (st : σ) : Nat → σ
  | 0 => st
  | k + 1 => (g.next (gen.state g st k)).2

/-- The draw sequence `d_0, d_1, ...` of the source `g` from the state `st`: `draw k` is the
value returned by call number `k + 1`. -/
def gen.draw {σ : Type} (g : gen σ) (st : σ) (k : Nat) : Nat :=
  (g.next (gen.state g st k)).1

/-- The test `g()-gen::min>gen::max/2` of `seed(gen &)` on the drawn value `v`. -/
def seed_bit {σ : Type} (g : gen σ) (v : Nat) : Bool :=
  decide (v - g.min > g.max / 2)

/-- The inner loop of `seed(gen &)`: `n` more rounds of `r<<=1; if (...) ++r;`. -/
def seed_word {σ : Type} (sp : Species) (g : gen σ) : Nat → Nat → σ → Nat × σ
  | 0, r, st => (r, st)
  | n + 1, r, st =>
    let r := (r <<< 1) % 2 ^ sp.wordbits
    let d := g.next st
    let r := if seed_bit g d.1 then (r + 1) % 2 ^ sp.wordbits else r
    seed_word sp g n r d.2

/-- The outer loop of `seed(gen &)`: `n` more rounds, the next one for slot `i`. -/
def seed_loop {σ : Type} (sp : Species) (g : gen σ) : Nat → Nat → status_type → σ →
    status_type × σ
  | 0, _, S, st => (S, st)
  | n + 1, i, S, st =>
    let w := seed_word sp g sp.wordbits 0 st
    seed_loop sp g n (i + 1) { S with r := Function.update S.r i w.1 } w.2

/-- The member `seed(gen &g)`; the source is handed back in the state it was left in. -/
def seed {σ : Type} (sp : Species) (g : gen σ) (st : σ) (R : lagfib4plus) : lagfib4plus × σ :=
  let l := seed_loop sp g sp.D 0 R.S st
  ({ R with S := { l.1 with index := sub32 sp.D 1 } }, l.2)

/-- The class `minstd` as `seed(unsigned long)` uses it: a bit source and its constructor
from an integer. The class is in `trng/minstd.hpp`, which is not among the sources, so the
engine takes it as an argument. -/
structure aux_source (σ : Type) where
  g : gen σ
  ctor : Nat → σ

/-- Modelled from the spec: the class `minstd`, not among the sources; "a minimal fast
auxiliary linear-congruential bit source seeded with `s`". This is the minimal standard
generator `x ↦ 16807 x mod (2^31 - 1)`, with range `1 .. 2^31 - 2`. -/
def minstd : aux_source Nat where
  g := { min := 1, max := 2147483646,
         next := fun x => ((16807 * x) % 2147483647, (16807 * x) % 2147483647) }
  ctor := fun s => if s % 2147483647 = 0 then 1 else s % 2147483647

/-- The member `seed(unsigned long s)`: `minstd R(s); seed(R);`. -/
def seed_ul {σ : Type} (sp : Species) (M : aux_source σ) (s : Nat) (R : lagfib4plus) :
    lagfib4plus :=
  (seed sp M.g (M.ctor s) R).1

/-- The member `seed()`: `seed(0)`. -/
def seed_default {σ : Type} (sp : Species) (M : aux_source σ) (R : lagfib4plus) :
    lagfib4plus :=
  seed_ul sp M 0 R

/-- The default constructor `lagfib4plus() : P(), S() { seed(); }`. -/
def lagfib4plus.ctor {σ : Type} (sp : Species) (M : aux_source σ) : lagfib4plus :=
  seed_default sp M { P := {}, S := status_type.init }

/-! ### Equality -/

/-- The comparison `operator==` of `parameter_type`. -/
def parameter_type.eq (_ _ : parameter_type) : Bool := true

/-- The comparison `operator==` of `status_type`: the indices, then the slots in order. -/
def status_type.eq (sp : Species) (a b : status_type) : Bool :=
  if a.index != b.index then false
  else (List.range (ceil2 sp.D)).all fun i => a.r i == b.r i

/-- The comparison `operator==` of the engine. -/
def lagfib4plus.eq (sp : Species) (R1 R2 : lagfib4plus) : Bool :=
  parameter_type.eq R1.P R2.P && status_type.eq sp R1.S R2.S

/-! ### Streams -/

/-- An input stream: the characters not yet read and the fail state; `if (in)` is
`fail = false`. -/
structure istream where
  buf : List Char
  fail : Bool
deriving DecidableEq, Repr

/-- The stream that a text is read from. -/
def istream.of (text : List Char) : istream := { buf := text, fail := false }

/-- The decimal digit for a value below ten. -/
def digitChar (d : Nat) : Char := Char.ofNat (48 + d)

/-- The value of a decimal digit. -/
def digitVal (c : Char) : Nat := c.toNat - 48

/-- The digits of `n`, most significant first, in front of `acc`. -/
def decimalAux : Nat → Nat → List Char → List Char
  | 0, _, acc => acc
  | fuel + 1, n, acc =>
    if n < 10 then digitChar n :: acc
    else decimalAux fuel (n / 10) (digitChar (n % 10) :: acc)

/-- What `out << n` writes for an unsigned integer under the flag `dec`. -/
def decimal (n : Nat) : List Char := decimalAux (n + 1) n []

/-- What `in >> x` does for an unsigned integer `x` of `bits` bits under the flag `dec` and
without `skipws`: it takes the longest run of decimal digits, and fails when there is none
or when the number does not fit. `old` is the value `x` had; it stays when nothing is read.
(The library also takes a sign in front; no text written by `operator<<` has one.) -/
def get_unsigned (bits : Nat) (inp : istream) (old : Nat) : istream × Nat :=
  if inp.fail then (inp, old)
  else
    let ds := inp.buf.takeWhile Char.isDigit
    let v := ds.foldl (fun acc c => 10 * acc + digitVal c) 0
    if ds.isEmpty then ({ inp with fail := true }, old)
    else if v < 2 ^ bits then ({ inp with buf := inp.buf.dropWhile Char.isDigit }, v)
    else ({ buf := inp.buf.dropWhile Char.isDigit, fail := true }, old)

/-- Modelled from the spec: `utility::delim(char)` of `trng/utility.hpp`, not among the
sources; "reject any input not matching the literal delimiters/spacing exactly ... mark the
input stream as failed": the next character is taken when it is `c`, else the stream fails. -/
def delim (c : Char) (inp : istream) : istream :=
  if inp.fail then inp
  else
    match inp.buf with
    | [] => { inp with fail := true }
    | x :: rest => if x = c then { inp with buf := rest } else { inp with fail := true }

/-- Modelled from the spec: `utility::delim(const char *)` of `trng/utility.hpp`, not among
the sources: the characters of the string one after the other. -/
def delim_str : List Char → istream → istream
  | [], inp => inp
  | c :: cs, inp => delim_str cs (delim c inp)

/-- Modelled from the spec: `utility::ignore_spaces()` of `trng/utility.hpp`, not among the
sources: leading whitespace is skipped. -/
def ignore_spaces (inp : istream) : istream :=
  if inp.fail then inp else { inp with buf := inp.buf.dropWhile Char.isWhitespace }

/-! ### Serialization of the engine -/

/-- The static member `name()`: the text that it writes to the stream `name_str`, cut to the
63 characters that its copy loop allows. The member copies this text through the pointer
`p=name_str.str().c_str()`, which points into a temporary string that is destroyed at the end
of that very statement, so what the loop reads afterwards is not defined by the language.
`name` is the text meant, the one the copy delivers when the characters are still in place;
the serializer and the parser below use it only as the text that both put after `[`. -/
def name (sp : Species) : List Char :=
  let name_str := "lagfib4plus_".toList ++ decimal sp.wordbits ++ ['_']
    ++ decimal sp.A ++ ['_'] ++ decimal sp.B
    ++ ['_'] ++ decimal sp.C ++ ['_']
    ++ decimal sp.D
  name_str.take 63

/-- The output `operator<<` of `parameter_type`, appending to what was written. -/
def parameter_type.put (out : List Char) (_ : parameter_type) : List Char :=
  out ++ ['('] ++ [')']

/-- The loop of the output operator of `status_type`: `n` more slots, the next one `i`. -/
def put_slots (S : status_type) : Nat → Nat → List Char → List Char
  | 0, _, out => out
  | n + 1, i, out => put_slots S n (i + 1) (out ++ [' '] ++ decimal (S.r i))

/-- The output `operator<<` of `status_type`. -/
def status_type.put (sp : Species) (out : List Char) (S : status_type) : List Char :=
  let out := out ++ ['('] ++ decimal S.index
  let out := put_slots S (ceil2 sp.D) 0 out
  out ++ [')']

/-- The output `operator<<` of the engine. -/
def lagfib4plus.put (sp : Species) (out : List Char) (R : lagfib4plus) : List Char :=
  let out := out ++ ['['] ++ name sp ++ [' ']
  let out := parameter_type.put out R.P
  let out := out ++ [' ']
  let out := status_type.put sp out R.S
  out ++ [']']

/-- The text of an engine: what `operator<<` writes to an empty stream. -/
def serialize (sp : Species) (R : lagfib4plus) : List Char := lagfib4plus.put sp [] R

/-- The input `operator>>` of `parameter_type`. -/
def parameter_type.get (inp : istream) (P : parameter_type) : istream × parameter_type :=
  let P_new : parameter_type := {}
  let inp := delim ')' (delim '(' inp)
  (inp, if inp.fail then P else P_new)

/-- The loop of the input operator of `status_type`: `n` more slots, the next one `i`. -/
def get_slots (sp : Species) : Nat → Nat → istream → status_type → istream × status_type
  | 0, _, inp, S => (inp, S)
  | n + 1, i, inp, S =>
    let e := get_unsigned sp.wordbits (delim ' ' inp) (S.r i)
    get_slots sp n (i + 1) e.1 { S with r := Function.update S.r i e.2 }

/-- The input `operator>>` of `status_type`. -/
def status_type.get (sp : Species) (inp : istream) (S : status_type) : istream × status_type :=
  let S_new := status_type.init
  let e := get_unsigned 32 (delim '(' inp) S_new.index
  let S_new := { S_new with index := e.2 }
  let l := get_slots sp (ceil2 sp.D) 0 e.1 S_new
  let inp := delim ')' l.1
  (inp, if inp.fail then S else l.2)

/-- The input `operator>>` of the engine. -/
def lagfib4plus.get (sp : Species) (inp : istream) (R : lagfib4plus) : istream × lagfib4plus :=
  let P_new : parameter_type := {}
  let S_new := status_type.init
  let inp := ignore_spaces inp
  let inp := delim ' ' (delim_str (name sp) (delim '[' inp))
  let p := parameter_type.get inp P_new
  let inp := delim ' ' p.1
  let s := status_type.get sp inp S_new
  let inp := delim ']' s.1
  (inp, if inp.fail then R else { P := p.2, S := s.2 })

/-- Parsing a text into the engine `R`. -/
def parse (sp : Species) (text : List Char) (R : lagfib4plus) : istream × lagfib4plus :=
  lagfib4plus.get sp (istream.of text) R

/-! ## The sampler `binomial_dist` in exact arithmetic

Here `double` is a rational number and `int` an integer without a bound: the table as the
specification gives its values. The section on machine arithmetic below has the same loops
with the 32-bit counter and with binary64. -/

/-- Modelled from the spec: `math::pow` of `trng/math.hpp`, not among the sources; the
"power function". Its second argument is always the conversion of an `int`. -/
def math_pow (x : ℚ) (e : Int) : ℚ := x ^ e

/-- The class `binomial_dist::param_type` in exact arithmetic: members `p_`, `n_` and the
table `P_`. -/
structure param_type where
  p_ : ℚ
  n_ : Int
  P_ : List ℚ
deriving DecidableEq

/-- The first loop of `calc_probabilities()` in exact arithmetic: `k` more rounds, the next
one for `i`, with the running coefficient `binom`. It returns the table and the coefficient.
The loop with its test `i<=n_` and the 32-bit counter is `machine.push_loop`. -/
def push_loop (p : ℚ) (n : Int) : Nat → Int → ℚ → List ℚ → List ℚ × ℚ
  | 0, _, binom, P => (P, binom)
  | k + 1, i, binom, P =>
    let P := P ++ [binom * math_pow p i * math_pow (1 - p) (n - i)]
    let binom := binom * ((n - i : Int) : ℚ)
    let binom := binom / ((i + 1 : Int) : ℚ)
    push_loop p n k (i + 1) binom P

/-- The second loop of `calc_probabilities()`, `P_[i]+=P_[i-1]`: `k` more rounds, the next
one for `i`. -/
def cumul_loop : Nat → Nat → List ℚ → List ℚ
  | 0, _, P => P
  | k + 1, i, P => cumul_loop k (i + 1) (P.set i (P.getD i 0 + P.getD (i - 1) 0))

/-- The third loop of `calc_probabilities()`, `P_[i]/=P_.back()`: `k` more rounds, the next
one for `i`. -/
def norm_loop : Nat → Nat → List ℚ → List ℚ
  | 0, _, P => P
  | k + 1, i, P => norm_loop k (i + 1) (P.set i (P.getD i 0 / P.getLastD 0))

/-- The table that `calc_probabilities()` stores in `P_` for the members `p_` and `n_`, in
exact arithmetic. The first loop runs for `i = 0, ..., n_`, the second for
`i = 1, ..., size - 1`, the third for `i = 0, ..., size - 1`. For `n_` below `INT_MAX` it is
the table that the loops of `machine.calc_probabilities` build when no operation rounds
(`machine_calc_rational`). -/
def calc_probabilities (p : ℚ) (n : Int) : List ℚ :=
  let P := (push_loop p n (n + 1).toNat 0 1 []).1
  let P := cumul_loop (P.length - 1) 1 P
  norm_loop P.length 0 P

/-- The constructor `param_type(double p, int n)`. -/
def param_type.ctor (p : ℚ) (n : Int) : param_type :=
  { p_ := p, n_ := n, P_ := calc_probabilities p n }

/-- The getter `p()`. -/
def param_type.p (P : param_type) : ℚ := P.p_

/-- The getter `n()`. -/
def param_type.n (P : param_type) : Int := P.n_

/-- The setter `p(double p_new)`. -/
def param_type.set_p (P : param_type) (p_new : ℚ) : param_type :=
  { P with p_ := p_new, P_ := calc_probabilities p_new P.n_ }

/-- The setter `n(int n_new)`. -/
def param_type.set_n (P : param_type) (n_new : Int) : param_type :=
  { P with n_ := n_new, P_ := calc_probabilities P.p_ n_new }

/-- The comparison `operator==` of `param_type`. -/
def param_type.eq (p1 p2 : param_type) : Bool :=
  p1.p == p2.p && p1.n == p2.n

/-- The class `binomial_dist`: the member `P`. -/
structure binomial_dist where
  P : param_type
deriving DecidableEq

/-- The constructor `binomial_dist(double p, int n)`. -/
def binomial_dist.ctor (p : ℚ) (n : Int) : binomial_dist := { P := param_type.ctor p n }

/-- The member `min()`. -/
def binomial_dist.min (_ : binomial_dist) : Int := 0

/-- The member `max()`. -/
def binomial_dist.max (g : binomial_dist) : Int := g.P.n

/-- The member `pdf(int x)`; `none` stands for a read outside the table. -/
def binomial_dist.pdf (g : binomial_dist) (x : Int) : Option ℚ :=
  if x < 0 ∨ x > g.P.n then some 0
  else if x = 0 then g.P.P_[0]?
  else
    match g.P.P_[x.toNat]?, g.P.P_[(x - 1).toNat]? with
    | some a, some b => some (a - b)
    | _, _ => none

/-- The member `cdf(int x)`; `none` stands for a read outside the table. -/
def binomial_dist.cdf (g : binomial_dist) (x : Int) : Option ℚ :=
  if x < 0 then some 0
  else if x ≤ g.P.n then g.P.P_[x.toNat]?
  else some 1

/-- The input `operator>>` of `param_type`. The extractions of a `double` and of an `int`
belong to the standard library and are arguments here; each gets the stream and returns the
stream and the value read. The locals `p` and `n` are used only after both succeeded. -/
def param_type.get (get_double : istream → istream × ℚ) (get_int : istream → istream × Int)
    (inp : istream) (P : param_type) : istream × param_type :=
  let a := get_double (delim '(' inp)
  let b := get_int (delim ' ' a.1)
  let inp := delim ')' b.1
  (inp, if inp.fail then P else param_type.ctor a.2 b.2)

/-- An extraction of an `int` for running `param_type.get` on a text: an unsigned run of
digits below `2 ^ 31`, which is what the library reads from the digits that `operator<<`
writes for an `n ≥ 0`. -/
def get_int_digits (inp : istream) : istream × Int :=
  let e := get_unsigned 31 inp 0
  (e.1, (e.2 : Int))

/-- An extraction of a `double` for running `param_type.get` on a text: digits, a point,
digits, read as the exact decimal fraction. On a text in fixed notation the library reads
the `double` nearest to this fraction; for the fraction 0 that is 0. -/
def get_double_fixed (inp : istream) : istream × ℚ :=
  let a := get_unsigned 64 inp 0
  let frac := (delim '.' a.1).buf.takeWhile Char.isDigit
  let b := get_unsigned 64 (delim '.' a.1) 0
  (b.1, (a.2 : ℚ) + (b.2 : ℚ) / 10 ^ frac.length)

/-! ### The binomial distribution as the specification words it -/

/-- The probability mass of the binomial distribution at `k`: `C(n,k) p^k (1-p)^(n-k)`. -/
def binom_pmf (p : ℚ) (n k : Nat) : ℚ := (n.choose k : ℚ) * p ^ k * (1 - p) ^ (n - k)

/-- The cumulative probability at `x`: the sum of the masses at `0, ..., x`. -/
def binom_cdf (p : ℚ) (n x : Nat) : ℚ := ∑ k in Finset.range (x + 1), binom_pmf p n k

/-! ## Further members and the states that can be reached -/

/-- The species the class is written for: `D` is the longest lag, so that the `D` seeded
slots and a buffer of `ceil2 D` slots hold every word the recurrence reads, and the lags are
`unsigned int`. All sixteen typedefs are of this kind. -/
def Species.wf (sp : Species) : Prop :=
  (0 < sp.A ∧ sp.A ≤ sp.D) ∧ (0 < sp.B ∧ sp.B ≤ sp.D) ∧ (0 < sp.C ∧ sp.C ≤ sp.D) ∧
    0 < sp.D ∧ sp.D < 2 ^ 32

/-- The constructor `lagfib4plus(gen &g) : P(), S() { seed(g); }`. -/
def lagfib4plus.ctor_gen {σ : Type} (sp : Species) (g : gen σ) (st : σ) : lagfib4plus × σ :=
  seed sp g st { P := {}, S := status_type.init }

/-- The engine states reached by the constructors, the three `seed` overloads, `generate()`
and the parsing of a text that `operator<<` wrote from such a state. -/
inductive reachable {σ : Type} (sp : Species) (M : aux_source σ) : lagfib4plus → Prop
  | ctor : reachable sp M (lagfib4plus.ctor sp M)
  | ctor_gen {τ : Type} (g : gen τ) (st : τ) : reachable sp M (lagfib4plus.ctor_gen sp g st).1
  | seed_default (R : lagfib4plus) : reachable sp M R → reachable sp M (seed_default sp M R)
  | seed_ul (s : Nat) (R : lagfib4plus) : reachable sp M R → reachable sp M (seed_ul sp M s R)
  | seed {τ : Type} (g : gen τ) (st : τ) (R : lagfib4plus) :
      reachable sp M R → reachable sp M (seed sp g st R).1
  | generate (R : lagfib4plus) : reachable sp M R → reachable sp M (generate sp R).2
  | parse (E R : lagfib4plus) :
      reachable sp M E → reachable sp M R → reachable sp M (parse sp (serialize sp E) R).2

/-- The constructor `binomial_dist(const param_type &P)`. -/
def binomial_dist.ctor_param (P : param_type) : binomial_dist := { P := P }

/-- The getter `param()`. -/
def binomial_dist.param (g : binomial_dist) : param_type := g.P

/-- The setter `param(const param_type &P_new)`. -/
def binomial_dist.set_param (g : binomial_dist) (P_new : param_type) : binomial_dist :=
  { g with P := P_new }

/-- The getter `p()` of the sampler. -/
def binomial_dist.p (g : binomial_dist) : ℚ := g.P.p

/-- The setter `p(double p_new)` of the sampler. -/
def binomial_dist.set_p (g : binomial_dist) (p_new : ℚ) : binomial_dist :=
  { g with P := g.P.set_p p_new }

/-- The getter `n()` of the sampler. -/
def binomial_dist.n (g : binomial_dist) : Int := g.P.n

/-- The setter `n(int n_new)` of the sampler. -/
def binomial_dist.set_n (g : binomial_dist) (n_new : Int) : binomial_dist :=
  { g with P := g.P.set_n n_new }

/-- The parameter objects reached by the constructor, the two setters and the input
operator, whatever the extractions of `double` and `int` are. -/
inductive param_reachable : param_type → Prop
  | ctor (p : ℚ) (n : Int) : param_reachable (param_type.ctor p n)
  | set_p (P : param_type) (p_new : ℚ) : param_reachable P → param_reachable (P.set_p p_new)
  | set_n (P : param_type) (n_new : Int) : param_reachable P → param_reachable (P.set_n n_new)
  | get (get_double : istream → istream × ℚ) (get_int : istream → istream × Int)
      (inp : istream) (P : param_type) :
      param_reachable P → param_reachable (param_type.get get_double get_int inp P).2

/-- The samplers reached by the two constructors and the three setters. -/
inductive sampler_reachable : binomial_dist → Prop
  | ctor (p : ℚ) (n : Int) : sampler_reachable (binomial_dist.ctor p n)
  | ctor_param (P : param_type) : param_reachable P → sampler_reachable (binomial_dist.ctor_param P)
  | set_param (g : binomial_dist) (P : param_type) :
      sampler_reachable g → param_reachable P → sampler_reachable (g.set_param P)
  | set_p (g : binomial_dist) (p_new : ℚ) : sampler_reachable g → sampler_reachable (g.set_p p_new)
  | set_n (g : binomial_dist) (n_new : Int) : sampler_reachable g → sampler_reachable (g.set_n n_new)

/-! ### Serialization of the parameter object -/

/-- Rounding to the nearest integer, a tie to the even one. -/
def round_even (y : ℚ) : Int :=
  if y - ⌊y⌋ < 1 / 2 then ⌊y⌋
  else if 1 / 2 < y - ⌊y⌋ then ⌊y⌋ + 1
  else if ⌊y⌋ % 2 = 0 then ⌊y⌋ else ⌊y⌋ + 1

/-- The digits `l` with zeros in front up to the width `w`. -/
def zero_pad (w : Nat) (l : List Char) : List Char :=
  List.replicate (w - l.length) '0' ++ l

/-- What `out << x` writes for a `double` under the flag `fixed` and the precision `prec`:
the sign, the integer part, a point and `prec` decimals of the rounded value. -/
def put_fixed (prec : Nat) (x : ℚ) : List Char :=
  let m := (round_even (|x| * 10 ^ prec)).toNat
  (if x < 0 then ['-'] else []) ++ decimal (m / 10 ^ prec) ++ ['.']
    ++ zero_pad prec (decimal (m % 10 ^ prec))

/-- What `out << n` writes for an `int` under the flag `dec`. -/
def put_int (n : Int) : List Char :=
  if n < 0 then '-' :: decimal n.natAbs else decimal n.toNat

/-- The output `operator<<` of `param_type`. -/
def param_type.put (out : List Char) (P : param_type) : List Char :=
  out ++ ['('] ++ put_fixed 16 P.p ++ [' '] ++ put_int P.n ++ [')']

/-- A bit source with the range `0 .. 1` whose every draw is 1, so that every bit taken from
it is 1. -/
def all_ones : gen Unit :=
  { min := 0, max := 1, next := fun _ => (1, ()) }

/-! ## The sampler in machine arithmetic

The table of the sampler once more, now with the counter of the first loop as the 32-bit
`int` it is and with the arithmetic of `double` as a parameter. `ieee` is that arithmetic as
IEEE 754 binary64 has it, every operation rounding its exact result to the nearest value (a
tie to the even one); `rational` is the exact arithmetic of the section above. -/

/-- The largest value of `int`, a type of 32 bits. -/
def INT_MAX : Int := 2 ^ 31 - 1

/-- A value of `double` in the format binary64: a finite number, which is `+0.0` when the
number is 0; the negative zero `-0.0`; an infinity of either sign; or a NaN. -/
inductive dbl where
  | fin (q : ℚ)
  | nzero
  | inf (neg : Bool)
  | nan
deriving DecidableEq

/-- Whether a value compares equal to `0.0`: true for `+0.0` and `-0.0` only. -/
def dbl.is_zero : dbl → Bool
  | .fin q => decide (q = 0)
  | .nzero => true
  | _ => false

/-- The sign bit of a value: true for the negative ones. -/
def dbl.sign : dbl → Bool
  | .fin q => decide (q < 0)
  | .nzero => true
  | .inf s => s
  | .nan => false

/-- The number that a finite value or a zero stands for. -/
def dbl.val : dbl → ℚ
  | .fin q => q
  | _ => 0

/-- The zero with the sign bit `neg`. -/
def dbl.zero_of (neg : Bool) : dbl := if neg then .nzero else .fin 0

/-- The exact result `q` of an operation rounded to binary64, to the nearest value and a tie
to the even one: 53 significant bits, the exponent of a normal number from -1022 to 1023,
below that the subnormal numbers in steps of `2 ^ (-1074)`, and an infinity when the rounded
magnitude reaches `2 ^ 1024`. An exact zero gets the sign bit `neg`, a result that rounds to
zero keeps its own sign. -/
def dbl.round (q : ℚ) (neg : Bool) : dbl :=
  if q = 0 then dbl.zero_of neg
  else
    let e := max (Int.log 2 |q|) (-1022)
    let m := round_even (|q| / 2 ^ (e - 52))
    let r : ℚ := m * 2 ^ (e - 52)
    if 2 ^ 1024 ≤ r then .inf (decide (q < 0))
    else if r = 0 then dbl.zero_of (decide (q < 0))
    else .fin (if q < 0 then -r else r)

/-- The product `x * y` of two `double` values. -/
def dbl.mul (x y : dbl) : dbl :=
  match x, y with
  | .nan, _ => .nan
  | _, .nan => .nan
  | .inf s, y => if y.is_zero then .nan else .inf (xor s y.sign)
  | x, .inf s => if x.is_zero then .nan else .inf (xor x.sign s)
  | x, y => dbl.round (x.val * y.val) (xor x.sign y.sign)

/-- The quotient `x / y` of two `double` values. -/
def dbl.div (x y : dbl) : dbl :=
  match x, y with
  | .nan, _ => .nan
  | _, .nan => .nan
  | .inf _, .inf _ => .nan
  | .inf s, y => .inf (xor s y.sign)
  | x, .inf s => dbl.zero_of (xor x.sign s)
  | x, y =>
    if y.is_zero then (if x.is_zero then .nan else .inf (xor x.sign y.sign))
    else dbl.round (x.val / y.val) (xor x.sign y.sign)

/-- The sum `x + y` of two `double` values. -/
def dbl.add (x y : dbl) : dbl :=
  match x, y with
  | .nan, _ => .nan
  | _, .nan => .nan
  | .inf s, .inf t => if s = t then .inf s else .nan
  | .inf s, _ => .inf s
  | _, .inf t => .inf t
  | x, y => dbl.round (x.val + y.val) (x.sign && y.sign)

/-- The negation `-x` of a `double` value. -/
def dbl.neg : dbl → dbl
  | .fin q => if q = 0 then .nzero else .fin (-q)
  | .nzero => .fin 0
  | .inf s => .inf (!s)
  | .nan => .nan

/-- The difference `x - y` of two `double` values. -/
def dbl.sub (x y : dbl) : dbl := dbl.add x (dbl.neg y)

/-- The comparison `x < y` of two `double` values; false when either is a NaN. -/
def dbl.lt (x y : dbl) : Bool :=
  match x, y with
  | .nan, _ => false
  | _, .nan => false
  | .inf s, .inf t => s && !t
  | .inf s, _ => s
  | _, .inf t => !t
  | x, y => decide (x.val < y.val)

/-- Modelled from the spec: `math::pow` of `trng/math.hpp`, not among the sources; the
"power function", here for `double`. Its second argument is always the conversion of an
`int`, so it is taken as an integer `k`: the result is 1 for `k = 0` and for the base 1, a
zero or an infinity of the due sign for a base that is a zero or an infinity, and the
rounded power otherwise. -/
def dbl.pow (x : dbl) (k : Int) : dbl :=
  if k = 0 then .fin 1
  else
    match x with
    | .nan => .nan
    | .inf s =>
      if 0 < k then .inf (s && decide (k % 2 = 1)) else dbl.zero_of (s && decide (k % 2 = 1))
    | .nzero =>
      if 0 < k then dbl.zero_of (decide (k % 2 = 1)) else .inf (decide (k % 2 = 1))
    | .fin q =>
      if q = 0 then (if 0 < k then .fin 0 else .inf false)
      else dbl.round (q ^ k) false

/-- The operations on `double` that the sampler uses: the constants `0.0` and `1.0`, the
conversion of an `int`, the four operations, and `math::pow` with the conversion of an `int`
as its second argument. -/
structure arith (α : Type) where
  zero : α
  one : α
  of_int : Int → α
  add : α → α → α
  sub : α → α → α
  mul : α → α → α
  div : α → α → α
  pow : α → Int → α

/-- The arithmetic of `double` as binary64. The conversion of an `int` is exact. -/
def ieee : arith dbl :=
  { zero := .fin 0, one := .fin 1, of_int := fun k => .fin k, add := dbl.add, sub := dbl.sub,
    mul := dbl.mul, div := dbl.div, pow := dbl.pow }

/-- The exact arithmetic: `double` as a rational number, as in `push_loop` above. -/
def rational : arith ℚ :=
  { zero := 0, one := 1, of_int := fun k => (k : ℚ), add := fun a b => a + b,
    sub := fun a b => a - b, mul := fun a b => a * b, div := fun a b => a / b,
    pow := math_pow }

/-- The first loop of `calc_probabilities()`, `for (int i=0; i<=n_; ++i)`, from the test
`i<=n_` on, with the counter `i`, the running coefficient `binom` and the table `P`. The
result is `none` when the counter has reached `INT_MAX` and the test still holds: `i+1` and
`++i` then overflow, which the language leaves undefined, and the loop does not come to an
end with a table. -/
def machine.push_loop {α : Type} (A : arith α) (p : α) (n : Int) (i : Int) (binom : α)
    (P : List α) : Option (List α) :=
  if i ≤ n then
    let P := P ++ [A.mul (A.mul binom (A.pow p i)) (A.pow (A.sub A.one p) (n - i))]
    let binom := A.mul binom (A.of_int (n - i))
    if i < INT_MAX then
      let binom := A.div binom (A.of_int (i + 1))
      machine.push_loop A p n (i + 1) binom P
    else none
  else some P
termination_by (INT_MAX - i).toNat
decreasing_by
  simp only [INT_MAX] at *
  omega

/-- The second loop of `calc_probabilities()`, `P_[i]+=P_[i-1]`: `k` more rounds, the next
one for `i`. -/
def machine.cumul_loop {α : Type} (A : arith α) : Nat → Nat → List α → List α
  | 0, _, P => P
  | k + 1, i, P =>
    machine.cumul_loop A k (i + 1) (P.set i (A.add (P.getD i A.zero) (P.getD (i - 1) A.zero)))

/-- The third loop of `calc_probabilities()`, `P_[i]/=P_.back()`: `k` more rounds, the next
one for `i`. -/
def machine.norm_loop {α : Type} (A : arith α) : Nat → Nat → List α → List α
  | 0, _, P => P
  | k + 1, i, P =>
    machine.norm_loop A k (i + 1) (P.set i (A.div (P.getD i A.zero) (P.getLastD A.zero)))

/-- The table of `calc_probabilities()` as it is before the third loop, when the first loop
comes to an end. -/
def machine.cumulative {α : Type} (A : arith α) (p : α) (n : Int) : Option (List α) :=
  (machine.push_loop A p n 0 A.one []).map fun P => machine.cumul_loop A (P.length - 1) 1 P

/-- The table that `calc_probabilities()` stores in `P_` for the members `p_` and `n_`, when
the first loop comes to an end. -/
def machine.calc_probabilities {α : Type} (A : arith α) (p : α) (n : Int) : Option (List α) :=
  (machine.cumulative A p n).map fun P => machine.norm_loop A P.length 0 P

/-- The class `binomial_dist::param_type` over the arithmetic at hand: members `p_`, `n_` and
the table `P_`. -/
structure machine.param_type (α : Type) where
  p_ : α
  n_ : Int
  P_ : List α

/-- The constructor `param_type(double p, int n)`; `none` when `calc_probabilities()` does
not come to an end. -/
def machine.param_type.ctor {α : Type} (A : arith α) (p : α) (n : Int) :
    Option (machine.param_type α) :=
  (machine.calc_probabilities A p n).map fun T => { p_ := p, n_ := n, P_ := T }

/-- The member `pdf(int x)` of the sampler with the parameter object `P`; `none` stands for a
read outside the table. -/
def machine.pdf {α : Type} (A : arith α) (P : machine.param_type α) (x : Int) : Option α :=
  if x < 0 ∨ x > P.n_ then some A.zero
  else if x = 0 then P.P_[0]?
  else
    match P.P_[x.toNat]?, P.P_[(x - 1).toNat]? with
    | some a, some b => some (A.sub a b)
    | _, _ => none

/-- The member `cdf(int x)` of the sampler with the parameter object `P`; `none` stands for a
read outside the table. -/
def machine.cdf {α : Type} (A : arith α) (P : machine.param_type α) (x : Int) : Option α :=
  if x < 0 then some A.zero
  else if x ≤ P.n_ then P.P_[x.toNat]?
  else some A.one

/-- The value of `binom` at the start of round `i` of the first loop. -/
def machine.coef {α : Type} (A : arith α) (n : Int) : Nat → α
  | 0 => A.one
  | i + 1 => A.div (A.mul (machine.coef A n i) (A.of_int (n - i))) (A.of_int ((i : Int) + 1))

/-- The entry that round `i` of the first loop pushes. -/
def machine.entry {α : Type} (A : arith α) (p : α) (n : Int) (i : Nat) : α :=
  A.mul (A.mul (machine.coef A n i) (A.pow p i)) (A.pow (A.sub A.one p) (n - i))

/-- The entry `j` after the second loop, for the pushed entries `f`: `f 0`, and from then on
the entry `f j` plus the one before. -/
def machine.csum {α : Type} (A : arith α) (f : Nat → α) : Nat → α
  | 0 => f 0
  | j + 1 => A.add (f (j + 1)) (machine.csum A f j)

/-- A value is `+inf` or a finite number not below `L`. -/
def dbl.at_least (L : ℚ) (x : dbl) : Prop := x = .inf false ∨ ∃ q, x = .fin q ∧ L ≤ q

/-- A value is a zero or a NaN. -/
def dbl.zero_or_nan (x : dbl) : Prop := x.is_zero = true ∨ x = .nan

/-! ## Facts about `ceil2` and `mask` -/

theorem ceil2Aux_pow (fuel k x : Nat) : ∃ m, ceil2Aux fuel (2 ^ k) x = 2 ^ m := by
  induction fuel generalizing k with
  | zero => exact ⟨k, rfl⟩
  | succ f ih =>
    unfold ceil2Aux
    split
    · exact ⟨k, rfl⟩
    · have h := ih (k + 1)
      rwa [pow_succ, mul_comm] at h

theorem ceil2_pow (x : Nat) : ∃ m, ceil2 x = 2 ^ m := by
  have h := ceil2Aux_pow x 0 x
  simpa [ceil2] using h

theorem ceil2Aux_ge (fuel k x : Nat) (h : x ≤ 2 ^ (k + fuel)) :
    x ≤ ceil2Aux fuel (2 ^ k) x := by
  induction fuel generalizing k with
  | zero => simpa [ceil2Aux] using h
  | succ f ih =>
    unfold ceil2Aux
    split
    · assumption
    · have h2 := ih (k + 1) (by rwa [show k + 1 + f = k + (f + 1) by omega])
      rwa [pow_succ, mul_comm] at h2

theorem le_ceil2 (x : Nat) : x ≤ ceil2 x := by
  have h := ceil2Aux_ge x 0 x (by simpa using (Nat.lt_two_pow x).le)
  simpa [ceil2] using h

theorem ceil2Aux_least (fuel k x m : Nat) (hk : ∀ j, j < k → 2 ^ j < x) (hm : x ≤ 2 ^ m)
    (hx : x ≤ 2 ^ (k + fuel)) : ceil2Aux fuel (2 ^ k) x ≤ 2 ^ m := by
  induction fuel generalizing k with
  | zero =>
    simp only [ceil2Aux]
    by_contra hlt
    have hlt2 : m < k := by
      by_contra hge
      exact hlt (Nat.pow_le_pow_right (by norm_num) (Nat.le_of_not_lt hge))
    exact absurd (hk m hlt2) (by omega)
  | succ f ih =>
    unfold ceil2Aux
    split
    · by_contra hlt
      have hlt2 : m < k := by
        by_contra hge
        exact hlt (Nat.pow_le_pow_right (by norm_num) (Nat.le_of_not_lt hge))
      exact absurd (hk m hlt2) (by omega)
    · rename_i hnot
      have h2 := ih (k + 1) (fun j hj => by
        rcases Nat.lt_succ_iff_lt_or_eq.mp hj with h | h
        · exact hk j h
        · subst h; omega) (by rwa [show k + 1 + f = k + (f + 1) by omega])
      rwa [pow_succ, mul_comm] at h2

/-- The value `ceil2 x` is the least power of two that is at least `x`. -/
theorem ceil2_least (x m : Nat) (hm : x ≤ 2 ^ m) : ceil2 x ≤ 2 ^ m := by
  have h := ceil2Aux_least x 0 x m (fun j hj => absurd hj (Nat.not_lt_zero j)) hm
    (by simpa using (Nat.lt_two_pow x).le)
  simpa [ceil2] using h

theorem ceil2_pos (x : Nat) : 0 < ceil2 x := by
  obtain ⟨m, hm⟩ := ceil2_pow x
  rw [hm]; positivity

theorem and_mask (x d : Nat) : x &&& mask d = x % ceil2 d := by
  obtain ⟨m, hm⟩ := ceil2_pow d
  simp only [mask, hm]
  exact Nat.and_pow_two_sub_one_eq_mod x m

theorem ceil2_dvd (d : Nat) (hd : d < 2 ^ 32) : ceil2 d ∣ 2 ^ 32 := by
  obtain ⟨m, hm⟩ := ceil2_pow d
  have hle : ceil2 d ≤ 2 ^ 32 := ceil2_least d 32 hd.le
  rw [hm] at hle ⊢
  have : m ≤ 32 := by
    by_contra h
    have : 2 ^ 33 ≤ 2 ^ m := Nat.pow_le_pow_right (by norm_num) (by omega)
    omega
  exact Nat.pow_dvd_pow 2 this


theorem sub32_cast (a b : Nat) : ((sub32 a b : Nat) : Int) = ((a : Int) - b) % 2 ^ 32 := by
  unfold sub32
  omega

theorem sub32_and_mask (a b d : Nat) (hd : d < 2 ^ 32) :
    sub32 a b &&& mask d = (((a : Int) - b) % (ceil2 d : Int)).toNat := by
  rw [and_mask]
  have hdvd : ((ceil2 d : Nat) : Int) ∣ (2 : Int) ^ 32 := by
    have := ceil2_dvd d hd
    exact_mod_cast (Int.natCast_dvd_natCast.mpr this)
  have h : ((sub32 a b % ceil2 d : Nat) : Int) = ((a : Int) - b) % (ceil2 d : Int) := by
    rw [Int.natCast_mod, sub32_cast, Int.emod_emod_of_dvd _ hdvd]
  rw [← h, Int.toNat_natCast]

theorem succ32_and_mask (i d : Nat) (hd : d < 2 ^ 32) :
    ((i + 1) % 2 ^ 32) &&& mask d = (i + 1) % ceil2 d := by
  rw [and_mask]
  exact Nat.mod_mod_of_dvd _ (ceil2_dvd d hd)

theorem wadd4 (sp : Species) (a b c d : Nat) :
    wadd sp (wadd sp (wadd sp a b) c) d = (a + b + c + d) % 2 ^ sp.wordbits := by
  simp only [wadd]
  rw [Nat.mod_add_mod, add_assoc ((a + b) % 2 ^ sp.wordbits), Nat.mod_add_mod, add_assoc]
  simp only [add_assoc]

/-! ## The step -/

theorem step_index (sp : Species) (hD : sp.D < 2 ^ 32) (S : status_type) :
    (step sp S).index = (S.index + 1) % ceil2 sp.D := by
  simp only [step, succ32_and_mask _ _ hD]

theorem step_r (sp : Species) (hD : sp.D < 2 ^ 32) (S : status_type) (j : Nat) :
    (step sp S).r j =
      if j = (S.index + 1) % ceil2 sp.D then
        (S.r (sub32 ((S.index + 1) % ceil2 sp.D) sp.A &&& mask sp.D)
          + S.r (sub32 ((S.index + 1) % ceil2 sp.D) sp.B &&& mask sp.D)
          + S.r (sub32 ((S.index + 1) % ceil2 sp.D) sp.C &&& mask sp.D)
          + S.r (sub32 ((S.index + 1) % ceil2 sp.D) sp.D &&& mask sp.D)) % 2 ^ sp.wordbits
      else S.r j := by
  simp only [step, succ32_and_mask _ _ hD, wadd4, Function.update_apply]

theorem generate_fst (sp : Species) (R : lagfib4plus) :
    (generate sp R).1 = (step sp R.S).r (step sp R.S).index := rfl

theorem generate_snd (sp : Species) (R : lagfib4plus) :
    (generate sp R).2 = { R with S := step sp R.S } := rfl

/-- The masked 32-bit difference `(i mod W) - L`, for a lag `L ≤ i`, is `(i - L) mod W`. -/
theorem lag_pos (i L d : Nat) (hd : d < 2 ^ 32) (hL : L ≤ i) :
    sub32 (i % ceil2 d) L &&& mask d = (i - L) % ceil2 d := by
  rw [sub32_and_mask _ _ _ hd]
  have h : (((i % ceil2 d : Nat) : Int) - L) % (ceil2 d : Int)
      = (((i - L) % ceil2 d : Nat) : Int) := by
    rw [Int.natCast_mod, Int.natCast_mod, Nat.cast_sub hL, Int.sub_emod, Int.emod_emod_of_dvd _
      (dvd_refl _), ← Int.sub_emod]
  rw [h, Int.toNat_natCast]

/-- C1. One call of `generate()` moves the index to `(idx + 1) mod W`, writes there the sum
modulo `2 ^ wordbits` of the four words found, before the write, at the positions
`(idx' - lag) mod W`, leaves every other slot as it was, and returns the written word; the
32-bit subtraction followed by the bitmask is the mathematical `(idx' - lag) mod W`. -/
theorem generate_spec (sp : Species) (hD : sp.D < 2 ^ 32) (R : lagfib4plus) :
    let W := ceil2 sp.D
    let idx' := (R.S.index + 1) % W
    let lagged := fun L : Nat => R.S.r (((idx' : Int) - L) % (W : Int)).toNat
    (generate sp R).2.S.index = idx' ∧
    (generate sp R).2.S.r idx'
      = (lagged sp.A + lagged sp.B + lagged sp.C + lagged sp.D) % 2 ^ sp.wordbits ∧
    (∀ j, j ≠ idx' → (generate sp R).2.S.r j = R.S.r j) ∧
    (generate sp R).1 = (generate sp R).2.S.r idx' ∧
    (generate sp R).2.P = R.P ∧
    (∀ L, sub32 idx' L &&& mask sp.D = (((idx' : Int) - L) % (W : Int)).toNat) := by
  intro W idx' lagged
  refine ⟨?_, ?_, ?_, ?_, rfl, fun L => sub32_and_mask _ _ _ hD⟩
  · simp only [generate_snd, step_index sp hD]
  · simp only [generate_snd, step_r sp hD, sub32_and_mask _ _ _ hD]
    simp only [idx', W, lagged, if_true]
  · intro j hj
    simp only [generate_snd, step_r sp hD]
    rw [if_neg hj]
  · simp only [generate_fst, generate_snd, step_index sp hD]

/-! ## The recurrence over many steps -/

theorem run_succ (sp : Species) (k : Nat) (R : lagfib4plus) :
    run sp (k + 1) R = (generate sp (run sp k R)).2 := rfl

/-- After `k` steps from index `D - 1` the index is `(D - 1 + k) mod W` and the buffer holds
the last `W` words of the sequence (as far as they exist). -/
theorem run_window (sp : Species) (hD : sp.D < 2 ^ 32) (hD0 : 0 < sp.D) (R : lagfib4plus)
    (hidx : R.S.index = sp.D - 1) (k : Nat) :
    (run sp k R).S.index = (sp.D - 1 + k) % ceil2 sp.D ∧
    ∀ j, j < sp.D + k → sp.D + k ≤ j + ceil2 sp.D →
      (run sp k R).S.r (j % ceil2 sp.D)
        = if j < sp.D then R.S.r j else nth_value sp R (j - (sp.D - 1)) := by
  have hW := le_ceil2 sp.D
  induction k with
  | zero =>
    refine ⟨?_, ?_⟩
    · simp only [run, hidx, Nat.add_zero]
      rw [Nat.mod_eq_of_lt (by omega)]
    · intro j hj _
      simp only [run]
      rw [Nat.mod_eq_of_lt (by omega), if_pos (by omega)]
  | succ k ih =>
    obtain ⟨ih1, ih2⟩ := ih
    have hnext : ((run sp k R).S.index + 1) % ceil2 sp.D = (sp.D + k) % ceil2 sp.D := by
      rw [ih1, Nat.mod_add_mod]
      congr 1; omega
    refine ⟨?_, ?_⟩
    · rw [run_succ, generate_snd]
      simp only [step_index sp hD, hnext]
      congr 1; omega
    · intro j hj hjW
      rw [run_succ, generate_snd]
      simp only [step_r sp hD, hnext]
      by_cases hjk : j = sp.D + k
      · subst hjk
        rw [if_pos rfl, if_neg (by omega)]
        simp only [nth_value, generate_fst, step_index sp hD, step_r sp hD]
        rw [show sp.D + k - (sp.D - 1) - 1 = k by omega, hnext, if_pos trivial]
      · have hne : j % ceil2 sp.D ≠ (sp.D + k) % ceil2 sp.D := by
          intro heq
          have h1 : (sp.D + k - j) % ceil2 sp.D = 0 :=
            Nat.sub_mod_eq_zero_of_mod_eq heq.symm
          have h2 : sp.D + k - j < ceil2 sp.D := by omega
          rw [Nat.mod_eq_of_lt h2] at h1
          omega
        rw [if_neg hne]
        exact ih2 j (by omega) (by omega)

/-- The word written by step `k + 1` is the sum of the four lagged words of the sequence. -/
theorem recurrence_of_lags (sp : Species) (hD : sp.D < 2 ^ 32)
    (hA : 0 < sp.A ∧ sp.A ≤ sp.D) (hB : 0 < sp.B ∧ sp.B ≤ sp.D)
    (hC : 0 < sp.C ∧ sp.C ≤ sp.D) (hD0 : 0 < sp.D) (R : lagfib4plus)
    (hidx : R.S.index = sp.D - 1) (x : Nat → Nat)
    (hx : ∀ i, x i = if i < sp.D then R.S.r i else nth_value sp R (i - (sp.D - 1)))
    (i : Nat) (hi : sp.D ≤ i) :
    x i = (x (i - sp.A) + x (i - sp.B) + x (i - sp.C) + x (i - sp.D)) % 2 ^ sp.wordbits := by
  have hW := le_ceil2 sp.D
  obtain ⟨k, rfl⟩ : ∃ k, i = sp.D + k := ⟨i - sp.D, by omega⟩
  obtain ⟨h1, h2⟩ := run_window sp hD hD0 R hidx k
  have hnext : ((run sp k R).S.index + 1) % ceil2 sp.D = (sp.D + k) % ceil2 sp.D := by
    rw [h1, Nat.mod_add_mod]
    congr 1; omega
  have hlag : ∀ L, 0 < L → L ≤ sp.D →
      (run sp k R).S.r (sub32 ((sp.D + k) % ceil2 sp.D) L &&& mask sp.D)
        = x (sp.D + k - L) := by
    intro L hL0 hL
    rw [lag_pos _ _ _ hD (by omega), h2 _ (by omega) (by omega), hx]
  rw [hx (sp.D + k), if_neg (by omega)]
  simp only [nth_value, generate_fst, step_index sp hD, step_r sp hD]
  rw [show sp.D + k - (sp.D - 1) - 1 = k by omega, hnext, if_pos trivial,
    hlag _ hA.1 hA.2, hlag _ hB.1 hB.2, hlag _ hC.1 hC.2, hlag _ hD0 le_rfl]


/-! ## Seeding -/

theorem gen_state_next {σ : Type} (g : gen σ) (st : σ) (k : Nat) :
    gen.state g (g.next st).2 k = gen.state g st (k + 1) := by
  induction k with
  | zero => rfl
  | succ k ih => simp only [gen.state, ih]

theorem gen_state_add {σ : Type} (g : gen σ) (st : σ) (a b : Nat) :
    gen.state g (gen.state g st a) b = gen.state g st (a + b) := by
  induction b with
  | zero => rfl
  | succ b ih =>
    show (g.next (gen.state g (gen.state g st a) b)).2 = (g.next (gen.state g st (a + b))).2
    rw [ih]

theorem gen_draw_next {σ : Type} (g : gen σ) (st : σ) (k : Nat) :
    gen.draw g (g.next st).2 k = gen.draw g st (k + 1) := by
  simp only [gen.draw, gen_state_next]

theorem gen_draw_add {σ : Type} (g : gen σ) (st : σ) (a b : Nat) :
    gen.draw g (gen.state g st a) b = gen.draw g st (a + b) := by
  simp only [gen.draw, gen_state_add]

theorem seed_word_snd {σ : Type} (sp : Species) (g : gen σ) (n r : Nat) (st : σ) :
    (seed_word sp g n r st).2 = gen.state g st n := by
  induction n generalizing r st with
  | zero => rfl
  | succ n ih =>
    simp only [seed_word, ih, gen_state_next]

/-- The word built from `n` draws: the first draw ends up most significant. -/
theorem seed_word_fst {σ : Type} (sp : Species) (g : gen σ) (n r : Nat) (st : σ)
    (h : (r + 1) * 2 ^ n ≤ 2 ^ sp.wordbits) :
    (seed_word sp g n r st).1 = r * 2 ^ n
      + ∑ j in Finset.range n, (if seed_bit g (gen.draw g st j) then 1 else 0) * 2 ^ (n - 1 - j)
    := by
  induction n generalizing r st with
  | zero => simp [seed_word]
  | succ n ih =>
    have h2 : 2 * (r + 1) * 2 ^ n ≤ 2 ^ sp.wordbits := by
      rw [pow_succ] at h
      calc 2 * (r + 1) * 2 ^ n = (r + 1) * (2 ^ n * 2) := by ring
        _ ≤ 2 ^ sp.wordbits := h
    have hpos : 0 < 2 ^ n := by positivity
    have h3 : 2 * (r + 1) ≤ 2 ^ sp.wordbits :=
      le_trans (Nat.le_mul_of_pos_right _ hpos) h2
    have hshift : (r <<< 1) % 2 ^ sp.wordbits = 2 * r := by
      rw [Nat.shiftLeft_eq, pow_one, Nat.mod_eq_of_lt (by omega)]
      omega
    rw [Finset.sum_range_succ']
    simp only [seed_word, hshift]
    by_cases hb : seed_bit g (g.next st).1 = true
    · have hb0 : seed_bit g (gen.draw g st 0) = true := hb
      rw [if_pos hb, Nat.mod_eq_of_lt (by omega), ih _ _ (by
        calc (2 * r + 1 + 1) * 2 ^ n = 2 * (r + 1) * 2 ^ n := by ring
          _ ≤ 2 ^ sp.wordbits := h2)]
      have e : ∀ x, n - 1 - x = n - (x + 1) := fun x => by omega
      simp only [gen_draw_next, hb0, if_true, Nat.add_sub_cancel, Nat.sub_zero, one_mul,
        Nat.add_sub_add_right, e]
      rw [pow_succ]
      ring
    · have hb0 : ¬ seed_bit g (gen.draw g st 0) = true := hb
      rw [if_neg hb, ih _ _ (by
        calc (2 * r + 1) * 2 ^ n ≤ 2 * (r + 1) * 2 ^ n :=
              Nat.mul_le_mul_right _ (by omega)
          _ ≤ 2 ^ sp.wordbits := h2)]
      have e : ∀ x, n - 1 - x = n - (x + 1) := fun x => by omega
      simp only [gen_draw_next, hb0, if_false, Nat.add_sub_cancel, Nat.sub_zero, zero_mul,
        Nat.add_sub_add_right, Nat.add_zero, e]
      rw [pow_succ]
      simp only [Bool.false_eq_true, if_false, zero_mul, Nat.add_zero]
      ring

theorem seed_loop_snd {σ : Type} (sp : Species) (g : gen σ) (n i : Nat) (S : status_type)
    (st : σ) : (seed_loop sp g n i S st).2 = gen.state g st (n * sp.wordbits) := by
  induction n generalizing i S st with
  | zero => simp [seed_loop, gen.state]
  | succ n ih =>
    simp only [seed_loop, ih, seed_word_snd, gen_state_add]
    congr 1
    ring

theorem seed_loop_index {σ : Type} (sp : Species) (g : gen σ) (n i : Nat) (S : status_type)
    (st : σ) : (seed_loop sp g n i S st).1.index = S.index := by
  induction n generalizing i S st with
  | zero => rfl
  | succ n ih => simp only [seed_loop, ih]

theorem seed_loop_r {σ : Type} (sp : Species) (g : gen σ) (n i : Nat) (S : status_type)
    (st : σ) (j : Nat) :
    (seed_loop sp g n i S st).1.r j =
      if i ≤ j ∧ j < i + n then
        (seed_word sp g sp.wordbits 0 (gen.state g st ((j - i) * sp.wordbits))).1
      else S.r j := by
  induction n generalizing i S st with
  | zero =>
    simp only [seed_loop, Nat.add_zero]
    rw [if_neg (by omega)]
  | succ n ih =>
    simp only [seed_loop, ih, seed_word_snd, gen_state_add, Function.update_apply]
    by_cases hji : j = i
    · subst hji
      rw [if_neg (by omega), if_pos rfl, if_pos (by omega)]
      simp [gen.state]
    · by_cases hlt : i + 1 ≤ j ∧ j < i + 1 + n
      · rw [if_pos hlt, if_pos (by omega)]
        congr 3
        have : j - i = (j - (i + 1)) + 1 := by omega
        rw [this]
        ring
      · rw [if_neg hlt, if_neg hji, if_neg (by omega)]

theorem seed_index {σ : Type} (sp : Species) (g : gen σ) (st : σ) (R : lagfib4plus) :
    (seed sp g st R).1.S.index = sub32 sp.D 1 := rfl

theorem sub32_one (d : Nat) (h0 : 0 < d) (h : d < 2 ^ 32) : sub32 d 1 = d - 1 := by
  unfold sub32
  omega

/-- C7. After `seed(source)`, slot `i` for `i < D` is the sum over `j < wordbits` of
`bit(d_{i * wordbits + j}) * 2 ^ (wordbits - 1 - j)`, the source has made exactly
`D * wordbits` draws, and the index is `D - 1`. -/
theorem seed_spec {σ : Type} (sp : Species) (hD0 : 0 < sp.D) (hD : sp.D < 2 ^ 32)
    (g : gen σ) (st : σ) (R : lagfib4plus) :
    (∀ i, i < sp.D → (seed sp g st R).1.S.r i
      = ∑ j in Finset.range sp.wordbits,
          (if seed_bit g (gen.draw g st (i * sp.wordbits + j)) then 1 else 0)
            * 2 ^ (sp.wordbits - 1 - j)) ∧
    (seed sp g st R).2 = gen.state g st (sp.D * sp.wordbits) ∧
    (seed sp g st R).1.S.index = sp.D - 1 := by
  refine ⟨?_, ?_, ?_⟩
  · intro i hi
    show (seed_loop sp g sp.D 0 R.S st).1.r i = _
    rw [seed_loop_r, if_pos (by omega), seed_word_fst sp g _ _ _ (by simp)]
    simp only [Nat.sub_zero, zero_mul, zero_add, gen_draw_add]
  · show (seed_loop sp g sp.D 0 R.S st).2 = _
    rw [seed_loop_snd]
  · rw [seed_index, sub32_one _ hD0 hD]

/-! ## Equality and the values to come -/

theorem status_eq_iff (sp : Species) (a b : status_type) :
    status_type.eq sp a b = true ↔
      a.index = b.index ∧ ∀ i, i < ceil2 sp.D → a.r i = b.r i := by
  unfold status_type.eq
  by_cases h : a.index = b.index
  · simp [h, List.all_eq_true]
  · simp [h]

theorem engine_eq_iff (sp : Species) (R1 R2 : lagfib4plus) :
    lagfib4plus.eq sp R1 R2 = true ↔
      R1.S.index = R2.S.index ∧ ∀ i, i < ceil2 sp.D → R1.S.r i = R2.S.r i := by
  simp [lagfib4plus.eq, parameter_type.eq, status_eq_iff]

theorem engine_eq_refl (sp : Species) (R : lagfib4plus) : lagfib4plus.eq sp R R = true :=
  (engine_eq_iff sp R R).mpr ⟨rfl, fun _ _ => rfl⟩

theorem and_mask_lt (x d : Nat) : x &&& mask d < ceil2 d := by
  rw [and_mask]
  exact Nat.mod_lt _ (ceil2_pos d)

/-- Engines that compare equal return the same value and compare equal afterwards. -/
theorem generate_congr (sp : Species) (R1 R2 : lagfib4plus)
    (h : lagfib4plus.eq sp R1 R2 = true) :
    (generate sp R1).1 = (generate sp R2).1 ∧
    lagfib4plus.eq sp (generate sp R1).2 (generate sp R2).2 = true := by
  rw [engine_eq_iff] at h
  obtain ⟨hi, hr⟩ := h
  have hv : ∀ j, (step sp R1.S).r j = (step sp R2.S).r j ∨ ¬ j < ceil2 sp.D := by
    intro j
    by_cases hj : j < ceil2 sp.D
    · left
      simp only [step, hi, Function.update_apply]
      rw [hr _ (and_mask_lt _ _), hr _ (and_mask_lt _ _), hr _ (and_mask_lt _ _),
        hr _ (and_mask_lt _ _), hr j hj]
    · exact Or.inr hj
  have hidx : (step sp R1.S).index = (step sp R2.S).index := by
    simp only [step, hi]
  have hlt : (step sp R2.S).index < ceil2 sp.D := and_mask_lt _ _
  refine ⟨?_, ?_⟩
  · rw [generate_fst, generate_fst, hidx]
    exact (hv _).resolve_right (not_not.mpr hlt)
  · rw [engine_eq_iff]
    exact ⟨hidx, fun i hi' => (hv i).resolve_right (not_not.mpr hi')⟩

theorem run_congr (sp : Species) (R1 R2 : lagfib4plus)
    (h : lagfib4plus.eq sp R1 R2 = true) (k : Nat) :
    lagfib4plus.eq sp (run sp k R1) (run sp k R2) = true := by
  induction k with
  | zero => exact h
  | succ k ih => exact (generate_congr sp _ _ ih).2

theorem nth_value_congr (sp : Species) (R1 R2 : lagfib4plus)
    (h : lagfib4plus.eq sp R1 R2 = true) (k : Nat) :
    nth_value sp R1 k = nth_value sp R2 k :=
  (generate_congr sp _ _ (run_congr sp R1 R2 h (k - 1))).1

/-- C3. Two default-constructed engines of one species, each seeded with the integer `s`,
compare equal, return the same value at each of their calls of `generate()`, and compare
equal after any number of calls. -/
theorem seed_deterministic {σ : Type} (sp : Species) (M : aux_source σ) (s : Nat) :
    let E1 := seed_ul sp M s (lagfib4plus.ctor sp M)
    let E2 := seed_ul sp M s (lagfib4plus.ctor sp M)
    lagfib4plus.eq sp E1 E2 = true ∧
    ∀ k, (∀ i, i ≤ k → nth_value sp E1 i = nth_value sp E2 i) ∧
      lagfib4plus.eq sp (run sp k E1) (run sp k E2) = true := by
  intro E1 E2
  have h : lagfib4plus.eq sp E1 E2 = true := engine_eq_refl sp E1
  exact ⟨h, fun k => ⟨fun i _ => nth_value_congr sp E1 E2 h i, run_congr sp E1 E2 h k⟩⟩

/-! ## Decimal numbers -/

theorem digitChar_isDigit (d : Nat) (h : d < 10) : (digitChar d).isDigit = true := by
  revert d; decide

theorem digitVal_digitChar (d : Nat) (h : d < 10) : digitVal (digitChar d) = d := by
  revert d; decide

theorem decimalAux_eq (n : Nat) : ∀ fuel acc, n < fuel →
    decimalAux fuel n acc = decimal n ++ acc := by
  induction n using Nat.strong_induction_on with
  | _ n ih =>
    intro fuel acc hf
    obtain ⟨f, rfl⟩ : ∃ f, fuel = f + 1 := ⟨fuel - 1, by omega⟩
    by_cases h10 : n < 10
    · simp only [decimal, decimalAux, if_pos h10]
      rfl
    · have hlt : n / 10 < n := by omega
      simp only [decimal, decimalAux, if_neg h10]
      rw [ih _ hlt f _ (by omega), ih _ hlt n _ hlt]
      simp

/-- The digits of `n`: one digit below ten, else those of `n / 10` and a last digit. -/
theorem decimal_eq (n : Nat) :
    decimal n = if n < 10 then [digitChar n] else decimal (n / 10) ++ [digitChar (n % 10)] := by
  by_cases h10 : n < 10
  · simp only [decimal, decimalAux, if_pos h10]
  · have hlt : n / 10 < n := by omega
    rw [if_neg h10]
    show decimalAux (n + 1) n [] = _
    simp only [decimalAux, if_neg h10]
    exact decimalAux_eq _ _ _ hlt

theorem decimal_digits (n : Nat) : ∀ c, c ∈ decimal n → c.isDigit = true := by
  induction n using Nat.strong_induction_on with
  | _ n ih =>
    intro c hc
    rw [decimal_eq] at hc
    by_cases h10 : n < 10
    · rw [if_pos h10, List.mem_singleton] at hc
      subst hc
      exact digitChar_isDigit n h10
    · rw [if_neg h10, List.mem_append, List.mem_singleton] at hc
      rcases hc with hc | hc
      · exact ih _ (by omega) c hc
      · subst hc
        exact digitChar_isDigit _ (Nat.mod_lt _ (by norm_num))

theorem decimal_ne_nil (n : Nat) : decimal n ≠ [] := by
  rw [decimal_eq]
  split <;> simp

/-- The number that a run of digits stands for. -/
theorem decimal_value (n : Nat) :
    (decimal n).foldl (fun acc c => 10 * acc + digitVal c) 0 = n := by
  induction n using Nat.strong_induction_on with
  | _ n ih =>
    rw [decimal_eq]
    by_cases h10 : n < 10
    · rw [if_pos h10]
      simp [digitVal_digitChar n h10]
    · rw [if_neg h10, List.foldl_append, ih _ (by omega)]
      simp only [List.foldl_cons, List.foldl_nil]
      rw [digitVal_digitChar _ (Nat.mod_lt _ (by norm_num))]
      omega

theorem decimal_length (n k : Nat) (h : n < 10 ^ (k + 1)) : (decimal n).length ≤ k + 1 := by
  induction k generalizing n with
  | zero =>
    rw [decimal_eq, if_pos (by simpa using h)]
    simp
  | succ k ih =>
    rw [decimal_eq]
    by_cases h10 : n < 10
    · rw [if_pos h10]; simp
    · rw [if_neg h10, List.length_append]
      have : n / 10 < 10 ^ (k + 1) := by
        rw [Nat.div_lt_iff_lt_mul (by norm_num)]
        rw [pow_succ] at h
        omega
      have := ih _ this
      simp
      omega

theorem takeWhile_digits (l rest : List Char) (c : Char) (hl : ∀ x, x ∈ l → x.isDigit = true)
    (hc : c.isDigit = false) :
    (l ++ c :: rest).takeWhile Char.isDigit = l ∧
    (l ++ c :: rest).dropWhile Char.isDigit = c :: rest := by
  induction l with
  | nil => simp [List.takeWhile, List.dropWhile, hc]
  | cons a l ih =>
    have ha : a.isDigit = true := hl a (List.mem_cons_self _ _)
    have ih' := ih (fun x hx => hl x (List.mem_cons_of_mem _ hx))
    simp [List.takeWhile, List.dropWhile, ha, ih'.1, ih'.2]

/-- Reading back a written number that is followed by a character that is no digit. -/
theorem get_unsigned_decimal (bits n old : Nat) (c : Char) (rest : List Char)
    (hn : n < 2 ^ bits) (hc : c.isDigit = false) :
    get_unsigned bits { buf := decimal n ++ c :: rest, fail := false } old
      = ({ buf := c :: rest, fail := false }, n) := by
  obtain ⟨h1, h2⟩ := takeWhile_digits (decimal n) rest c (decimal_digits n) hc
  simp only [get_unsigned, h1, h2, decimal_value, if_pos hn]
  simp [decimal_ne_nil]

/-! ## Delimiters -/

theorem delim_cons (c : Char) (rest : List Char) :
    delim c { buf := c :: rest, fail := false } = { buf := rest, fail := false } := by
  simp [delim]

theorem delim_str_append (l rest : List Char) :
    delim_str l { buf := l ++ rest, fail := false } = { buf := rest, fail := false } := by
  induction l with
  | nil => rfl
  | cons a l ih => simp only [delim_str, List.cons_append, delim_cons, ih]

theorem delim_fail (c : Char) (inp : istream) (h : inp.fail = true) : delim c inp = inp := by
  simp [delim, h]

/-! ## The serialized form -/

theorem put_slots_eq (S : status_type) (n i : Nat) (out : List Char) :
    put_slots S n i out
      = out ++ ((List.range n).map fun t => ' ' :: decimal (S.r (i + t))).flatten := by
  induction n generalizing i out with
  | zero => simp [put_slots]
  | succ n ih =>
    rw [put_slots, ih, List.range_succ_eq_map]
    simp only [List.map_cons, List.map_map, List.flatten_cons, Nat.add_zero]
    have : ((fun t => ' ' :: decimal (S.r (i + t))) ∘ Nat.succ)
        = fun t => ' ' :: decimal (S.r (i + 1 + t)) := by
      funext t
      simp only [Function.comp, Nat.succ_eq_add_one]
      rw [show i + (t + 1) = i + 1 + t by omega]
    rw [this]
    simp

theorem serialize_eq (sp : Species) (R : lagfib4plus) :
    serialize sp R = '[' :: (name sp ++ ' ' :: '(' :: ')' :: ' ' :: '(' :: (decimal R.S.index
      ++ (((List.range (ceil2 sp.D)).map fun t => ' ' :: decimal (R.S.r t)).flatten
      ++ [')', ']']))) := by
  simp [serialize, lagfib4plus.put, parameter_type.put, status_type.put, put_slots_eq]

/-! ## Reading back what was written -/

theorem fields_head (r : Nat → Nat) (n i : Nat) (rest : List Char) :
    ∃ c tl, ((List.range n).map fun t => ' ' :: decimal (r (i + t))).flatten ++ ')' :: rest
      = c :: tl ∧ c.isDigit = false := by
  cases n with
  | zero => exact ⟨')', rest, by simp, by decide⟩
  | succ n =>
    rw [List.range_succ_eq_map]
    exact ⟨' ', _, by simp only [List.map_cons, List.flatten_cons, List.cons_append]; rfl,
      by decide⟩

theorem get_slots_fields (sp : Species) (r : Nat → Nat) (n i : Nat) (S : status_type)
    (rest : List Char) (hr : ∀ t, t < n → r (i + t) < 2 ^ sp.wordbits) :
    (get_slots sp n i
      { buf := ((List.range n).map fun t => ' ' :: decimal (r (i + t))).flatten ++ ')' :: rest,
        fail := false } S).1 = { buf := ')' :: rest, fail := false } ∧
    (get_slots sp n i
      { buf := ((List.range n).map fun t => ' ' :: decimal (r (i + t))).flatten ++ ')' :: rest,
        fail := false } S).2.index = S.index ∧
    ∀ j, (get_slots sp n i
      { buf := ((List.range n).map fun t => ' ' :: decimal (r (i + t))).flatten ++ ')' :: rest,
        fail := false } S).2.r j = if i ≤ j ∧ j < i + n then r j else S.r j := by
  induction n generalizing i S with
  | zero =>
    refine ⟨by simp [get_slots], by simp [get_slots], fun j => ?_⟩
    simp only [get_slots, Nat.add_zero]
    rw [if_neg (by omega)]
  | succ n ih =>
    have hshift : ((fun t => ' ' :: decimal (r (i + t))) ∘ Nat.succ)
        = fun t => ' ' :: decimal (r (i + 1 + t)) := by
      funext t
      simp only [Function.comp, Nat.succ_eq_add_one]
      rw [show i + (t + 1) = i + 1 + t by omega]
    obtain ⟨c, tl, htl, hc⟩ := fields_head r n (i + 1) rest
    have hbuf : ((List.range (n + 1)).map fun t => ' ' :: decimal (r (i + t))).flatten
        ++ ')' :: rest = ' ' :: (decimal (r i) ++ c :: tl) := by
      rw [List.range_succ_eq_map]
      simp only [List.map_cons, List.map_map, List.flatten_cons, Nat.add_zero, hshift,
        List.cons_append, List.append_assoc, htl]
    have hri : r i < 2 ^ sp.wordbits := by simpa using hr 0 (by omega)
    have ih' := ih (i + 1) { S with r := Function.update S.r i (r i) }
      (fun t ht => by
        have := hr (t + 1) (by omega)
        rwa [show i + (t + 1) = i + 1 + t by omega] at this)
    rw [hbuf]
    simp only [get_slots, delim_cons, get_unsigned_decimal _ _ _ _ _ hri hc]
    rw [← htl]
    refine ⟨ih'.1, ih'.2.1, fun j => ?_⟩
    rw [ih'.2.2 j]
    simp only [Function.update_apply]
    by_cases hji : j = i
    · subst hji
      rw [if_neg (by omega), if_pos rfl, if_pos (by omega)]
    · by_cases hlt : i + 1 ≤ j ∧ j < i + 1 + n
      · rw [if_pos hlt, if_pos (by omega)]
      · rw [if_neg hlt, if_neg hji, if_neg (by omega)]

/-- Parsing the text of `E`: the stream is used up and good, and the target has the index
and the slots of `E`. -/
theorem parse_serialize (sp : Species) (E R : lagfib4plus) (hidx : E.S.index < 2 ^ 32)
    (hslots : ∀ i, i < ceil2 sp.D → E.S.r i < 2 ^ sp.wordbits) :
    (parse sp (serialize sp E) R).1 = { buf := [], fail := false } ∧
    (parse sp (serialize sp E) R).2.S.index = E.S.index ∧
    ∀ j, j < ceil2 sp.D → (parse sp (serialize sp E) R).2.S.r j = E.S.r j := by
  obtain ⟨c, tl, htl, hc⟩ := fields_head E.S.r (ceil2 sp.D) 0 [']']
  have hf := get_slots_fields sp E.S.r (ceil2 sp.D) 0
    { r := status_type.init.r, index := E.S.index } [']']
    (fun t ht => by simpa using hslots t ht)
  simp only [Nat.zero_add] at hf htl
  have hsp : ignore_spaces { buf := serialize sp E, fail := false }
      = { buf := serialize sp E, fail := false } := by
    rw [serialize_eq]
    simp [ignore_spaces, List.dropWhile, show Char.isWhitespace '[' = false by decide]
  have hget : status_type.get sp
      { buf := '(' :: (decimal E.S.index
        ++ (((List.range (ceil2 sp.D)).map fun t => ' ' :: decimal (E.S.r t)).flatten
        ++ [')', ']'])), fail := false } status_type.init
      = ({ buf := [']'], fail := false },
        (get_slots sp (ceil2 sp.D) 0
          { buf := ((List.range (ceil2 sp.D)).map fun t => ' ' :: decimal (E.S.r t)).flatten
              ++ [')', ']'], fail := false }
          { r := status_type.init.r, index := E.S.index }).2) := by
    simp only [status_type.get, delim_cons]
    rw [htl, get_unsigned_decimal _ _ _ _ _ hidx hc, ← htl]
    simp only [hf.1, delim_cons]
    rfl
  have hparse : parse sp (serialize sp E) R
      = ({ buf := [], fail := false },
        { P := {}, S := (get_slots sp (ceil2 sp.D) 0
          { buf := ((List.range (ceil2 sp.D)).map fun t => ' ' :: decimal (E.S.r t)).flatten
              ++ [')', ']'], fail := false }
          { r := status_type.init.r, index := E.S.index }).2 }) := by
    simp only [parse, lagfib4plus.get, istream.of, hsp]
    rw [serialize_eq]
    simp only [delim_cons, delim_str_append, parameter_type.get, hget]
    rfl
  rw [hparse]
  refine ⟨rfl, hf.2.1, fun j hj => ?_⟩
  rw [hf.2.2 j, if_pos ⟨Nat.zero_le _, hj⟩]

/-- C4. Parsing the text of any engine state `E` (a 32-bit index, slots below
`2 ^ wordbits`) into any engine `R` succeeds, leaves `R` equal to `E` under `operator==`,
and from then on both return the same value at every call of `generate()`. -/
theorem serialize_roundtrip (sp : Species) (E R : lagfib4plus) (hidx : E.S.index < 2 ^ 32)
    (hslots : ∀ i, i < ceil2 sp.D → E.S.r i < 2 ^ sp.wordbits) :
    (parse sp (serialize sp E) R).1.fail = false ∧
    lagfib4plus.eq sp (parse sp (serialize sp E) R).2 E = true ∧
    ∀ k, nth_value sp (parse sp (serialize sp E) R).2 k = nth_value sp E k := by
  obtain ⟨h1, h2, h3⟩ := parse_serialize sp E R hidx hslots
  have heq : lagfib4plus.eq sp (parse sp (serialize sp E) R).2 E = true :=
    (engine_eq_iff sp _ _).mpr ⟨h2, h3⟩
  exact ⟨by rw [h1], heq, fun k => nth_value_congr sp _ _ heq k⟩

/-! ## Failed parses -/

theorem delim_ok (c : Char) (inp : istream) (h : (delim c inp).fail = false) :
    inp.fail = false ∧ ∃ rest, inp.buf = c :: rest ∧ delim c inp = { buf := rest, fail := false }
    := by
  obtain ⟨buf, fail⟩ := inp
  cases fail with
  | true => simp [delim] at h
  | false =>
    cases buf with
    | nil => simp [delim] at h
    | cons x rest =>
      by_cases hx : x = c
      · subst hx
        exact ⟨rfl, rest, rfl, delim_cons _ _⟩
      · simp [delim, hx] at h

theorem delim_sticky (c : Char) (inp : istream) (h : inp.fail = true) :
    (delim c inp).fail = true := by
  rw [delim_fail c inp h, h]

theorem delim_str_ok (l : List Char) (inp : istream) (h : (delim_str l inp).fail = false) :
    inp.fail = false ∧ ∃ rest, inp.buf = l ++ rest ∧
      delim_str l inp = { buf := rest, fail := false } := by
  induction l generalizing inp with
  | nil =>
    obtain ⟨buf, fail⟩ := inp
    simp only [delim_str] at h
    subst h
    exact ⟨rfl, buf, rfl, rfl⟩
  | cons a l ih =>
    simp only [delim_str] at h
    obtain ⟨h1, rest, h2, h3⟩ := ih _ h
    obtain ⟨h4, rest', h5, h6⟩ := delim_ok a inp h1
    rw [h6] at h2 h3
    simp only at h2
    exact ⟨h4, rest, by rw [h5, h2]; rfl, by simp only [delim_str, h6, h3]⟩

theorem get_unsigned_sticky (bits : Nat) (inp : istream) (old : Nat) (h : inp.fail = true) :
    (get_unsigned bits inp old).1.fail = true := by
  simp [get_unsigned, h]

theorem get_slots_sticky (sp : Species) (n i : Nat) (inp : istream) (S : status_type)
    (h : inp.fail = true) : (get_slots sp n i inp S).1.fail = true := by
  induction n generalizing i inp S with
  | zero => exact h
  | succ n ih =>
    simp only [get_slots]
    exact ih _ _ _ (get_unsigned_sticky _ _ _ (delim_sticky _ _ h))

theorem status_get_ok (sp : Species) (inp : istream) (S : status_type)
    (h : (status_type.get sp inp S).1.fail = false) :
    inp.fail = false ∧ ∃ rest, inp.buf = '(' :: rest := by
  simp only [status_type.get] at h
  have h1 := (delim_ok _ _ h).1
  have h2 : (get_unsigned 32 (delim '(' inp) status_type.init.index).1.fail = false := by
    by_contra hc
    rw [get_slots_sticky _ _ _ _ _ (by simpa using hc)] at h1
    exact absurd h1 (by decide)
  have h3 : (delim '(' inp).fail = false := by
    by_contra hc
    rw [get_unsigned_sticky _ _ _ (by simpa using hc)] at h2
    exact absurd h2 (by decide)
  obtain ⟨h4, rest, h5, _⟩ := delim_ok _ _ h3
  exact ⟨h4, rest, h5⟩

theorem engine_get_atomic (sp : Species) (inp : istream) (R : lagfib4plus)
    (h : (lagfib4plus.get sp inp R).1.fail = true) : (lagfib4plus.get sp inp R).2 = R := by
  simp only [lagfib4plus.get] at h ⊢
  rw [if_pos h]

theorem engine_get_start (sp : Species) (text : List Char) (R : lagfib4plus)
    (h : (lagfib4plus.get sp (istream.of text) R).1.fail = false) :
    ∃ rest, text.dropWhile Char.isWhitespace
      = '[' :: (name sp ++ ' ' :: '(' :: ')' :: ' ' :: '(' :: rest) := by
  simp only [lagfib4plus.get] at h
  have h1 := (delim_ok _ _ h).1
  obtain ⟨h2, r2, e2⟩ := status_get_ok _ _ _ h1
  obtain ⟨h3, r3, e3, d3⟩ := delim_ok _ _ h2
  simp only [parameter_type.get] at h3 e3 d3
  obtain ⟨h4, r4, e4, d4⟩ := delim_ok _ _ h3
  obtain ⟨h5, r5, e5, d5⟩ := delim_ok _ _ h4
  obtain ⟨h6, r6, e6, d6⟩ := delim_ok _ _ h5
  obtain ⟨h7, r7, e7, d7⟩ := delim_str_ok _ _ h6
  obtain ⟨_, r8, e8, d8⟩ := delim_ok _ _ h7
  have e0 : (ignore_spaces (istream.of text)).buf = text.dropWhile Char.isWhitespace := by
    simp [ignore_spaces, istream.of]
  have b8 := congrArg istream.buf d8
  have b7 := congrArg istream.buf d7
  have b6 := congrArg istream.buf d6
  have b5 := congrArg istream.buf d5
  have b4 := congrArg istream.buf d4
  have b3 := congrArg istream.buf d3
  simp only at b8 b7 b6 b5 b4 b3
  rw [b8] at e7
  rw [b7] at e6
  rw [b6] at e5
  rw [b5] at e4
  rw [b4] at e3
  simp only [parameter_type.get] at e2
  rw [b3] at e2
  refine ⟨r2, ?_⟩
  rw [← e0, e8, e7, e6, e5, e4, e3, e2]

/-- C5. When the engine parser fails (the stream is marked failed), the target engine is what
it was, index and slots; the stream is marked failed unless the text, after leading
whitespace, starts with the bracket, the species name and the parameter block with their
separators; and when the parameter parser fails, the target parameter object is what it
was, `p`, `n` and table. -/
theorem parse_failure_atomic (sp : Species) (text : List Char) (R : lagfib4plus)
    (get_double : istream → istream × ℚ) (get_int : istream → istream × Int)
    (inp : istream) (P : param_type) :
    ((parse sp text R).1.fail = true → (parse sp text R).2 = R) ∧
    ((¬ ∃ rest, text.dropWhile Char.isWhitespace
        = '[' :: (name sp ++ ' ' :: '(' :: ')' :: ' ' :: '(' :: rest)) →
      (parse sp text R).1.fail = true ∧ (parse sp text R).2 = R) ∧
    ((param_type.get get_double get_int inp P).1.fail = true →
      (param_type.get get_double get_int inp P).2 = P) := by
  refine ⟨engine_get_atomic sp _ R, fun hno => ?_, fun h => ?_⟩
  · have hf : (parse sp text R).1.fail = true := by
      by_contra hc
      exact hno (engine_get_start sp text R (by simpa using hc))
    exact ⟨hf, engine_get_atomic sp _ R hf⟩
  · simp only [param_type.get] at h ⊢
    rw [if_pos h]

/-- C2. For every predefined species, with `x_0 .. x_{D-1}` the slots right after seeding and
`x_{D-1+k}` the `k`-th value returned by `generate()`, every `x_i` with `i ≥ D` is the sum
modulo `2 ^ wordbits` of `x_{i-A}`, `x_{i-B}`, `x_{i-C}` and `x_{i-D}`, however many steps
were made. -/
theorem recurrence_law (ul ull : Nat) (sp : Species) (hsp : sp ∈ predefined ul ull)
    {σ : Type} (g : gen σ) (st : σ) (R : lagfib4plus) (i : Nat) (hi : sp.D ≤ i) :
    let E := (seed sp g st R).1
    let x := fun i => if i < sp.D then E.S.r i else nth_value sp E (i - (sp.D - 1))
    x i = (x (i - sp.A) + x (i - sp.B) + x (i - sp.C) + x (i - sp.D)) % 2 ^ sp.wordbits := by
  intro E x
  have hlags : sp.D < 2 ^ 32 ∧ (0 < sp.A ∧ sp.A ≤ sp.D) ∧ (0 < sp.B ∧ sp.B ≤ sp.D)
      ∧ (0 < sp.C ∧ sp.C ≤ sp.D) ∧ 0 < sp.D := by
    simp only [predefined, List.mem_cons, List.mem_singleton, List.not_mem_nil, or_false] at hsp
    rcases hsp with h | h | h | h | h | h | h | h | h | h | h | h | h | h | h | h <;>
      subst h <;>
      norm_num [lagfib4plus_521_ul, lagfib4plus_521_ull, lagfib4plus_607_ul, lagfib4plus_607_ull,
        lagfib4plus_1279_ul, lagfib4plus_1279_ull, lagfib4plus_2281_ul, lagfib4plus_2281_ull,
        lagfib4plus_3217_ul, lagfib4plus_3217_ull, lagfib4plus_4423_ul, lagfib4plus_4423_ull,
        lagfib4plus_9689_ul, lagfib4plus_9689_ull, lagfib4plus_19937_ul, lagfib4plus_19937_ull]
  obtain ⟨hD, hA, hB, hC, hD0⟩ := hlags
  have hidx : E.S.index = sp.D - 1 := by
    exact sub32_one _ hD0 hD
  exact recurrence_of_lags sp hD hA hB hC hD0 E hidx x (fun _ => rfl) i hi


/-! ## The table of the sampler -/

theorem push_loop_eq (p : ℚ) (n k : Nat) : ∀ (i : Nat) (P : List ℚ), i + k ≤ n + 1 →
    push_loop p (n : Int) k (i : Int) ((n.choose i : Nat) : ℚ) P
      = (P ++ (List.range k).map (fun t => binom_pmf p n (i + t)), ((n.choose (i + k) : Nat) : ℚ))
    := by
  induction k with
  | zero => intro i P _; simp [push_loop]
  | succ k ih =>
    intro i P h
    have hi : i ≤ n := by omega
    have hpow1 : math_pow p (i : Int) = p ^ i := zpow_natCast p i
    have hpow2 : math_pow (1 - p) ((n : Int) - (i : Int)) = (1 - p) ^ (n - i) := by
      rw [math_pow, ← Nat.cast_sub hi, zpow_natCast]
    have hbin : ((n.choose i : Nat) : ℚ) * (((n : Int) - (i : Int) : Int) : ℚ)
        / (((i : Int) + 1 : Int) : ℚ) = ((n.choose (i + 1) : Nat) : ℚ) := by
      have h1 : (n.choose (i + 1) * (i + 1) : ℚ) = (n.choose i * (n - i : Nat) : ℚ) := by
        exact_mod_cast Nat.choose_succ_right_eq n i
      have h2 : ((i : ℚ) + 1) ≠ 0 := by positivity
      rw [div_eq_iff (by push_cast; exact h2)]
      push_cast
      rw [h1, Nat.cast_sub hi]
    have hcast : ((i : Int) + 1) = ((i + 1 : Nat) : Int) := by push_cast; rfl
    simp only [push_loop, hpow1, hpow2, hbin]
    have hfun : ((fun t => binom_pmf p n (i + t)) ∘ Nat.succ)
        = fun t => binom_pmf p n (i + 1 + t) := by
      funext t
      simp only [Function.comp, Nat.succ_eq_add_one]
      rw [show i + (t + 1) = i + 1 + t by omega]
    rw [hcast, ih (i + 1) _ (by omega), List.range_succ_eq_map]
    simp only [List.map_cons, List.map_map, List.append_assoc, List.singleton_append,
      Nat.add_zero, hfun]
    rw [show i + (k + 1) = i + 1 + k by omega]
    rfl

theorem cumul_loop_length (k : Nat) : ∀ (i : Nat) (P : List ℚ),
    (cumul_loop k i P).length = P.length := by
  induction k with
  | zero => intro i P; rfl
  | succ k ih => intro i P; simp only [cumul_loop, ih, List.length_set]

theorem getD_set_eq (P : List ℚ) (i j : Nat) (a : ℚ) (hi : i < P.length) :
    (P.set i a).getD j 0 = if j = i then a else P.getD j 0 := by
  simp only [List.getD_eq_getElem?_getD, List.getElem?_set]
  by_cases h : i = j
  · subst h; simp [hi]
  · rw [if_neg h, if_neg (fun e => h e.symm)]

theorem cumul_loop_getD (k : Nat) : ∀ (i : Nat) (P : List ℚ), i + k ≤ P.length → ∀ j,
    (cumul_loop k i P).getD j 0 =
      if i ≤ j ∧ j < i + k then P.getD (i - 1) 0 + ∑ t in Finset.Ico i (j + 1), P.getD t 0
      else P.getD j 0 := by
  induction k with
  | zero =>
    intro i P _ j
    simp only [cumul_loop, Nat.add_zero]
    rw [if_neg (by omega)]
  | succ k ih =>
    intro i P h j
    have hi : i < P.length := by omega
    rw [cumul_loop, ih (i + 1) _ (by rw [List.length_set]; omega) j]
    simp only [Nat.add_sub_cancel, getD_set_eq P i _ _ hi, if_true]
    by_cases hji : j = i
    · subst hji
      rw [if_neg (by omega), if_pos rfl, if_pos (by omega)]
      simp [add_comm]
    · by_cases hlt : i + 1 ≤ j ∧ j < i + 1 + k
      · rw [if_pos hlt, if_pos (by omega)]
        have hs : ∑ t in Finset.Ico (i + 1) (j + 1),
            (if t = i then P.getD i 0 + P.getD (i - 1) 0 else P.getD t 0)
            = ∑ t in Finset.Ico (i + 1) (j + 1), P.getD t 0 := by
          apply Finset.sum_congr rfl
          intro t ht
          rw [Finset.mem_Ico] at ht
          rw [if_neg (by omega)]
        rw [hs, Finset.sum_eq_sum_Ico_succ_bot (by omega : i < j + 1)]
        ring
      · rw [if_neg hlt, if_neg hji, if_neg (by omega)]

theorem set_getD_self : ∀ (P : List ℚ) (i : Nat), P.set i (P.getD i 0) = P
  | [], _ => rfl
  | _ :: _, 0 => rfl
  | a :: P, i + 1 => by
    show a :: P.set i (P.getD i 0) = a :: P
    rw [set_getD_self P i]

theorem norm_loop_one (k : Nat) : ∀ (i : Nat) (P : List ℚ), i + k ≤ P.length →
    P.getLastD 0 = 1 → norm_loop k i P = P := by
  induction k with
  | zero => intro i P _ _; rfl
  | succ k ih =>
    intro i P h hlast
    have hi : i < P.length := by omega
    have hset : P.set i (P.getD i 0 / P.getLastD 0) = P := by
      rw [hlast, div_one, set_getD_self]
    rw [norm_loop, hset]
    exact ih (i + 1) P (by omega) hlast

theorem binom_cdf_last (p : ℚ) (n : Nat) : binom_cdf p n n = 1 := by
  have h := add_pow p (1 - p) n
  rw [show p + (1 - p) = 1 by ring, one_pow] at h
  rw [binom_cdf, h]
  apply Finset.sum_congr rfl
  intro k _
  simp only [binom_pmf]
  ring

/-- The table before the last loop: the cumulative sums of the masses. -/
theorem cumul_table (p : ℚ) (n : Nat) :
    cumul_loop ((push_loop p (n : Int) ((n : Int) + 1).toNat 0 1 []).1.length - 1) 1
        (push_loop p (n : Int) ((n : Int) + 1).toNat 0 1 []).1
      = (List.range (n + 1)).map (binom_cdf p n) := by
  have hpush : (push_loop p (n : Int) ((n : Int) + 1).toNat 0 1 []).1
      = (List.range (n + 1)).map (binom_pmf p n) := by
    have h := push_loop_eq p n (n + 1) 0 [] (by omega)
    simp only [Nat.choose_zero_right, Nat.cast_one, Nat.cast_zero, List.nil_append,
      Nat.zero_add] at h
    rw [show ((n : Int) + 1).toNat = n + 1 by omega, h]
  rw [hpush]
  have hlen : ((List.range (n + 1)).map (binom_pmf p n)).length = n + 1 := by simp
  apply List.ext_getElem
  · rw [cumul_loop_length]; simp
  · intro j h1 h2
    have hj : j < n + 1 := by simpa using h2
    have hget := cumul_loop_getD (((List.range (n + 1)).map (binom_pmf p n)).length - 1) 1
      ((List.range (n + 1)).map (binom_pmf p n)) (by rw [hlen]; omega) j
    rw [List.getD_eq_getElem _ _ h1] at hget
    rw [hget, hlen]
    have hterm : ∀ t, t < n + 1 →
        ((List.range (n + 1)).map (binom_pmf p n)).getD t 0 = binom_pmf p n t := by
      intro t ht
      rw [List.getD_eq_getElem _ _ (by rw [hlen]; exact ht)]
      simp
    simp only [List.getElem_map, List.getElem_range, binom_cdf]
    by_cases hj0 : 1 ≤ j
    · rw [if_pos ⟨hj0, by omega⟩, hterm 0 (by omega)]
      rw [Finset.range_eq_Ico, Finset.sum_eq_sum_Ico_succ_bot (by omega : 0 < j + 1)]
      congr 1
      apply Finset.sum_congr rfl
      intro t ht
      rw [Finset.mem_Ico] at ht
      exact hterm t (by omega)
    · have : j = 0 := by omega
      subst this
      rw [if_neg (by omega), hterm 0 (by omega)]
      simp

theorem getLastD_cdf (p : ℚ) (n : Nat) :
    ((List.range (n + 1)).map (binom_cdf p n)).getLastD 0 = 1 := by
  rw [List.range_succ, List.map_append, List.map_singleton, List.getLastD_concat,
    binom_cdf_last]

/-- The table that `calc_probabilities()` builds for `n ≥ 0`. -/
theorem calc_probabilities_eq (p : ℚ) (n : Nat) :
    calc_probabilities p (n : Int) = (List.range (n + 1)).map (binom_cdf p n) := by
  simp only [calc_probabilities]
  rw [cumul_table]
  exact norm_loop_one _ 0 _ (by omega) (getLastD_cdf p n)

theorem table_get (p : ℚ) (n x : Nat) (hx : x ≤ n) :
    (calc_probabilities p (n : Int))[x]? = some (binom_cdf p n x) := by
  rw [calc_probabilities_eq]
  simp [List.getElem?_range (by omega : x < n + 1)]

theorem cdf_eq (p : ℚ) (n x : Nat) (hx : x ≤ n) :
    (binomial_dist.ctor p n).cdf x = some (binom_cdf p n x) := by
  simp only [binomial_dist.cdf, binomial_dist.ctor, param_type.ctor, param_type.n]
  rw [if_neg (by omega), if_pos (by omega), Int.toNat_natCast, table_get p n x hx]

theorem pdf_eq (p : ℚ) (n x : Nat) (hx : x ≤ n) :
    (binomial_dist.ctor p n).pdf x = some (binom_pmf p n x) := by
  simp only [binomial_dist.pdf, binomial_dist.ctor, param_type.ctor, param_type.n]
  rw [if_neg (by omega)]
  cases x with
  | zero =>
    simp only [Nat.cast_zero, if_true]
    rw [table_get p n 0 hx]
    simp [binom_cdf]
  | succ x =>
    rw [if_neg (by omega)]
    have e1 : ((x + 1 : Nat) : Int).toNat = x + 1 := Int.toNat_natCast _
    have e2 : (((x + 1 : Nat) : Int) - 1).toNat = x := by omega
    rw [e1, e2, table_get p n (x + 1) hx, table_get p n x (by omega)]
    simp only [binom_cdf]
    rw [Finset.sum_range_succ _ (x + 1)]
    simp

/-- C8. In exact arithmetic, for every `p` and every `n ≥ 0`: the running coefficient at
iteration `i` is `C(n,i)`; the table has `n + 1` entries; `pdf(x)` is
`C(n,x) p^x (1-p)^(n-x)` and `cdf(x)` the sum of these up to `x`, for `0 ≤ x ≤ n`; the last
entry before the normalization is 1, so the normalization changes nothing. For `p = 1/2` and
`n = 4` the masses are 0.0625, 0.25, 0.375, 0.25, 0.0625, `cdf(4) = 1`, `min() = 0` and
`max() = 4`. -/
theorem binomial_exact (p : ℚ) (n : Nat) :
    (∀ i, i ≤ n → (push_loop p (n : Int) i 0 1 []).2 = (n.choose i : ℚ)) ∧
    (calc_probabilities p (n : Int)).length = n + 1 ∧
    (∀ x : Nat, x ≤ n → (binomial_dist.ctor p n).pdf x
      = some ((n.choose x : ℚ) * p ^ x * (1 - p) ^ (n - x))) ∧
    (∀ x : Nat, x ≤ n → (binomial_dist.ctor p n).cdf x
      = some (∑ k in Finset.range (x + 1), (n.choose k : ℚ) * p ^ k * (1 - p) ^ (n - k))) ∧
    (cumul_loop ((push_loop p (n : Int) ((n : Int) + 1).toNat 0 1 []).1.length - 1) 1
        (push_loop p (n : Int) ((n : Int) + 1).toNat 0 1 []).1).getLastD 0 = 1 ∧
    calc_probabilities p (n : Int)
      = cumul_loop ((push_loop p (n : Int) ((n : Int) + 1).toNat 0 1 []).1.length - 1) 1
        (push_loop p (n : Int) ((n : Int) + 1).toNat 0 1 []).1 ∧
    (List.range 5).map (fun x : Nat => (binomial_dist.ctor (1 / 2) 4).pdf x)
      = [some (1 / 16), some (1 / 4), some (3 / 8), some (1 / 4), some (1 / 16)] ∧
    (binomial_dist.ctor (1 / 2) 4).cdf 4 = some 1 ∧
    (binomial_dist.ctor (1 / 2) 4).min = 0 ∧
    (binomial_dist.ctor (1 / 2) 4).max = 4 := by
  refine ⟨?_, ?_, ?_, ?_, ?_, ?_, ?_, ?_, rfl, rfl⟩
  · intro i hi
    have h := push_loop_eq p n i 0 [] (by omega)
    simp only [Nat.choose_zero_right, Nat.cast_one, Nat.cast_zero, Nat.zero_add] at h
    rw [h]
  · rw [calc_probabilities_eq]; simp
  · intro x hx
    exact pdf_eq p n x hx
  · intro x hx
    exact cdf_eq p n x hx
  · rw [cumul_table, getLastD_cdf]
  · rw [calc_probabilities_eq, cumul_table]
  · have h : ∀ x : Nat, x ≤ 4 → (binomial_dist.ctor (1 / 2) 4).pdf x
        = some (binom_pmf (1 / 2) 4 x) := fun x hx => pdf_eq (1 / 2) 4 x hx
    simp only [List.range, List.range.loop, List.map]
    rw [h 0 (by omega), h 1 (by omega), h 2 (by omega), h 3 (by omega), h 4 (by omega)]
    norm_num [binom_pmf, Nat.choose]
  · have h := cdf_eq (1 / 2) 4 4 (by omega)
    rw [show ((4 : Nat) : Int) = 4 from rfl] at h
    rw [h, binom_cdf_last]

/-! ## The lags of the typedefs -/

theorem predefined_cases (ul ull : Nat) (sp : Species) (hsp : sp ∈ predefined ul ull) :
    sp.A < sp.B ∧ sp.B < sp.C ∧ sp.C < sp.D ∧ sp.wf ∧ sp.D < ceil2 sp.D := by
  simp only [predefined, List.mem_cons, List.mem_singleton, List.not_mem_nil, or_false] at hsp
  rcases hsp with h | h | h | h | h | h | h | h | h | h | h | h | h | h | h | h <;>
    subst h <;>
    simp only [Species.wf, lagfib4plus_521_ul, lagfib4plus_521_ull, lagfib4plus_607_ul,
      lagfib4plus_607_ull, lagfib4plus_1279_ul, lagfib4plus_1279_ull, lagfib4plus_2281_ul,
      lagfib4plus_2281_ull, lagfib4plus_3217_ul, lagfib4plus_3217_ull, lagfib4plus_4423_ul,
      lagfib4plus_4423_ull, lagfib4plus_9689_ul, lagfib4plus_9689_ull, lagfib4plus_19937_ul,
      lagfib4plus_19937_ull] <;>
    decide

/-- C18, as the code has it. In every one of the sixteen typedefs the lags are strictly
ordered `A < B < C < D`: `D`, which sizes the buffer and the seeding, is the longest lag. -/
theorem lag_order (ul ull : Nat) (sp : Species) (hsp : sp ∈ predefined ul ull) :
    sp.A < sp.B ∧ sp.B < sp.C ∧ sp.C < sp.D := by
  obtain ⟨h1, h2, h3, _⟩ := predefined_cases ul ull sp hsp
  exact ⟨h1, h2, h3⟩

/-- C18, as the claim has it, fails: `lagfib4plus_521_ul` is a typedef whose lags are not
ordered `A > B > C > D`. -/
theorem lag_order_counterexample :
    lagfib4plus_521_ul 64 ∈ predefined 64 64 ∧
    ¬ ((lagfib4plus_521_ul 64).A > (lagfib4plus_521_ul 64).B ∧
       (lagfib4plus_521_ul 64).B > (lagfib4plus_521_ul 64).C ∧
       (lagfib4plus_521_ul 64).C > (lagfib4plus_521_ul 64).D) := by
  refine ⟨by decide, by decide⟩

/-! ## The bit taken from a draw -/

theorem seed_bit_iff {σ : Type} (g : gen σ) (v : Nat) :
    seed_bit g v = true ↔ g.min + g.max / 2 < v := by
  simp only [seed_bit, decide_eq_true_eq]
  omega

/-- C16 at a failing input. The draw `1073741824` of the source with range
`1 .. 2147483646` lies in the range and strictly above the midpoint `(min + max) / 2`, and
the bit that `seed` takes from it is 0; for a source with range `100 .. 200` the draw 180
gives the bit 0 as well. The bit is 1 exactly when the draw exceeds `min + max / 2`. -/
theorem seed_bit_not_midpoint :
    (minstd.g.min ≤ 1073741824 ∧ 1073741824 ≤ minstd.g.max ∧
      (minstd.g.min + minstd.g.max) / 2 < 1073741824 ∧
      seed_bit minstd.g 1073741824 = false) ∧
    ((100 + 200) / 2 < 180 ∧
      seed_bit ({ min := 100, max := 200, next := fun s => (s, s) } : gen Nat) 180 = false) ∧
    (∀ (g : gen Nat) (v : Nat), seed_bit g v = true ↔ g.min + g.max / 2 < v) := by
  refine ⟨⟨by decide, by decide, by decide, by decide⟩, ⟨by decide, by decide⟩, ?_⟩
  intro g v
  exact seed_bit_iff g v

/-! ## The table and the fields -/

theorem param_consistent (P : param_type) (h : param_reachable P) :
    P.P_ = calc_probabilities P.p P.n := by
  induction h with
  | ctor p n => rfl
  | set_p P p_new _ _ => rfl
  | set_n P n_new _ _ => rfl
  | get gd gi inp P _ ih =>
    simp only [param_type.get]
    split
    · exact ih
    · rfl

theorem sampler_consistent (g : binomial_dist) (h : sampler_reachable g) :
    g.P.P_ = calc_probabilities g.P.p g.P.n := by
  induction h with
  | ctor p n => rfl
  | ctor_param P hP => exact param_consistent P hP
  | set_param g P _ hP _ => exact param_consistent P hP
  | set_p g p_new _ _ => rfl
  | set_n g n_new _ _ => rfl

theorem param_eq_iff (P1 P2 : param_type) :
    param_type.eq P1 P2 = true ↔ P1.p = P2.p ∧ P1.n = P2.n := by
  simp [param_type.eq]

/-- C13. After the construction from `(p, n)`, the setters of `p` and of `n`, the setters
`param`, `p` and `n` of the sampler, and a parse, the stored table is the one that
`calc_probabilities()` builds from the current `p` and `n`; so two parameter objects that
compare equal have the same table and give the same `pdf(x)` and `cdf(x)` for every `x`,
whatever operations produced them. -/
theorem table_consistent :
    (∀ P, param_reachable P → P.P_ = calc_probabilities P.p P.n) ∧
    (∀ g, sampler_reachable g → g.P.P_ = calc_probabilities g.p g.n) ∧
    (∀ P1 P2, param_reachable P1 → param_reachable P2 → param_type.eq P1 P2 = true →
      P1.P_ = P2.P_ ∧
      ∀ x : Int, (binomial_dist.ctor_param P1).pdf x = (binomial_dist.ctor_param P2).pdf x ∧
        (binomial_dist.ctor_param P1).cdf x = (binomial_dist.ctor_param P2).cdf x) := by
  refine ⟨param_consistent, sampler_consistent, ?_⟩
  intro P1 P2 h1 h2 heq
  rw [param_eq_iff] at heq
  have ht : P1.P_ = P2.P_ := by
    rw [param_consistent P1 h1, param_consistent P2 h2, heq.1, heq.2]
  refine ⟨ht, fun x => ?_⟩
  simp only [binomial_dist.pdf, binomial_dist.cdf, binomial_dist.ctor_param, ht, heq.2]
  exact ⟨trivial, trivial⟩

/-! ## Seeding again -/

theorem seed_r {σ : Type} (sp : Species) (g : gen σ) (st : σ) (R : lagfib4plus) (j : Nat) :
    (seed sp g st R).1.S.r j =
      if j < sp.D then (seed_word sp g sp.wordbits 0 (gen.state g st (j * sp.wordbits))).1
      else R.S.r j := by
  show (seed_loop sp g sp.D 0 R.S st).1.r j = _
  rw [seed_loop_r]
  simp only [Nat.zero_le, true_and, Nat.zero_add, Nat.sub_zero]

theorem seed_frame {σ : Type} (sp : Species) (g : gen σ) (st : σ) (R : lagfib4plus) (i : Nat)
    (hi : sp.D ≤ i) : (seed sp g st R).1.S.r i = R.S.r i := by
  rw [seed_r, if_neg (by omega)]

theorem nth_value_zero (sp : Species) (R : lagfib4plus) :
    nth_value sp R 0 = nth_value sp R 1 := rfl

/-- Engines at index `D - 1` whose slots `0 .. D-1` agree return the same values. -/
theorem values_of_seeded (sp : Species) (hsp : sp.wf) (E1 E2 : lagfib4plus)
    (h1 : E1.S.index = sp.D - 1) (h2 : E2.S.index = sp.D - 1)
    (hr : ∀ i, i < sp.D → E1.S.r i = E2.S.r i) (k : Nat) :
    nth_value sp E1 k = nth_value sp E2 k := by
  obtain ⟨hA, hB, hC, hD0, hD⟩ := hsp
  have hx : ∀ i, (if i < sp.D then E1.S.r i else nth_value sp E1 (i - (sp.D - 1)))
      = (if i < sp.D then E2.S.r i else nth_value sp E2 (i - (sp.D - 1))) := by
    intro i
    induction i using Nat.strong_induction_on with
    | _ i ih =>
      by_cases hi : i < sp.D
      · rw [if_pos hi, if_pos hi]
        exact hr i hi
      · have e1 := recurrence_of_lags sp hD hA hB hC hD0 E1 h1 _ (fun _ => rfl) i (by omega)
        have e2 := recurrence_of_lags sp hD hA hB hC hD0 E2 h2 _ (fun _ => rfl) i (by omega)
        rw [e1, e2, ih (i - sp.A) (by omega), ih (i - sp.B) (by omega),
          ih (i - sp.C) (by omega), ih (i - sp.D) (by omega)]
  have hk : ∀ k, 1 ≤ k → nth_value sp E1 k = nth_value sp E2 k := by
    intro k hk
    have := hx (sp.D - 1 + k)
    rw [if_neg (by omega), if_neg (by omega), show sp.D - 1 + k - (sp.D - 1) = k by omega] at this
    exact this
  cases k with
  | zero => rw [nth_value_zero, nth_value_zero]; exact hk 1 le_rfl
  | succ k => exact hk (k + 1) (by omega)

/-- After `seed(g)` the values to come do not depend on the engine that was seeded. -/
theorem values_after_seed {σ : Type} (sp : Species) (hsp : sp.wf) (g : gen σ) (st : σ)
    (E E' : lagfib4plus) (k : Nat) :
    nth_value sp (seed sp g st E).1 k = nth_value sp (seed sp g st E').1 k := by
  have hi : sub32 sp.D 1 = sp.D - 1 := sub32_one _ hsp.2.2.2.1 hsp.2.2.2.2
  apply values_of_seeded sp hsp
  · rw [seed_index, hi]
  · rw [seed_index, hi]
  · intro i hi'
    rw [seed_r, seed_r, if_pos hi', if_pos hi']

/-- C14. After `E.seed()`, for any engine state `E`, the `k`-th value returned by
`generate()` is the `k`-th value of a freshly default-constructed engine and the `k`-th
value after `seed(0)`; and the values after `seed(s)` are the same for any two engine states,
so they depend on `s` only. This is for species whose lags lie in `1 .. D`, as those of
all sixteen typedefs do. -/
theorem reseed_canonical {σ : Type} (sp : Species) (hsp : sp.wf) (M : aux_source σ)
    (E E' : lagfib4plus) (s k : Nat) :
    nth_value sp (seed_default sp M E) k = nth_value sp (lagfib4plus.ctor sp M) k ∧
    nth_value sp (seed_default sp M E) k = nth_value sp (seed_ul sp M 0 E) k ∧
    nth_value sp (seed_ul sp M s E) k = nth_value sp (seed_ul sp M s E') k :=
  ⟨values_after_seed sp hsp M.g (M.ctor 0) E _ k, rfl,
    values_after_seed sp hsp M.g (M.ctor s) E E' k⟩

/-- Reseeding after one call of `generate()` leaves the value of that call in slot `D`. -/
theorem reseed_after_generate {σ : Type} (sp : Species) (hsp : sp.wf)
    (hDW : sp.D < ceil2 sp.D) (M : aux_source σ) (s : Nat) (E0 : lagfib4plus)
    (hidx : E0.S.index = sp.D - 1) (hv : (generate sp E0).1 ≠ E0.S.r sp.D) :
    lagfib4plus.eq sp (seed_ul sp M s E0) (seed_ul sp M s (generate sp E0).2) = false ∧
    ∀ k, nth_value sp (seed_ul sp M s E0) k
      = nth_value sp (seed_ul sp M s (generate sp E0).2) k := by
  refine ⟨?_, fun k => values_after_seed sp hsp M.g (M.ctor s) _ _ k⟩
  have hD0 := hsp.2.2.2.1
  have hD := hsp.2.2.2.2
  have hnext : (E0.S.index + 1) % ceil2 sp.D = sp.D := by
    rw [hidx, show sp.D - 1 + 1 = sp.D by omega, Nat.mod_eq_of_lt hDW]
  have hslot : (generate sp E0).2.S.r sp.D = (generate sp E0).1 := by
    rw [generate_fst, generate_snd, step_index sp hD, hnext]
  by_contra hne
  have heq : lagfib4plus.eq sp (seed_ul sp M s E0) (seed_ul sp M s (generate sp E0).2) = true := by
    simpa using hne
  rw [engine_eq_iff] at heq
  have h := heq.2 sp.D hDW
  simp only [seed_ul] at h
  rw [seed_frame _ _ _ _ _ le_rfl, seed_frame _ _ _ _ _ le_rfl, hslot] at h
  exact hv h.symm

theorem seed_word_ones (sp : Species) (n r : Nat) (st : Unit)
    (h : (r + 1) * 2 ^ n ≤ 2 ^ sp.wordbits) :
    (seed_word sp all_ones n r st).1 = (r + 1) * 2 ^ n - 1 := by
  induction n generalizing r st with
  | zero => simp [seed_word]
  | succ n ih =>
    have h2 : 2 * (r + 1) * 2 ^ n ≤ 2 ^ sp.wordbits := by
      rw [pow_succ] at h
      calc 2 * (r + 1) * 2 ^ n = (r + 1) * (2 ^ n * 2) := by ring
        _ ≤ 2 ^ sp.wordbits := h
    have hpos : 0 < 2 ^ n := by positivity
    have h3 : 2 * (r + 1) ≤ 2 ^ sp.wordbits :=
      le_trans (Nat.le_mul_of_pos_right _ hpos) h2
    have hshift : (r <<< 1) % 2 ^ sp.wordbits = 2 * r := by
      rw [Nat.shiftLeft_eq, pow_one, Nat.mod_eq_of_lt (by omega)]
      omega
    have hbit : seed_bit all_ones (all_ones.next st).1 = true := by
      show seed_bit all_ones 1 = true
      decide
    simp only [seed_word, hshift, hbit, if_true]
    rw [Nat.mod_eq_of_lt (by omega), ih _ _ (by
      calc (2 * r + 1 + 1) * 2 ^ n = 2 * (r + 1) * 2 ^ n := by ring
        _ ≤ 2 ^ sp.wordbits := h2)]
    rw [pow_succ]
    congr 1
    ring

/-- The engine constructed from the source of ones: index `D - 1`, slots `0 .. D-1` all
ones, the other slots 0, and a first value that is not 0. -/
theorem ones_engine (sp : Species) (hsp : sp.wf) (hw : 3 ≤ sp.wordbits) :
    (lagfib4plus.ctor_gen sp all_ones ()).1.S.index = sp.D - 1 ∧
    (lagfib4plus.ctor_gen sp all_ones ()).1.S.r sp.D = 0 ∧
    (generate sp (lagfib4plus.ctor_gen sp all_ones ()).1).1 ≠ 0 := by
  obtain ⟨hA, hB, hC, hD0, hD⟩ := hsp
  have hidx : (lagfib4plus.ctor_gen sp all_ones ()).1.S.index = sp.D - 1 := by
    rw [lagfib4plus.ctor_gen, seed_index, sub32_one _ hD0 hD]
  have hslot : ∀ i, i < sp.D →
      (lagfib4plus.ctor_gen sp all_ones ()).1.S.r i = 2 ^ sp.wordbits - 1 := by
    intro i hi
    rw [lagfib4plus.ctor_gen, seed_r, if_pos hi, seed_word_ones sp _ _ _ (by simp)]
    simp
  refine ⟨hidx, ?_, ?_⟩
  · rw [lagfib4plus.ctor_gen, seed_frame _ _ _ _ _ le_rfl]
    rfl
  · have hrec := recurrence_of_lags sp hD hA hB hC hD0 _ hidx _ (fun _ => rfl) sp.D le_rfl
    simp only [lt_irrefl, if_false] at hrec
    rw [show sp.D - (sp.D - 1) = 1 by omega] at hrec
    rw [if_pos (by omega), if_pos (by omega), if_pos (by omega), if_pos (by omega),
      hslot _ (by omega), hslot _ (by omega), hslot _ (by omega), hslot _ (by omega)] at hrec
    have hval : nth_value sp (lagfib4plus.ctor_gen sp all_ones ()).1 1
        = (generate sp (lagfib4plus.ctor_gen sp all_ones ()).1).1 := rfl
    rw [← hval, hrec]
    have h8 : 8 ≤ 2 ^ sp.wordbits := by
      calc 8 = 2 ^ 3 := by norm_num
        _ ≤ 2 ^ sp.wordbits := Nat.pow_le_pow_right (by norm_num) hw
    have hsum : 2 ^ sp.wordbits - 1 + (2 ^ sp.wordbits - 1) + (2 ^ sp.wordbits - 1)
        + (2 ^ sp.wordbits - 1) = (2 ^ sp.wordbits - 4) + 3 * 2 ^ sp.wordbits := by omega
    rw [hsum, Nat.add_mul_mod_self_right, Nat.mod_eq_of_lt (by omega)]
    omega

/-- C19. `seed(source)` leaves every slot from `D` on as it was. So of two engines built by
the same constructor and seeded with the same integer `s`, one at once and one after a call
of `generate()`, the second keeps the value of that call in slot `D`: the two compare
unequal and yet return the same value at every later call. This is shown for engines
constructed from a source of ones, and for default-constructed engines whose first value is
not 0; the species has its lags in `1 .. D`, `D` below the buffer size and at least 3 bits in
a word, as all sixteen typedefs have. -/
theorem seed_partial_overwrite {σ τ : Type} (sp : Species) (hsp : sp.wf)
    (hDW : sp.D < ceil2 sp.D) (hw : 3 ≤ sp.wordbits) (M : aux_source σ) (s : Nat)
    (g : gen τ) (st : τ) (R : lagfib4plus) :
    (∀ i, sp.D ≤ i → (seed sp g st R).1.S.r i = R.S.r i) ∧
    (∀ i, sp.D ≤ i → (seed_ul sp M s R).S.r i = R.S.r i) ∧
    (lagfib4plus.eq sp (seed_ul sp M s (lagfib4plus.ctor_gen sp all_ones ()).1)
        (seed_ul sp M s (generate sp (lagfib4plus.ctor_gen sp all_ones ()).1).2) = false ∧
      ∀ k, nth_value sp (seed_ul sp M s (lagfib4plus.ctor_gen sp all_ones ()).1) k
        = nth_value sp (seed_ul sp M s (generate sp (lagfib4plus.ctor_gen sp all_ones ()).1).2) k)
    ∧ (nth_value sp (lagfib4plus.ctor sp M) 1 ≠ 0 →
      lagfib4plus.eq sp (seed_ul sp M s (lagfib4plus.ctor sp M))
        (seed_ul sp M s (generate sp (lagfib4plus.ctor sp M)).2) = false ∧
      ∀ k, nth_value sp (seed_ul sp M s (lagfib4plus.ctor sp M)) k
        = nth_value sp (seed_ul sp M s (generate sp (lagfib4plus.ctor sp M)).2) k) := by
  refine ⟨fun i hi => seed_frame sp g st R i hi, fun i hi => seed_frame sp _ _ R i hi, ?_, ?_⟩
  · obtain ⟨h1, h2, h3⟩ := ones_engine sp hsp hw
    exact reseed_after_generate sp hsp hDW M s _ h1 (by rw [h2]; exact h3)
  · intro hv
    have hidx : (lagfib4plus.ctor sp M).S.index = sp.D - 1 :=
      sub32_one _ hsp.2.2.2.1 hsp.2.2.2.2
    have hslot : (lagfib4plus.ctor sp M).S.r sp.D = 0 := by
      show (seed sp M.g (M.ctor 0) _).1.S.r sp.D = 0
      rw [seed_frame _ _ _ _ _ le_rfl]
      rfl
    exact reseed_after_generate sp hsp hDW M s _ hidx (by rw [hslot]; exact hv)

/-! ## The index -/

theorem seed_word_lt {σ : Type} (sp : Species) (g : gen σ) (n r : Nat) (st : σ)
    (h : r < 2 ^ sp.wordbits) : (seed_word sp g n r st).1 < 2 ^ sp.wordbits := by
  have hpos : 0 < 2 ^ sp.wordbits := by positivity
  induction n generalizing r st with
  | zero => exact h
  | succ n ih =>
    simp only [seed_word]
    apply ih
    split
    · exact Nat.mod_lt _ hpos
    · exact Nat.mod_lt _ hpos

theorem seed_inv {σ : Type} (sp : Species) (hD0 : 0 < sp.D) (hD : sp.D < 2 ^ 32) (g : gen σ)
    (st : σ) (R : lagfib4plus) (hR : ∀ i, i < ceil2 sp.D → R.S.r i < 2 ^ sp.wordbits) :
    (seed sp g st R).1.S.index < ceil2 sp.D ∧
    ∀ i, i < ceil2 sp.D → (seed sp g st R).1.S.r i < 2 ^ sp.wordbits := by
  refine ⟨?_, fun i hi => ?_⟩
  · rw [seed_index, sub32_one _ hD0 hD]
    have := le_ceil2 sp.D
    omega
  · rw [seed_r]
    split
    · exact seed_word_lt sp g _ _ _ (by positivity)
    · exact hR i hi

/-- Every reachable state has its index below the buffer size and its slots in the range of
the word type. -/
theorem reachable_inv {σ : Type} (sp : Species) (hD0 : 0 < sp.D) (hD : sp.D < 2 ^ 32)
    (M : aux_source σ) (R : lagfib4plus) (h : reachable sp M R) :
    R.S.index < ceil2 sp.D ∧ ∀ i, i < ceil2 sp.D → R.S.r i < 2 ^ sp.wordbits := by
  have hinit : ∀ i, i < ceil2 sp.D →
      ({ P := {}, S := status_type.init } : lagfib4plus).S.r i < 2 ^ sp.wordbits :=
    fun _ _ => by show 0 < 2 ^ sp.wordbits; positivity
  induction h with
  | ctor => exact seed_inv sp hD0 hD _ _ _ hinit
  | ctor_gen g st => exact seed_inv sp hD0 hD _ _ _ hinit
  | seed_default R _ ih => exact seed_inv sp hD0 hD _ _ _ ih.2
  | seed_ul s R _ ih => exact seed_inv sp hD0 hD _ _ _ ih.2
  | seed g st R _ ih => exact seed_inv sp hD0 hD _ _ _ ih.2
  | generate R _ ih =>
    have hpos : 0 < 2 ^ sp.wordbits := by positivity
    refine ⟨?_, fun i hi => ?_⟩
    · rw [generate_snd]
      simp only [step_index sp hD]
      exact Nat.mod_lt _ (ceil2_pos _)
    · rw [generate_snd]
      simp only [step_r sp hD]
      split
      · exact Nat.mod_lt _ hpos
      · exact ih.2 i hi
  | parse E R _ _ ihE _ =>
    have hW : ceil2 sp.D ≤ 2 ^ 32 := ceil2_least sp.D 32 hD.le
    obtain ⟨_, h2, h3⟩ := parse_serialize sp E R (by omega) ihE.2
    refine ⟨by rw [h2]; exact ihE.1, fun i hi => ?_⟩
    rw [h3 i hi]
    exact ihE.2 i hi

/-- C15, as the code has it. In every engine state reached by the constructors, the `seed`
overloads, calls of `generate()` and the parsing of a text that the serializer wrote from
such a state, the index lies in `[0, W)`. -/
theorem index_invariant {σ : Type} (sp : Species) (hD0 : 0 < sp.D) (hD : sp.D < 2 ^ 32)
    (M : aux_source σ) (R : lagfib4plus) (h : reachable sp M R) :
    0 ≤ R.S.index ∧ R.S.index < ceil2 sp.D :=
  ⟨Nat.zero_le _, (reachable_inv sp hD0 hD M R h).1⟩

set_option maxRecDepth 100000 in
/-- C15, as the claim has it, fails: a text in the serialized form with the index 9 is
parsed with success into an engine with 8 slots, and the index is 9 afterwards; and the
text that the serializer writes for the index 5000 and 1024 slots of zeros is parsed with
success into an engine `lagfib4plus_521_ull`, whose index is 5000 afterwards. -/
theorem index_counterexample :
    (ceil2 (⟨8, 1, 2, 3, 5⟩ : Species).D = 8 ∧
      (parse ⟨8, 1, 2, 3, 5⟩ "[lagfib4plus_8_1_2_3_5 () (9 1 2 3 4 5 6 7 8)]".toList
        ⟨{}, status_type.init⟩).1.fail = false ∧
      (parse ⟨8, 1, 2, 3, 5⟩ "[lagfib4plus_8_1_2_3_5 () (9 1 2 3 4 5 6 7 8)]".toList
        ⟨{}, status_type.init⟩).2.S.index = 9 ∧
      ¬ (parse ⟨8, 1, 2, 3, 5⟩ "[lagfib4plus_8_1_2_3_5 () (9 1 2 3 4 5 6 7 8)]".toList
        ⟨{}, status_type.init⟩).2.S.index < ceil2 (⟨8, 1, 2, 3, 5⟩ : Species).D) ∧
    (ceil2 (lagfib4plus_521_ull 64).D = 1024 ∧
      (parse (lagfib4plus_521_ull 64)
        (serialize (lagfib4plus_521_ull 64) ⟨{}, { r := fun _ => 0, index := 5000 }⟩)
        ⟨{}, status_type.init⟩).1.fail = false ∧
      (parse (lagfib4plus_521_ull 64)
        (serialize (lagfib4plus_521_ull 64) ⟨{}, { r := fun _ => 0, index := 5000 }⟩)
        ⟨{}, status_type.init⟩).2.S.index = 5000 ∧
      ¬ (parse (lagfib4plus_521_ull 64)
        (serialize (lagfib4plus_521_ull 64) ⟨{}, { r := fun _ => 0, index := 5000 }⟩)
        ⟨{}, status_type.init⟩).2.S.index < ceil2 (lagfib4plus_521_ull 64).D) := by
  refine ⟨⟨by decide, by decide, by decide, by decide⟩, ?_⟩
  obtain ⟨h1, h2, _⟩ := parse_serialize (lagfib4plus_521_ull 64)
    ⟨{}, { r := fun _ => 0, index := 5000 }⟩ ⟨{}, status_type.init⟩ (by decide)
    (fun _ _ => Nat.two_pow_pos _)
  have hW : ceil2 (lagfib4plus_521_ull 64).D = 1024 := by decide
  refine ⟨hW, by rw [h1], h2, ?_⟩
  rw [h2, hW]
  decide

/-! ## The text of a parameter object -/

theorem round_even_small (y : ℚ) (h0 : 0 ≤ y) (h1 : y < 1 / 2) : round_even y = 0 := by
  have hf : ⌊y⌋ = 0 := by
    rw [Int.floor_eq_zero_iff]
    exact ⟨h0, by linarith⟩
  simp only [round_even, hf, Int.cast_zero, sub_zero, if_pos h1]

theorem put_fixed_small (x : ℚ) (h0 : 0 ≤ x) (h1 : x * 10 ^ 16 < 1 / 2) :
    put_fixed 16 x = "0.0000000000000000".toList := by
  have hr : round_even (|x| * 10 ^ 16) = 0 := by
    rw [abs_of_nonneg h0]
    exact round_even_small _ (by positivity) h1
  simp only [put_fixed, hr, if_neg (not_lt.mpr h0)]
  decide

set_option maxRecDepth 100000 in
/-- C12 at a failing input. The parameter object `(p, n) = (2^-60, 4)` is written as
`(0.0000000000000000 4)`; parsing this text succeeds and gives `p = 0`, so the object read
back does not compare equal to the one written. -/
theorem param_roundtrip_fails :
    param_type.put [] (param_type.ctor (1 / 2 ^ 60) 4) = "(0.0000000000000000 4)".toList ∧
    (param_type.get get_double_fixed get_int_digits
      (istream.of (param_type.put [] (param_type.ctor (1 / 2 ^ 60) 4)))
      (param_type.ctor 1 1)).1 = { buf := [], fail := false } ∧
    (param_type.get get_double_fixed get_int_digits
      (istream.of (param_type.put [] (param_type.ctor (1 / 2 ^ 60) 4)))
      (param_type.ctor 1 1)).2 = param_type.ctor 0 4 ∧
    param_type.eq (param_type.ctor 0 4) (param_type.ctor (1 / 2 ^ 60) 4) = false := by
  have hput : param_type.put [] (param_type.ctor (1 / 2 ^ 60) 4)
      = "(0.0000000000000000 4)".toList := by
    simp only [param_type.put, param_type.p, param_type.n, param_type.ctor]
    rw [put_fixed_small _ (by positivity) (by norm_num)]
    decide
  have hs : (param_type.get get_double_fixed get_int_digits
      (istream.of "(0.0000000000000000 4)".toList) (param_type.ctor 1 1)).1
      = { buf := [], fail := false } := by decide
  have ha : (get_double_fixed (delim '(' (istream.of "(0.0000000000000000 4)".toList))).2 = 0 := by
    have e1 : (get_unsigned 64 (delim '(' (istream.of "(0.0000000000000000 4)".toList)) 0).2
        = 0 := by decide
    have e2 : (get_unsigned 64 (delim '.' (get_unsigned 64
        (delim '(' (istream.of "(0.0000000000000000 4)".toList)) 0).1) 0).2 = 0 := by decide
    simp only [get_double_fixed, e1, e2]
    norm_num
  have hb : (get_int_digits (delim ' ' (get_double_fixed
      (delim '(' (istream.of "(0.0000000000000000 4)".toList))).1)).2 = 4 := by
    have e3 : (get_unsigned 31 (delim ' ' (get_double_fixed
        (delim '(' (istream.of "(0.0000000000000000 4)".toList))).1) 0).2 = 4 := by decide
    simp only [get_int_digits, e3]
    rfl
  refine ⟨hput, ?_, ?_, ?_⟩
  · rw [hput, hs]
  · rw [hput]
    have hf : (param_type.get get_double_fixed get_int_digits
        (istream.of "(0.0000000000000000 4)".toList) (param_type.ctor 1 1)).1.fail = false := by
      rw [hs]
    simp only [param_type.get] at hf ⊢
    rw [if_neg (by rw [hf]; decide), ha, hb]
  · simp only [param_type.eq, param_type.p, param_type.n, param_type.ctor]
    norm_num

/-! ## The loops in machine arithmetic -/

theorem machine_push_loop_eq {α : Type} (A : arith α) (p : α) (n : Int) (hn : n < INT_MAX)
    (k : Nat) : ∀ (i : Nat) (P : List α), (i : Int) + k = n + 1 →
    machine.push_loop A p n i (machine.coef A n i) P
      = some (P ++ (List.range k).map fun t => machine.entry A p n (i + t)) := by
  induction k with
  | zero =>
    intro i P h
    rw [machine.push_loop, if_neg (by omega)]
    simp
  | succ k ih =>
    intro i P h
    have h1 : (i : Int) ≤ n := by omega
    have h2 : (i : Int) < INT_MAX := by omega
    rw [machine.push_loop, if_pos h1]
    simp only [if_pos h2]
    have hc : ((i : Int) + 1) = ((i + 1 : Nat) : Int) := by push_cast; rfl
    have hcoef : A.div (A.mul (machine.coef A n i) (A.of_int (n - i))) (A.of_int ((i : Int) + 1))
        = machine.coef A n (i + 1) := rfl
    rw [hcoef, hc, ih (i + 1) _ (by push_cast; omega), List.range_succ_eq_map]
    simp only [List.map_cons, List.map_map, List.append_assoc, List.singleton_append,
      Nat.add_zero]
    congr 3
    apply List.map_congr_left
    intro t _
    simp only [Function.comp, Nat.succ_eq_add_one]
    rw [show i + (t + 1) = i + 1 + t by omega]

theorem machine_push_loop_nat {α : Type} (A : arith α) (p : α) (m : Nat)
    (hn : (m : Int) < INT_MAX) :
    machine.push_loop A p m 0 A.one []
      = some ((List.range (m + 1)).map (machine.entry A p m)) := by
  have h := machine_push_loop_eq A p m hn (m + 1) 0 [] (by push_cast; omega)
  simp only [Nat.cast_zero, List.nil_append, Nat.zero_add] at h
  exact h

theorem machine_push_loop_max {α : Type} (A : arith α) (p : α) (n : Int) (hn : INT_MAX ≤ n)
    (k : Nat) : ∀ (i : Int) (b : α) (P : List α), (INT_MAX - i).toNat = k → i ≤ INT_MAX →
    machine.push_loop A p n i b P = none := by
  induction k with
  | zero =>
    intro i b P hk hi
    rw [machine.push_loop, if_pos (by omega)]
    simp only [if_neg (by omega : ¬ i < INT_MAX)]
  | succ k ih =>
    intro i b P hk hi
    rw [machine.push_loop, if_pos (by omega)]
    simp only [if_pos (by omega : i < INT_MAX)]
    exact ih _ _ _ (by omega) (by omega)

theorem range_map_set {α : Type} (m i : Nat) (_ : i < m) (g : Nat → α) (a : α) :
    ((List.range m).map g).set i a = (List.range m).map (fun j => if j = i then a else g j) := by
  apply List.ext_getElem
  · simp
  · intro j h1 h2
    have hj : j < m := by simpa using h2
    simp only [List.getElem_set, List.getElem_map, List.getElem_range]
    by_cases h : i = j
    · subst h; simp
    · rw [if_neg h, if_neg (fun e => h e.symm)]

theorem range_map_getD {α : Type} (m i : Nat) (hi : i < m) (g : Nat → α) (d : α) :
    ((List.range m).map g).getD i d = g i := by
  rw [List.getD_eq_getElem _ _ (by simpa using hi)]
  simp

theorem range_map_getLastD {α : Type} (m : Nat) (g : Nat → α) (d : α) :
    ((List.range (m + 1)).map g).getLastD d = g m := by
  rw [List.range_succ, List.map_append, List.map_singleton, List.getLastD_concat]

theorem machine_cumul_loop_eq {α : Type} (A : arith α) (f : Nat → α) (m k : Nat) :
    ∀ i, 1 ≤ i → i + k = m + 1 →
    machine.cumul_loop A k i
        ((List.range (m + 1)).map fun j => if j < i then machine.csum A f j else f j)
      = (List.range (m + 1)).map (machine.csum A f) := by
  induction k with
  | zero =>
    intro i _ h
    simp only [machine.cumul_loop]
    apply List.map_congr_left
    intro j hj
    rw [List.mem_range] at hj
    rw [if_pos (by omega)]
  | succ k ih =>
    intro i hi h
    rw [machine.cumul_loop, range_map_getD _ _ (by omega), range_map_getD _ _ (by omega),
      range_map_set _ _ (by omega), if_neg (by omega), if_pos (by omega), ← ih (i + 1) (by omega) (by omega)]
    congr 1
    apply List.map_congr_left
    intro j hj
    by_cases hji : j = i
    · subst hji
      rw [if_pos rfl, if_pos (by omega)]
      obtain ⟨t, rfl⟩ : ∃ t, j = t + 1 := ⟨j - 1, by omega⟩
      rfl
    · rw [if_neg hji]
      by_cases hlt : j < i
      · rw [if_pos hlt, if_pos (by omega)]
      · rw [if_neg hlt, if_neg (by omega)]

theorem machine_cumul_eq {α : Type} (A : arith α) (f : Nat → α) (m : Nat) :
    machine.cumul_loop A (((List.range (m + 1)).map f).length - 1) 1 ((List.range (m + 1)).map f)
      = (List.range (m + 1)).map (machine.csum A f) := by
  have h := machine_cumul_loop_eq A f m m 1 le_rfl (by omega)
  have e : ((List.range (m + 1)).map fun j => if j < 1 then machine.csum A f j else f j)
      = (List.range (m + 1)).map f := by
    apply List.map_congr_left
    intro j _
    by_cases hj : j < 1
    · rw [if_pos hj]
      have : j = 0 := by omega
      subst this
      rfl
    · rw [if_neg hj]
  rw [e] at h
  simpa using h

theorem machine_norm_loop_eq {α : Type} (A : arith α) (g : Nat → α) (m k : Nat) :
    ∀ i, i + k = m + 1 →
    machine.norm_loop A k i
        ((List.range (m + 1)).map fun j => if j < i then A.div (g j) (g m) else g j)
      = (List.range (m + 1)).map fun j => A.div (g j) (g m) := by
  induction k with
  | zero =>
    intro i h
    simp only [machine.norm_loop]
    apply List.map_congr_left
    intro j hj
    rw [List.mem_range] at hj
    rw [if_pos (by omega)]
  | succ k ih =>
    intro i h
    rw [machine.norm_loop, range_map_getD _ _ (by omega), range_map_getLastD,
      range_map_set _ _ (by omega), if_neg (by omega), if_neg (by omega), ← ih (i + 1) (by omega)]
    congr 1
    apply List.map_congr_left
    intro j hj
    by_cases hji : j = i
    · subst hji
      rw [if_pos rfl, if_pos (by omega)]
    · rw [if_neg hji]
      by_cases hlt : j < i
      · rw [if_pos hlt, if_pos (by omega)]
      · rw [if_neg hlt, if_neg (by omega)]

theorem machine_norm_eq {α : Type} (A : arith α) (g : Nat → α) (m : Nat) :
    machine.norm_loop A ((List.range (m + 1)).map g).length 0 ((List.range (m + 1)).map g)
      = (List.range (m + 1)).map fun j => A.div (g j) (g m) := by
  have h := machine_norm_loop_eq A g m (m + 1) 0 (by omega)
  simpa using h

theorem machine_cumulative_nat {α : Type} (A : arith α) (p : α) (m : Nat)
    (hn : (m : Int) < INT_MAX) :
    machine.cumulative A p m
      = some ((List.range (m + 1)).map (machine.csum A (machine.entry A p m))) := by
  rw [machine.cumulative, machine_push_loop_nat A p m hn, Option.map_some', machine_cumul_eq]

theorem machine_calc_nat {α : Type} (A : arith α) (p : α) (m : Nat)
    (hn : (m : Int) < INT_MAX) :
    machine.calc_probabilities A p m
      = some ((List.range (m + 1)).map fun j =>
          A.div (machine.csum A (machine.entry A p m) j)
            (machine.csum A (machine.entry A p m) m)) := by
  rw [machine.calc_probabilities, machine_cumulative_nat A p m hn, Option.map_some',
    machine_norm_eq]

theorem machine_push_rational (p : ℚ) (n : Int) (hn : n < INT_MAX) (k : Nat) :
    ∀ (i : Int) (b : ℚ) (P : List ℚ), (n + 1 - i).toNat = k →
    machine.push_loop rational p n i b P = some (push_loop p n k i b P).1 := by
  induction k with
  | zero =>
    intro i b P h
    rw [machine.push_loop, if_neg (by omega)]
    rfl
  | succ k ih =>
    intro i b P h
    rw [machine.push_loop, if_pos (by omega)]
    simp only [if_pos (by omega : i < INT_MAX)]
    rw [ih (i + 1) _ _ (by omega)]
    rfl

theorem machine_cumul_rational (k : Nat) : ∀ (i : Nat) (P : List ℚ),
    machine.cumul_loop rational k i P = cumul_loop k i P := by
  induction k with
  | zero => intro i P; rfl
  | succ k ih =>
    intro i P
    rw [machine.cumul_loop, cumul_loop, ih]
    rfl

theorem machine_norm_rational (k : Nat) : ∀ (i : Nat) (P : List ℚ),
    machine.norm_loop rational k i P = norm_loop k i P := by
  induction k with
  | zero => intro i P; rfl
  | succ k ih =>
    intro i P
    rw [machine.norm_loop, norm_loop, ih]
    rfl

/-- In exact arithmetic and for every `int n` below `INT_MAX`, the loops with the 32-bit
counter come to an end and build the table `calc_probabilities p n` of the section on exact
arithmetic. -/
theorem machine_calc_rational (p : ℚ) (n : Int) (hn : n < INT_MAX) :
    machine.calc_probabilities rational p n = some (calc_probabilities p n) := by
  have h := machine_push_rational p n hn (n + 1).toNat 0 1 [] (by rw [sub_zero])
  rw [machine.calc_probabilities, machine.cumulative]
  rw [show rational.one = (1 : ℚ) from rfl, h]
  simp only [Option.map_some', machine_cumul_rational, machine_norm_rational]
  rfl

/-! ## The sampler for every `int n` -/

theorem machine_cumulative_max {α : Type} (A : arith α) (p : α) (n : Int) (hn : INT_MAX ≤ n) :
    machine.cumulative A p n = none := by
  rw [machine.cumulative, machine_push_loop_max A p n hn _ 0 _ _ rfl (by simp [INT_MAX])]
  rfl

theorem machine_ctor_nat {α : Type} (A : arith α) (p : α) (m : Nat)
    (hn : (m : Int) < INT_MAX) :
    ∃ P, machine.param_type.ctor A p m = some P ∧ P.n_ = m ∧
      P.P_ = (List.range (m + 1)).map (fun j =>
        A.div (machine.csum A (machine.entry A p m) j)
          (machine.csum A (machine.entry A p m) m)) := by
  refine ⟨{ p_ := p, n_ := m, P_ := (List.range (m + 1)).map (fun j =>
    A.div (machine.csum A (machine.entry A p m) j)
      (machine.csum A (machine.entry A p m) m)) }, ?_, rfl, rfl⟩
  rw [machine.param_type.ctor, machine_calc_nat A p m hn]
  rfl

theorem round_even_ge (y : ℚ) : y - 1 / 2 ≤ (round_even y : ℚ) := by
  have h1 : y < ⌊y⌋ + 1 := Int.lt_floor_add_one y
  have h2 : (⌊y⌋ : ℚ) ≤ y := Int.floor_le y
  unfold round_even
  split_ifs with a b c
  · linarith
  · push_cast; linarith
  · linarith
  · push_cast; linarith

theorem round_even_floor (y : ℚ) : ⌊y⌋ ≤ round_even y := by
  unfold round_even
  split_ifs <;> omega

theorem round_even_int (k : Int) : round_even (k : ℚ) = k := by
  unfold round_even
  rw [Int.floor_intCast]
  simp

theorem zpow_two_pos (k : Int) : (0 : ℚ) < 2 ^ k := zpow_pos (by norm_num) k

theorem pow52_mul (k : Int) : ((2 ^ 52 : Int) : ℚ) * 2 ^ (k - 52) = 2 ^ k := by
  have e : ((2 ^ 52 : Int) : ℚ) = (2 : ℚ) ^ (52 : Int) := by norm_num
  rw [e, ← zpow_add₀ (by norm_num : (2 : ℚ) ≠ 0)]
  congr 1
  ring

theorem round_pow_two (k : Int) (h1 : -1022 ≤ k) (h2 : k ≤ 1023) (b : Bool) :
    dbl.round (2 ^ k) b = .fin (2 ^ k) := by
  have hpos : (0 : ℚ) < 2 ^ k := zpow_two_pos k
  have hlog : Int.log 2 |(2 : ℚ) ^ k| = k := by
    rw [abs_of_pos hpos]
    exact_mod_cast Int.log_zpow (R := ℚ) (b := 2) (by norm_num) k
  have hy : |(2 : ℚ) ^ k| / 2 ^ (k - 52) = ((2 ^ 52 : Int) : ℚ) := by
    rw [abs_of_pos hpos, div_eq_iff (ne_of_gt (zpow_two_pos _)), pow52_mul]
  have hr : (((2 ^ 52 : Int) : ℚ)) * 2 ^ (k - 52) = 2 ^ k := pow52_mul k
  have hlt : ¬ (2 : ℚ) ^ (1024 : Nat) ≤ 2 ^ k := by
    rw [← zpow_natCast (2 : ℚ) 1024, not_le]
    exact zpow_lt_zpow_right₀ (by norm_num) (by push_cast; omega)
  unfold dbl.round
  rw [if_neg (ne_of_gt hpos)]
  simp only [hlog, max_eq_left h1, hy, round_even_int, hr]
  rw [if_neg hlt, if_neg (ne_of_gt hpos), if_neg (not_lt.mpr hpos.le)]

theorem round_one (b : Bool) : dbl.round 1 b = .fin 1 := by
  have h := round_pow_two 0 (by norm_num) (by norm_num) b
  simpa using h

theorem round_zero (b : Bool) : dbl.round 0 b = dbl.zero_of b := by
  unfold dbl.round
  rw [if_pos rfl]

theorem round_lower (q : ℚ) (hq : 2 ^ (-1022 : Int) ≤ q) (b : Bool) :
    dbl.round q b = .inf false ∨
      ∃ r, dbl.round q b = .fin r ∧ q * (1 - 1 / 2 ^ 53) ≤ r ∧ 0 < r := by
  have hpos : 0 < q := lt_of_lt_of_le (zpow_two_pos _) hq
  have habs : |q| = q := abs_of_pos hpos
  have hlog : -1022 ≤ Int.log 2 q := by
    rw [← Int.zpow_le_iff_le_log (by norm_num) hpos]
    exact_mod_cast hq
  have hle : (2 : ℚ) ^ Int.log 2 q ≤ q := by
    exact_mod_cast Int.zpow_log_le_self (R := ℚ) (b := 2) (by norm_num) hpos
  have hs : (0 : ℚ) < 2 ^ (Int.log 2 q - 52) := zpow_two_pos _
  have hm := round_even_ge (q / 2 ^ (Int.log 2 q - 52))
  have hhalf : (2 : ℚ) ^ (Int.log 2 q - 52) * (1 / 2) = 2 ^ Int.log 2 q * (1 / 2 ^ 53) := by
    rw [zpow_sub₀ (by norm_num : (2 : ℚ) ≠ 0)]
    norm_num
    ring
  have hr : q * (1 - 1 / 2 ^ 53)
      ≤ (round_even (q / 2 ^ (Int.log 2 q - 52)) : ℚ) * 2 ^ (Int.log 2 q - 52) := by
    have h1 : (q / 2 ^ (Int.log 2 q - 52) - 1 / 2) * 2 ^ (Int.log 2 q - 52)
        ≤ (round_even (q / 2 ^ (Int.log 2 q - 52)) : ℚ) * 2 ^ (Int.log 2 q - 52) :=
      mul_le_mul_of_nonneg_right hm hs.le
    have h2 : (q / 2 ^ (Int.log 2 q - 52) - 1 / 2) * 2 ^ (Int.log 2 q - 52)
        = q - 2 ^ (Int.log 2 q - 52) * (1 / 2) := by
      field_simp
      ring
    rw [h2, hhalf] at h1
    have h3 : (2 : ℚ) ^ Int.log 2 q * (1 / 2 ^ 53) ≤ q * (1 / 2 ^ 53) :=
      mul_le_mul_of_nonneg_right hle (by positivity)
    linarith
  have hrpos : 0 < (round_even (q / 2 ^ (Int.log 2 q - 52)) : ℚ) * 2 ^ (Int.log 2 q - 52) := by
    refine lt_of_lt_of_le ?_ hr
    apply mul_pos hpos
    norm_num
  unfold dbl.round
  rw [if_neg (ne_of_gt hpos)]
  simp only [habs, max_eq_left hlog, if_neg (not_lt.mpr hpos.le),
    decide_eq_false (not_lt.mpr hpos.le), if_neg (ne_of_gt hrpos)]
  split_ifs with h
  · exact Or.inl rfl
  · exact Or.inr ⟨_, rfl, hr, hrpos⟩

set_option exponentiation.threshold 2000 in
theorem round_over (q : ℚ) (hq : 2 ^ (1024 : Nat) ≤ q) (b : Bool) :
    dbl.round q b = .inf false := by
  have hpos : 0 < q := lt_of_lt_of_le (pow_pos (by norm_num) _) hq
  have habs : |q| = q := abs_of_pos hpos
  have hlog : (1024 : Int) ≤ Int.log 2 q := by
    rw [← Int.zpow_le_iff_le_log (by norm_num) hpos, Nat.cast_ofNat, zpow_ofNat]
    exact hq
  have hs : (0 : ℚ) < 2 ^ (Int.log 2 q - 52) := zpow_two_pos _
  have hle : (2 : ℚ) ^ Int.log 2 q ≤ q := by
    exact_mod_cast Int.zpow_log_le_self (R := ℚ) (b := 2) (by norm_num) hpos
  have hy : ((2 ^ 52 : Int) : ℚ) ≤ q / 2 ^ (Int.log 2 q - 52) := by
    rw [le_div_iff₀ hs, pow52_mul]
    exact hle
  have hm : (2 ^ 52 : Int) ≤ round_even (q / 2 ^ (Int.log 2 q - 52)) :=
    le_trans (Int.le_floor.mpr hy) (round_even_floor _)
  have hr : (2 : ℚ) ^ (1024 : Nat)
      ≤ (round_even (q / 2 ^ (Int.log 2 q - 52)) : ℚ) * 2 ^ (Int.log 2 q - 52) := by
    have h1 : ((2 ^ 52 : Int) : ℚ) * 2 ^ (Int.log 2 q - 52)
        ≤ (round_even (q / 2 ^ (Int.log 2 q - 52)) : ℚ) * 2 ^ (Int.log 2 q - 52) :=
      mul_le_mul_of_nonneg_right (by exact_mod_cast hm) hs.le
    have h2 : ((2 ^ 52 : Int) : ℚ) * 2 ^ (Int.log 2 q - 52) = 2 ^ Int.log 2 q := pow52_mul _
    have h3 : (2 : ℚ) ^ (1024 : Nat) ≤ 2 ^ Int.log 2 q := by
      rw [← zpow_natCast (2 : ℚ) 1024]
      exact zpow_le_zpow_right₀ (by norm_num) (by exact_mod_cast hlog)
    rw [h2] at h1
    exact le_trans h3 h1
  unfold dbl.round
  rw [if_neg (ne_of_gt hpos)]
  simp only [habs, max_eq_left (by omega : (-1022 : Int) ≤ Int.log 2 q),
    decide_eq_false (not_lt.mpr hpos.le)]
  rw [if_pos hr]

theorem round_nonneg (q : ℚ) (hq : 0 ≤ q) :
    dbl.round q false = .inf false ∨ ∃ r, dbl.round q false = .fin r ∧ 0 ≤ r := by
  by_cases h0 : q = 0
  · subst h0
    exact Or.inr ⟨0, by rw [round_zero]; rfl, le_rfl⟩
  · have hpos : 0 < q := lt_of_le_of_ne hq (Ne.symm h0)
    have hm : (0 : ℚ) ≤ round_even (|q| / 2 ^ (max (Int.log 2 |q|) (-1022) - 52)) := by
      have h1 : (0 : Int) ≤ ⌊|q| / (2 : ℚ) ^ (max (Int.log 2 |q|) (-1022) - 52)⌋ :=
        Int.floor_nonneg.mpr (div_nonneg (abs_nonneg q) (zpow_two_pos _).le)
      exact_mod_cast le_trans h1 (round_even_floor _)
    unfold dbl.round
    rw [if_neg h0]
    simp only [if_neg (not_lt.mpr hq), decide_eq_false (not_lt.mpr hq)]
    split_ifs with h1 h2
    · exact Or.inl rfl
    · exact Or.inr ⟨0, rfl, le_rfl⟩
    · exact Or.inr ⟨_, rfl, mul_nonneg hm (zpow_two_pos _).le⟩

/-! ## The operations on `double` -/

theorem mul_fin_fin (a b : ℚ) :
    dbl.mul (.fin a) (.fin b) = dbl.round (a * b) (xor (decide (a < 0)) (decide (b < 0))) := rfl

theorem div_fin_fin (a b : ℚ) (hb : b ≠ 0) :
    dbl.div (.fin a) (.fin b) = dbl.round (a / b) (xor (decide (a < 0)) (decide (b < 0))) := by
  simp [dbl.div, dbl.is_zero, hb, dbl.val, dbl.sign]

theorem add_fin_fin (a b : ℚ) :
    dbl.add (.fin a) (.fin b) = dbl.round (a + b) (decide (a < 0) && decide (b < 0)) := rfl

theorem mul_inf_fin (a : ℚ) (ha : 0 < a) : dbl.mul (.inf false) (.fin a) = .inf false := by
  simp [dbl.mul, dbl.is_zero, dbl.sign, ne_of_gt ha, not_lt.mpr ha.le]

theorem div_inf_fin (a : ℚ) (ha : 0 < a) : dbl.div (.inf false) (.fin a) = .inf false := by
  simp [dbl.div, dbl.sign, not_lt.mpr ha.le]

theorem zero_of_is_zero (b : Bool) : (dbl.zero_of b).is_zero = true := by
  cases b <;> simp [dbl.zero_of, dbl.is_zero]

theorem is_zero_val (z : dbl) (hz : z.is_zero = true) : z.val = 0 := by
  cases z <;> simp_all [dbl.is_zero, dbl.val]

theorem is_zero_cases (z : dbl) (hz : z.is_zero = true) : z = .fin 0 ∨ z = .nzero := by
  cases z <;> simp_all [dbl.is_zero]

theorem mul_zero_right (c z : dbl) (hz : z.is_zero = true) :
    (dbl.mul c z).is_zero = true ∨ dbl.mul c z = .nan := by
  rcases is_zero_cases z hz with rfl | rfl <;> cases c <;>
    first
    | (right; rfl)
    | (left; simp only [dbl.mul, dbl.val, mul_zero, zero_mul, round_zero, zero_of_is_zero])

theorem mul_zero_left (z c : dbl) (hz : z.is_zero = true ∨ z = .nan) :
    (dbl.mul z c).is_zero = true ∨ dbl.mul z c = .nan := by
  rcases hz with hz | rfl
  · rcases is_zero_cases z hz with rfl | rfl <;> cases c <;>
      first
      | (right; rfl)
      | (left; simp only [dbl.mul, dbl.val, mul_zero, zero_mul, round_zero, zero_of_is_zero])
  · right
    cases c <;> rfl

theorem add_nan_right (x : dbl) : dbl.add x .nan = .nan := by
  cases x <;> rfl

theorem add_nan_left (x : dbl) : dbl.add .nan x = .nan := by
  cases x <;> rfl

theorem add_zero_one (z : dbl) (hz : z.is_zero = true) : dbl.add z (.fin 1) = .fin 1 := by
  rcases is_zero_cases z hz with rfl | rfl <;>
    simp only [dbl.add, dbl.val, zero_add, round_one]

theorem add_zero_zero (a b : dbl) (ha : a.is_zero = true ∨ a = .nan)
    (hb : b.is_zero = true ∨ b = .nan) :
    (dbl.add a b).is_zero = true ∨ dbl.add a b = .nan := by
  rcases ha with ha | rfl
  · rcases hb with hb | rfl
    · left
      rcases is_zero_cases a ha with rfl | rfl <;> rcases is_zero_cases b hb with rfl | rfl <;>
        simp only [dbl.add, dbl.val, zero_add, round_zero, zero_of_is_zero]
    · right; exact add_nan_right a
  · right; exact add_nan_left b

/-! ## The running coefficient in binary64 -/

theorem pow_w_ge (t : Nat) (ht : t ≤ 2 ^ 33) : (1 / 2 : ℚ) ≤ (1 - 1 / 2 ^ 53) ^ t := by
  have h := one_add_mul_le_pow (R := ℚ) (a := -(1 / 2 ^ 53)) (by norm_num) t
  have h2 : (t : ℚ) ≤ 2 ^ 33 := by exact_mod_cast ht
  have h3 : (1 : ℚ) + -(1 / 2 ^ 53) = 1 - 1 / 2 ^ 53 := by ring
  rw [h3] at h
  refine le_trans ?_ h
  have h4 : (t : ℚ) * (1 / 2 ^ 53) ≤ 2 ^ 33 * (1 / 2 ^ 53) :=
    mul_le_mul_of_nonneg_right h2 (by positivity)
  have h5 : (2 : ℚ) ^ 33 * (1 / 2 ^ 53) ≤ 1 / 2 := by norm_num
  linarith

theorem w_pos : (0 : ℚ) < 1 - 1 / 2 ^ 53 := by norm_num

theorem w_le_one : (1 - 1 / 2 ^ 53 : ℚ) ≤ 1 := by norm_num

theorem tiny_le_half : (2 : ℚ) ^ (-1022 : Int) ≤ 1 / 8 := by
  have h : (2 : ℚ) ^ (-1022 : Int) ≤ 2 ^ (-3 : Int) :=
    zpow_le_zpow_right₀ (by norm_num) (by norm_num)
  have e : (2 : ℚ) ^ (-3 : Int) = 1 / 8 := by norm_num
  rwa [e] at h

theorem at_least_mono (L L2 : ℚ) (x : dbl) (h : dbl.at_least L x) (hL : L2 ≤ L) :
    dbl.at_least L2 x := by
  rcases h with h | ⟨q, hq, hle⟩
  · exact Or.inl h
  · exact Or.inr ⟨q, hq, le_trans hL hle⟩

theorem at_least_not_zero (L : ℚ) (x : dbl) (h : dbl.at_least L x) (hL : 0 < L) :
    x.is_zero = false := by
  rcases h with rfl | ⟨q, rfl, hle⟩
  · rfl
  · simp [dbl.is_zero, ne_of_gt (lt_of_lt_of_le hL hle)]

theorem at_least_mul (L a : ℚ) (x : dbl) (h : dbl.at_least L x) (ha : 0 < a)
    (hL : 1 / 8 ≤ L * a) : dbl.at_least (L * a * (1 - 1 / 2 ^ 53)) (dbl.mul x (.fin a)) := by
  rcases h with rfl | ⟨q, rfl, hle⟩
  · rw [mul_inf_fin a ha]
    exact Or.inl rfl
  · rw [mul_fin_fin]
    have h1 : L * a ≤ q * a := mul_le_mul_of_nonneg_right hle ha.le
    rcases round_lower (q * a) (le_trans tiny_le_half (le_trans hL h1)) _ with h | ⟨r, hr, hle2, _⟩
    · exact Or.inl h
    · exact Or.inr ⟨r, hr, le_trans (mul_le_mul_of_nonneg_right h1 w_pos.le) hle2⟩

theorem at_least_div (L c : ℚ) (x : dbl) (h : dbl.at_least L x) (hc : 0 < c)
    (hL : 1 / 8 ≤ L / c) : dbl.at_least (L / c * (1 - 1 / 2 ^ 53)) (dbl.div x (.fin c)) := by
  rcases h with rfl | ⟨q, rfl, hle⟩
  · rw [div_inf_fin c hc]
    exact Or.inl rfl
  · rw [div_fin_fin _ _ (ne_of_gt hc)]
    have h1 : L / c ≤ q / c := div_le_div_of_nonneg_right hle hc.le
    rcases round_lower (q / c) (le_trans tiny_le_half (le_trans hL h1)) _ with h | ⟨r, hr, hle2, _⟩
    · exact Or.inl h
    · exact Or.inr ⟨r, hr, le_trans (mul_le_mul_of_nonneg_right h1 w_pos.le) hle2⟩

theorem choose_step (m i : Nat) (hi : i + 1 ≤ m) :
    (m.choose i : ℚ) * (((m : Int) - (i : Int) : Int) : ℚ) / ((((i : Int) + 1 : Int)) : ℚ)
      = (m.choose (i + 1) : ℚ) := by
  have h1 : (m.choose (i + 1) * (i + 1) : ℚ) = (m.choose i * (m - i : Nat) : ℚ) := by
    exact_mod_cast Nat.choose_succ_right_eq m i
  have h2 : ((i : ℚ) + 1) ≠ 0 := by positivity
  rw [div_eq_iff (by push_cast; exact h2)]
  push_cast
  rw [h1, Nat.cast_sub (by omega)]

theorem coef_ieee (m : Nat) (hm : m < 2 ^ 31) : ∀ i : Nat, i ≤ m →
    dbl.at_least ((m.choose i : ℚ) * (1 - 1 / 2 ^ 53) ^ (2 * i)) (machine.coef ieee m i) := by
  intro i
  induction i with
  | zero =>
    intro _
    exact Or.inr ⟨1, rfl, by simp⟩
  | succ i ih =>
    intro hi
    have ih1 := ih (by omega)
    have ha : (0 : ℚ) < (((m : Int) - (i : Int) : Int) : ℚ) := by
      have : (0 : Int) < (m : Int) - (i : Int) := by omega
      exact_mod_cast this
    have ha1 : (1 : ℚ) ≤ (((m : Int) - (i : Int) : Int) : ℚ) := by
      have : (1 : Int) ≤ (m : Int) - (i : Int) := by omega
      exact_mod_cast this
    have hc : (0 : ℚ) < ((((i : Int) + 1 : Int)) : ℚ) := by
      have : (0 : Int) < (i : Int) + 1 := by omega
      exact_mod_cast this
    have hch : (1 : ℚ) ≤ (m.choose i : ℚ) := by
      exact_mod_cast Nat.choose_pos (by omega : i ≤ m)
    have hch1 : (1 : ℚ) ≤ (m.choose (i + 1) : ℚ) := by
      exact_mod_cast Nat.choose_pos hi
    have hw := pow_w_ge (2 * i) (by omega)
    have hw1 := pow_w_ge (2 * i + 1) (by omega)
    have hw0 : (0 : ℚ) < (1 - 1 / 2 ^ 53) ^ (2 * i) := pow_pos w_pos _
    have hL1 : (1 / 8 : ℚ) ≤ (m.choose i : ℚ) * (1 - 1 / 2 ^ 53) ^ (2 * i)
        * (((m : Int) - (i : Int) : Int) : ℚ) := by
      have : (1 / 2 : ℚ) ≤ (m.choose i : ℚ) * (1 - 1 / 2 ^ 53) ^ (2 * i) := by nlinarith
      nlinarith
    have s1 := at_least_mul _ _ _ ih1 ha hL1
    have e2 : (m.choose i : ℚ) * (1 - 1 / 2 ^ 53) ^ (2 * i)
        * (((m : Int) - (i : Int) : Int) : ℚ) * (1 - 1 / 2 ^ 53) / ((((i : Int) + 1 : Int)) : ℚ)
        = (m.choose (i + 1) : ℚ) * (1 - 1 / 2 ^ 53) ^ (2 * i + 1) := by
      rw [← choose_step m i hi, pow_succ]
      field_simp
      ring
    have hL2 : (1 / 8 : ℚ) ≤ (m.choose i : ℚ) * (1 - 1 / 2 ^ 53) ^ (2 * i)
        * (((m : Int) - (i : Int) : Int) : ℚ) * (1 - 1 / 2 ^ 53)
        / ((((i : Int) + 1 : Int)) : ℚ) := by
      rw [e2]
      nlinarith
    have s2 := at_least_div _ _ _ s1 hc hL2
    rw [e2] at s2
    have e3 : (m.choose (i + 1) : ℚ) * (1 - 1 / 2 ^ 53) ^ (2 * i + 1) * (1 - 1 / 2 ^ 53)
        = (m.choose (i + 1) : ℚ) * (1 - 1 / 2 ^ 53) ^ (2 * (i + 1)) := by
      rw [show 2 * (i + 1) = 2 * i + 1 + 1 by ring, pow_succ _ (2 * i + 1)]
      ring
    rw [e3] at s2
    exact s2

theorem coef_ieee_half (m : Nat) (hm : m < 2 ^ 31) (i : Nat) (hi : i ≤ m) :
    dbl.at_least (1 / 2) (machine.coef ieee m i) := by
  refine at_least_mono _ _ _ (coef_ieee m hm i hi) ?_
  have hch : (1 : ℚ) ≤ (m.choose i : ℚ) := by
    exact_mod_cast Nat.choose_pos hi
  have hw := pow_w_ge (2 * i) (by omega)
  nlinarith

/-! ## The table at the boundary values of `p` -/

theorem entry_ieee (p : dbl) (n : Int) (j : Nat) :
    machine.entry ieee p n j
      = dbl.mul (dbl.mul (machine.coef ieee n j) (dbl.pow p (j : Int)))
          (dbl.pow (dbl.sub (.fin 1) p) (n - (j : Int))) := rfl

theorem csum_ieee_succ (f : Nat → dbl) (j : Nat) :
    machine.csum ieee f (j + 1) = dbl.add (f (j + 1)) (machine.csum ieee f j) := rfl

theorem csum_ieee_zero (f : Nat → dbl) : machine.csum ieee f 0 = f 0 := rfl

theorem pow_exp_zero (x : dbl) : dbl.pow x 0 = .fin 1 := by
  simp [dbl.pow]

theorem pow_base_one (k : Int) : dbl.pow (.fin 1) k = .fin 1 := by
  by_cases h : k = 0
  · simp [dbl.pow, h]
  · simp [dbl.pow, h, round_one]

theorem pow_base_zero (p : dbl) (hp : p.is_zero = true) (k : Int) (hk : 0 < k) :
    (dbl.pow p k).is_zero = true := by
  rcases is_zero_cases p hp with rfl | rfl
  · simp [dbl.pow, ne_of_gt hk, hk, dbl.is_zero]
  · simp only [dbl.pow, if_neg (ne_of_gt hk), if_pos hk, zero_of_is_zero]

theorem pow_fin_zero (k : Int) (hk : 0 < k) : dbl.pow (.fin 0) k = .fin 0 := by
  simp [dbl.pow, ne_of_gt hk, hk]

theorem sub_one_zero (p : dbl) (hp : p.is_zero = true) : dbl.sub (.fin 1) p = .fin 1 := by
  rcases is_zero_cases p hp with rfl | rfl <;>
    simp [dbl.sub, dbl.neg, dbl.add, dbl.val, round_one]

theorem sub_one_one : dbl.sub (.fin 1) (.fin 1) = .fin 0 := by
  simp [dbl.sub, dbl.neg, dbl.add, dbl.val, round_zero, dbl.sign, dbl.zero_of]

theorem mul_one_one : dbl.mul (.fin 1) (.fin 1) = .fin 1 := by
  rw [mul_fin_fin, mul_one, round_one]

theorem entry_zero_first (p : dbl) (hp : p.is_zero = true) (n : Int) :
    machine.entry ieee p n 0 = .fin 1 := by
  rw [entry_ieee, sub_one_zero p hp, pow_base_one]
  show dbl.mul (dbl.mul (.fin 1) (dbl.pow p 0)) (.fin 1) = .fin 1
  rw [pow_exp_zero, mul_one_one, mul_one_one]

theorem entry_zero_rest (p : dbl) (hp : p.is_zero = true) (n : Int) (j : Nat) (hj : 1 ≤ j) :
    dbl.zero_or_nan (machine.entry ieee p n j) := by
  rw [entry_ieee]
  exact mul_zero_left _ _ (mul_zero_right _ _ (pow_base_zero p hp _ (by omega)))

theorem csum_zero (p : dbl) (hp : p.is_zero = true) (n : Int) : ∀ j : Nat,
    machine.csum ieee (machine.entry ieee p n) j = .fin 1 ∨
      machine.csum ieee (machine.entry ieee p n) j = .nan := by
  intro j
  induction j with
  | zero =>
    rw [csum_ieee_zero]
    exact Or.inl (entry_zero_first p hp n)
  | succ j ih =>
    rw [csum_ieee_succ]
    rcases entry_zero_rest p hp n (j + 1) (by omega) with hz | hz
    · rcases ih with h | h
      · rw [h]; exact Or.inl (add_zero_one _ hz)
      · rw [h]; exact Or.inr (add_nan_right _)
    · rw [hz]; exact Or.inr (add_nan_left _)

theorem entry_one_rest (m j : Nat) (hj : j < m) :
    dbl.zero_or_nan (machine.entry ieee (.fin 1) m j) := by
  rw [entry_ieee, sub_one_one, pow_fin_zero _ (by omega)]
  exact mul_zero_right _ _ rfl

theorem entry_one_last (m : Nat) (hm : m < 2 ^ 31) :
    dbl.at_least (1 / 8) (machine.entry ieee (.fin 1) m m) := by
  rw [entry_ieee, sub_one_one, sub_self, pow_exp_zero, pow_base_one]
  have h0 := coef_ieee_half m hm m le_rfl
  have h1 := at_least_mul (1 / 2) 1 _ h0 (by norm_num) (by norm_num)
  have h2 := at_least_mul _ 1 _ h1 (by norm_num) (by norm_num)
  exact at_least_mono _ _ _ h2 (by norm_num)

theorem csum_one_rest (m : Nat) : ∀ j : Nat, j < m →
    dbl.zero_or_nan (machine.csum ieee (machine.entry ieee (.fin 1) m) j) := by
  intro j
  induction j with
  | zero =>
    intro h
    rw [csum_ieee_zero]
    exact entry_one_rest m 0 h
  | succ j ih =>
    intro h
    rw [csum_ieee_succ]
    exact add_zero_zero _ _ (entry_one_rest m (j + 1) h) (ih (by omega))

theorem add_at_least_zero (L : ℚ) (x z : dbl) (hx : dbl.at_least L x) (hL : 1 / 8 ≤ L)
    (hz : dbl.zero_or_nan z) : (dbl.add x z).is_zero = false := by
  rcases hz with hz | rfl
  · rcases hx with rfl | ⟨q, rfl, hle⟩
    · rcases is_zero_cases z hz with rfl | rfl <;> rfl
    · have hq : 2 ^ (-1022 : Int) ≤ q := le_trans tiny_le_half (le_trans hL hle)
      have hadd : ∃ b, dbl.add (.fin q) z = dbl.round q b := by
        rcases is_zero_cases z hz with rfl | rfl
        · exact ⟨_, by rw [add_fin_fin, add_zero]⟩
        · exact ⟨(dbl.fin q).sign && dbl.nzero.sign, by simp only [dbl.add, dbl.val, add_zero]⟩
      obtain ⟨b, hb⟩ := hadd
      rw [hb]
      rcases round_lower q hq b with h | ⟨r, hr, _, hpos⟩
      · rw [h]; rfl
      · rw [hr]; simp [dbl.is_zero, ne_of_gt hpos]
  · rw [add_nan_right]; rfl

theorem csum_one_last (m : Nat) (hm : m < 2 ^ 31) :
    (machine.csum ieee (machine.entry ieee (.fin 1) m) m).is_zero = false := by
  cases m with
  | zero =>
    rw [csum_ieee_zero]
    exact at_least_not_zero _ _ (entry_one_last 0 hm) (by norm_num)
  | succ m =>
    rw [csum_ieee_succ]
    exact add_at_least_zero _ _ _ (entry_one_last (m + 1) hm) le_rfl
      (csum_one_rest (m + 1) m (by omega))

theorem csum_boundary (p : dbl) (hp : p.is_zero = true ∨ p = .fin 1) (m : Nat)
    (hm : m < 2 ^ 31) :
    (machine.csum ieee (machine.entry ieee p m) m).is_zero = false := by
  rcases hp with hp | rfl
  · rcases csum_zero p hp m m with h | h <;> rw [h] <;> rfl
  · exact csum_one_last m hm

theorem range_map_getLast {α : Type} (m : Nat) (g : Nat → α) :
    ((List.range (m + 1)).map g).getLast? = some (g m) := by
  rw [List.range_succ, List.map_append, List.map_singleton, List.getLast?_append]
  rfl

/-- C17, as the code has it. For `p = 0` (of either sign) and for `p = 1`, and every `n` with
`0 ≤ n < INT_MAX`, the table before the normalization has a last entry and this entry is not
zero; for `p = 0` it is 1 or a NaN. So the normalization does not divide by zero at the
boundary values of `p`. -/
theorem last_entry_nonzero (p : dbl) (hp : p.is_zero = true ∨ p = .fin 1) (n : Int)
    (h0 : 0 ≤ n) (hn : n < INT_MAX) :
    ∃ T z, machine.cumulative ieee p n = some T ∧ T.getLast? = some z ∧ z.is_zero = false ∧
      (p.is_zero = true → z = .fin 1 ∨ z = .nan) := by
  obtain ⟨m, rfl⟩ : ∃ m : Nat, n = m := ⟨n.toNat, by omega⟩
  have hm : m < 2 ^ 31 := by
    have : (m : Int) < 2 ^ 31 - 1 := hn
    omega
  exact ⟨_, _, machine_cumulative_nat ieee p m hn, range_map_getLast m _,
    csum_boundary p hp m hm, fun hz => csum_zero p hz m m⟩

/-- C17, as the claim has it, fails: there is no `p` at the boundary (`0.0`, `-0.0` or `1.0`)
and no `n ≥ 0` for which the last cumulative entry before the normalization is zero. -/
theorem zero_sum_counterexample :
    ¬ ∃ (p : dbl) (n : Int) (T : List dbl) (z : dbl), (p.is_zero = true ∨ p = .fin 1) ∧ 0 ≤ n ∧
      machine.cumulative ieee p n = some T ∧ T.getLast? = some z ∧ z.is_zero = true := by
  rintro ⟨p, n, T, z, hp, h0, hT, hz, hzero⟩
  by_cases hn : n < INT_MAX
  · obtain ⟨m, rfl⟩ : ∃ m : Nat, n = m := ⟨n.toNat, by omega⟩
    have hm : m < 2 ^ 31 := by
      have : (m : Int) < 2 ^ 31 - 1 := hn
      omega
    rw [machine_cumulative_nat ieee p m hn] at hT
    cases hT
    rw [range_map_getLast] at hz
    cases hz
    rw [csum_boundary p hp m hm] at hzero
    cases hzero
  · rw [machine_cumulative_max ieee p n (by omega)] at hT
    cases hT

/-! ## The table for `p = 0.5` and `n = 1021` -/

set_option exponentiation.threshold 2000 in
set_option maxRecDepth 100000 in
theorem factorial_bound : 2 ^ 1077 * (Nat.factorial 495 * Nat.factorial 526)
    ≤ Nat.factorial 1021 * (526 * (2 ^ 53 - 990)) := by
  decide

theorem choose_bound : 2 ^ 1077 ≤ Nat.choose 1021 495 * (526 * (2 ^ 53 - 990)) := by
  have hC := Nat.choose_mul_factorial_mul_factorial (show 495 ≤ 1021 by norm_num)
  rw [show 1021 - 495 = 526 from rfl] at hC
  have hN := factorial_bound
  rw [← hC] at hN
  have hpos : 0 < Nat.factorial 495 * Nat.factorial 526 :=
    Nat.mul_pos (Nat.factorial_pos _) (Nat.factorial_pos _)
  refine Nat.le_of_mul_le_mul_right ?_ hpos
  calc 2 ^ 1077 * (Nat.factorial 495 * Nat.factorial 526)
      ≤ Nat.choose 1021 495 * Nat.factorial 495 * Nat.factorial 526 * (526 * (2 ^ 53 - 990)) := hN
    _ = Nat.choose 1021 495 * (526 * (2 ^ 53 - 990))
          * (Nat.factorial 495 * Nat.factorial 526) := by
        simp only [Nat.mul_assoc, Nat.mul_comm, Nat.mul_left_comm]

theorem w_pow_ge (t : Nat) : 1 + (t : ℚ) * -(1 / 2 ^ 53) ≤ (1 - 1 / 2 ^ 53) ^ t := by
  have h := one_add_mul_le_pow (R := ℚ) (a := -(1 / 2 ^ 53)) (by norm_num) t
  rwa [show (1 : ℚ) + -(1 / 2 ^ 53) = 1 - 1 / 2 ^ 53 by ring] at h

theorem over_495 : (2 : ℚ) ^ (1024 : Nat)
    ≤ (Nat.choose 1021 495 : ℚ) * (1 - 1 / 2 ^ 53) ^ (2 * 495) * 526 := by
  have hb := w_pow_ge (2 * 495)
  have hc : ((2 ^ 1077 : Nat) : ℚ)
      ≤ ((Nat.choose 1021 495 * (526 * (2 ^ 53 - 990)) : Nat) : ℚ) := by
    exact_mod_cast choose_bound
  have hC0 : (0 : ℚ) ≤ (Nat.choose 1021 495 : ℚ) := Nat.cast_nonneg _
  have e1 : ((2 ^ 1077 : Nat) : ℚ) = 2 ^ (1024 : Nat) * 2 ^ 53 := by
    rw [Nat.cast_pow, Nat.cast_ofNat, ← pow_add]
  have e2 : ((Nat.choose 1021 495 * (526 * (2 ^ 53 - 990)) : Nat) : ℚ)
      = (Nat.choose 1021 495 : ℚ) * (1 + ((2 * 495 : Nat) : ℚ) * -(1 / 2 ^ 53)) * 526 * 2 ^ 53 := by
    rw [Nat.cast_mul, Nat.cast_mul, Nat.cast_sub (by norm_num)]
    push_cast
    ring
  rw [e1, e2] at hc
  have h53 : (0 : ℚ) < 2 ^ 53 := by positivity
  have h3 := le_of_mul_le_mul_right hc h53
  refine le_trans h3 ?_
  apply mul_le_mul_of_nonneg_right _ (by norm_num)
  exact mul_le_mul_of_nonneg_left hb hC0

theorem coef_ieee_succ (n : Int) (i : Nat) :
    machine.coef ieee n (i + 1)
      = dbl.div (dbl.mul (machine.coef ieee n i) (.fin ((n - (i : Int) : Int) : ℚ)))
          (.fin ((((i : Int) + 1 : Int)) : ℚ)) := rfl

theorem mul_over (L a : ℚ) (x : dbl) (h : dbl.at_least L x) (ha : 0 < a)
    (hL : 2 ^ (1024 : Nat) ≤ L * a) : dbl.mul x (.fin a) = .inf false := by
  rcases h with rfl | ⟨q, rfl, hle⟩
  · exact mul_inf_fin a ha
  · rw [mul_fin_fin]
    exact round_over _ (le_trans hL (mul_le_mul_of_nonneg_right hle ha.le)) _

theorem coef_inf_first : machine.coef ieee 1021 496 = .inf false := by
  have h0 := coef_ieee 1021 (by norm_num) 495 (by norm_num)
  rw [Nat.cast_ofNat] at h0
  have h1 : (2 : ℚ) ^ (1024 : Nat) ≤ (Nat.choose 1021 495 : ℚ) * (1 - 1 / 2 ^ 53) ^ (2 * 495)
      * (((1021 : Int) - ((495 : Nat) : Int) : Int) : ℚ) := by
    have e : ((((1021 : Int) - ((495 : Nat) : Int) : Int)) : ℚ) = 526 := by norm_num
    rw [e]
    exact over_495
  rw [show (496 : Nat) = 495 + 1 from rfl, coef_ieee_succ, mul_over _ _ _ h0 (by norm_num) h1]
  exact div_inf_fin _ (by norm_num)

theorem coef_inf : ∀ i : Nat, 496 ≤ i → i ≤ 1021 → machine.coef ieee 1021 i = .inf false := by
  intro i h1
  induction i, h1 using Nat.le_induction with
  | base =>
    intro _
    exact coef_inf_first
  | succ i hi ih =>
    intro h2
    have ha : (0 : ℚ) < (((1021 : Int) - (i : Int) : Int) : ℚ) := by
      have : (0 : Int) < (1021 : Int) - (i : Int) := by omega
      exact_mod_cast this
    have hc : (0 : ℚ) < ((((i : Int) + 1 : Int)) : ℚ) := by
      have : (0 : Int) < (i : Int) + 1 := by omega
      exact_mod_cast this
    rw [coef_ieee_succ, ih (by omega), mul_inf_fin _ ha, div_inf_fin _ hc]

theorem sub_one_half : dbl.sub (.fin 1) (.fin (1 / 2)) = .fin (1 / 2) := by
  have h := round_pow_two (-1) (by norm_num) (by norm_num) (decide ((1 : ℚ) < 0) && decide (-(1 / 2 : ℚ) < 0))
  have e : (2 : ℚ) ^ (-1 : Int) = 1 / 2 := by norm_num
  rw [e] at h
  have e2 : dbl.sub (.fin 1) (.fin (1 / 2)) = dbl.add (.fin 1) (.fin (-(1 / 2))) := by
    simp [dbl.sub, dbl.neg]
  rw [e2, add_fin_fin]
  rw [show (1 : ℚ) + -(1 / 2) = 1 / 2 by norm_num]
  exact h

theorem pow_half (k : Int) (h0 : 0 ≤ k) (h1 : k ≤ 1022) :
    dbl.pow (.fin (1 / 2)) k = .fin (2 ^ (-k)) := by
  by_cases hk : k = 0
  · subst hk
    simp [dbl.pow]
  · have e : ((1 / 2 : ℚ)) ^ k = 2 ^ (-k) := by
      rw [one_div, inv_zpow, zpow_neg]
    simp only [dbl.pow, if_neg hk, if_neg (by norm_num : ¬ (1 / 2 : ℚ) = 0), e]
    exact round_pow_two (-k) (by omega) (by omega) false

theorem nonneg_mul (x : dbl) (a : ℚ) (hx : dbl.at_least 0 x) (ha : 0 < a) :
    dbl.at_least 0 (dbl.mul x (.fin a)) := by
  rcases hx with rfl | ⟨q, rfl, hq⟩
  · rw [mul_inf_fin a ha]
    exact Or.inl rfl
  · rw [mul_fin_fin, decide_eq_false (not_lt.mpr hq), decide_eq_false (not_lt.mpr ha.le)]
    exact round_nonneg _ (mul_nonneg hq ha.le)

theorem nonneg_add (x y : dbl) (hx : dbl.at_least 0 x) (hy : dbl.at_least 0 y) :
    dbl.at_least 0 (dbl.add x y) := by
  rcases hx with rfl | ⟨a, rfl, ha⟩
  · rcases hy with rfl | ⟨b, rfl, _⟩
    · exact Or.inl rfl
    · exact Or.inl rfl
  · rcases hy with rfl | ⟨b, rfl, hb⟩
    · exact Or.inl rfl
    · rw [add_fin_fin, decide_eq_false (not_lt.mpr ha), decide_eq_false (not_lt.mpr hb)]
      exact round_nonneg _ (add_nonneg ha hb)

theorem add_inf_nonneg (y : dbl) (hy : dbl.at_least 0 y) :
    dbl.add (.inf false) y = .inf false := by
  rcases hy with rfl | ⟨b, rfl, _⟩ <;> rfl

theorem div_by_inf (x : dbl) (hx : dbl.at_least 0 x) :
    dbl.div x (.inf false) = .fin 0 ∨ dbl.div x (.inf false) = .nan := by
  rcases hx with rfl | ⟨q, rfl, hq⟩
  · exact Or.inr rfl
  · left
    simp [dbl.div, dbl.sign, dbl.zero_of, not_lt.mpr hq]

theorem entry_half_nonneg (j : Nat) (hj : j ≤ 1021) :
    dbl.at_least 0 (machine.entry ieee (.fin (1 / 2)) 1021 j) := by
  have hc := coef_ieee_half 1021 (by norm_num) j hj
  rw [Nat.cast_ofNat] at hc
  rw [entry_ieee, sub_one_half, pow_half _ (by omega) (by omega),
    pow_half _ (by omega) (by omega)]
  exact nonneg_mul _ _ (nonneg_mul _ _ (at_least_mono _ _ _ hc (by norm_num)) (zpow_two_pos _))
    (zpow_two_pos _)

theorem entry_half_inf (j : Nat) (h1 : 496 ≤ j) (hj : j ≤ 1021) :
    machine.entry ieee (.fin (1 / 2)) 1021 j = .inf false := by
  rw [entry_ieee, sub_one_half, pow_half _ (by omega) (by omega),
    pow_half _ (by omega) (by omega), coef_inf j h1 hj, mul_inf_fin _ (zpow_two_pos _),
    mul_inf_fin _ (zpow_two_pos _)]

theorem entry_half_first :
    machine.entry ieee (.fin (1 / 2)) 1021 0 = .fin (2 ^ (-1021 : Int)) := by
  rw [entry_ieee, sub_one_half, pow_half _ (by norm_num) (by norm_num),
    pow_half _ (by norm_num) (by norm_num)]
  show dbl.mul (dbl.mul (.fin 1) (.fin (2 ^ (-((0 : Nat) : Int))))) (.fin (2 ^ (-(1021 - ((0 : Nat) : Int))))) = _
  rw [show (-((0 : Nat) : Int)) = 0 by norm_num, zpow_zero, mul_one_one, mul_fin_fin, one_mul,
    show (-((1021 : Int) - ((0 : Nat) : Int))) = -1021 by norm_num]
  exact round_pow_two _ (by norm_num) (by norm_num) _

theorem csum_half_nonneg : ∀ j : Nat, j ≤ 1021 →
    dbl.at_least 0 (machine.csum ieee (machine.entry ieee (.fin (1 / 2)) 1021) j) := by
  intro j
  induction j with
  | zero =>
    intro h
    rw [csum_ieee_zero]
    exact entry_half_nonneg 0 h
  | succ j ih =>
    intro h
    have h1 := entry_half_nonneg (j + 1) h
    have h2 := ih (Nat.le_of_succ_le h)
    rw [csum_ieee_succ]
    exact nonneg_add _ _ h1 h2

theorem csum_half_last :
    machine.csum ieee (machine.entry ieee (.fin (1 / 2)) 1021) 1021 = .inf false := by
  rw [show (1021 : Nat) = 1020 + 1 from rfl, csum_ieee_succ,
    entry_half_inf (1020 + 1) (by norm_num) (by norm_num)]
  exact add_inf_nonneg _ (csum_half_nonneg 1020 (by norm_num))

theorem table_half :
    machine.calc_probabilities ieee (.fin (1 / 2)) 1021
      = some ((List.range 1022).map fun j =>
          dbl.div (machine.csum ieee (machine.entry ieee (.fin (1 / 2)) 1021) j) (.inf false)) := by
  have h := machine_calc_nat ieee (.fin (1 / 2)) 1021 (by norm_num [INT_MAX])
  rw [Nat.cast_ofNat, csum_half_last] at h
  exact h

theorem div_fin_inf (q : ℚ) (hq : 0 ≤ q) : dbl.div (.fin q) (.inf false) = .fin 0 := by
  simp [dbl.div, dbl.sign, dbl.zero_of, not_lt.mpr hq]

theorem ieee_sub (a b : dbl) : ieee.sub a b = dbl.sub a b := rfl

theorem sub_nan_left (x : dbl) : dbl.sub .nan x = .nan := by
  rw [dbl.sub, add_nan_left]

theorem lt_zero_or_nan (q : ℚ) (hq : 0 ≤ q) (t : dbl) (ht : t = .fin 0 ∨ t = .nan) :
    dbl.lt (.fin q) t = false := by
  rcases ht with rfl | rfl
  · simp [dbl.lt, dbl.val, hq]
  · rfl

theorem machine_cdf_in {α : Type} (A : arith α) (P : machine.param_type α) (x : Nat)
    (hx : (x : Int) ≤ P.n_) : machine.cdf A P x = P.P_[x]? := by
  rw [machine.cdf, if_neg (by omega), if_pos hx, Int.toNat_natCast]

theorem machine_pdf_in {α : Type} (A : arith α) (P : machine.param_type α) (x : Nat) (a b : α)
    (hx : ((x + 1 : Nat) : Int) ≤ P.n_) (ha : P.P_[x + 1]? = some a) (hb : P.P_[x]? = some b) :
    machine.pdf A P ((x + 1 : Nat) : Int) = some (A.sub a b) := by
  rw [machine.pdf, if_neg (by omega), if_neg (by omega), Int.toNat_natCast,
    show (((x + 1 : Nat) : Int) - 1).toNat = x by omega, ha, hb]

theorem ctor_half :
    ∃ P, machine.param_type.ctor ieee (.fin (1 / 2)) 1021 = some P ∧ P.n_ = 1021 ∧
      P.P_.length = 1021 + 1 ∧
      (∀ j, j ≤ 1021 → P.P_[j]? = some (dbl.div
        (machine.csum ieee (machine.entry ieee (.fin (1 / 2)) 1021) j) (.inf false))) ∧
      P.P_.getLast? = some .nan := by
  obtain ⟨P, hP, hPn, hT⟩ := machine_ctor_nat ieee (.fin (1 / 2)) 1021 (by norm_num [INT_MAX])
  rw [Nat.cast_ofNat] at hP hPn hT
  rw [csum_half_last] at hT
  refine ⟨P, hP, hPn, ?_, ?_, ?_⟩
  · rw [hT, List.length_map, List.length_range]
  · intro j hj
    rw [hT, List.getElem?_map, List.getElem?_range (by omega)]
    rfl
  · rw [hT, range_map_getLast, csum_half_last]
    rfl

/-- C9, at `p = 0.5` and `n = 1021`, in binary64: the sampler is built, `cdf(0)` is 0, and
`cdf(1021)` is a NaN, as is the last entry of the table. The claim has the last entry and
`cdf(n)` equal to 1 and `cdf` non-decreasing. The running coefficient `binom` has become
`+inf` by round 496, because `binom*=n_-i` is done before `binom/=i+1`. -/
theorem cdf_last_nan :
    ∃ P, machine.param_type.ctor ieee (.fin (1 / 2)) 1021 = some P ∧
      machine.cdf ieee P 0 = some (.fin 0) ∧ machine.cdf ieee P 1021 = some .nan ∧
      P.P_.getLast? = some .nan ∧
      (∀ i : Nat, 496 ≤ i → i ≤ 1021 → machine.coef ieee 1021 i = .inf false) := by
  obtain ⟨P, hP, hPn, _, hget, hlast⟩ := ctor_half
  refine ⟨P, hP, ?_, ?_, hlast, coef_inf⟩
  · have h := machine_cdf_in ieee P 0 (by rw [hPn]; norm_num)
    rw [Nat.cast_zero] at h
    rw [h, hget 0 (by norm_num), csum_ieee_zero, entry_half_first,
      div_fin_inf _ (zpow_two_pos _).le]
  · have h := machine_cdf_in ieee P 1021 (by rw [hPn]; norm_num)
    rw [Nat.cast_ofNat] at h
    rw [h, hget 1021 le_rfl, csum_half_last]
    rfl

/-- C10, at `p = 0.5` and `n = 1021`, in binary64: `pdf(1021)` and `cdf(1021)` are NaN, and a
sum with a NaN term is a NaN whatever the order of the terms. The claim has the sum of
`pdf(x)` over `x = 0 .. n` equal to `cdf(n)`, which it has equal to 1. -/
theorem pdf_sum_nan :
    ∃ P, machine.param_type.ctor ieee (.fin (1 / 2)) 1021 = some P ∧
      machine.pdf ieee P 1021 = some .nan ∧ machine.cdf ieee P 1021 = some .nan ∧
      ∀ x : dbl, ieee.add x .nan = .nan ∧ ieee.add .nan x = .nan := by
  obtain ⟨P, hP, hPn, _, hget, _⟩ := ctor_half
  have hl : P.P_[1020 + 1]? = some .nan := by
    rw [hget (1020 + 1) (by norm_num), csum_half_last]
    rfl
  refine ⟨P, hP, ?_, ?_, fun x => ⟨add_nan_right x, add_nan_left x⟩⟩
  · have h := machine_pdf_in ieee P 1020 _ _ (by rw [hPn]; norm_num) hl (hget 1020 (by norm_num))
    rw [show (((1020 + 1 : Nat)) : Int) = 1021 by norm_num] at h
    rw [h, ieee_sub, sub_nan_left]
  · have h := machine_cdf_in ieee P 1021 (by rw [hPn]; norm_num)
    rw [Nat.cast_ofNat] at h
    rw [h]
    exact hl

/-- C11, at `p = 0.5` and `n = 1021`, in binary64: every one of the 1022 entries of the
table is 0 or a NaN, so for no `u ≥ 0` and no index `i` does `u < table[i]` hold. The claim
has, for every `u` in `[0, 1)`, a smallest index `i` in `[0, n]` with `table[i] > u`, which
the draw returns. -/
theorem draw_no_index :
    ∃ P, machine.param_type.ctor ieee (.fin (1 / 2)) 1021 = some P ∧ P.P_.length = 1021 + 1 ∧
      (∀ (i : Nat) (t : dbl), P.P_[i]? = some t → t = .fin 0 ∨ t = .nan) ∧
      (∀ u : ℚ, 0 ≤ u → ∀ (i : Nat) (t : dbl), P.P_[i]? = some t → dbl.lt (.fin u) t = false) := by
  obtain ⟨P, hP, _, hlen, hget, _⟩ := ctor_half
  have hall : ∀ (i : Nat) (t : dbl), P.P_[i]? = some t → t = .fin 0 ∨ t = .nan := by
    intro i t ht
    have hi : i < P.P_.length := by
      by_contra h
      rw [List.getElem?_eq_none (by omega)] at ht
      cases ht
    have h1 := hget i (by omega)
    rw [ht] at h1
    rw [Option.some.inj h1]
    exact div_by_inf _ (csum_half_nonneg i (by omega))
  exact ⟨P, hP, hlen, hall, fun u hu i t ht => lt_zero_or_nan u hu t (hall i t ht)⟩

/-! ## The theorems at concrete inputs -/

theorem generate_spec_witness :
    (lagfib4plus_521_ull 64).D < 2 ^ 32 ∧
    (generate (lagfib4plus_521_ull 64) ⟨{}, status_type.init⟩).2.S.index
      = (0 + 1) % ceil2 (lagfib4plus_521_ull 64).D :=
  ⟨by decide, (generate_spec (lagfib4plus_521_ull 64) (by decide) ⟨{}, status_type.init⟩).1⟩

theorem recurrence_law_witness :
    lagfib4plus_521_ull 64 ∈ predefined 64 64 ∧ (lagfib4plus_521_ull 64).D ≤ 600 ∧
    (let E := (seed (lagfib4plus_521_ull 64) minstd.g (minstd.ctor 0)
        ⟨{}, status_type.init⟩).1
     let x := fun i => if i < (lagfib4plus_521_ull 64).D then E.S.r i
        else nth_value (lagfib4plus_521_ull 64) E (i - ((lagfib4plus_521_ull 64).D - 1))
     x 600 = (x (600 - (lagfib4plus_521_ull 64).A) + x (600 - (lagfib4plus_521_ull 64).B)
        + x (600 - (lagfib4plus_521_ull 64).C) + x (600 - (lagfib4plus_521_ull 64).D))
          % 2 ^ (lagfib4plus_521_ull 64).wordbits) :=
  ⟨by decide, by decide,
    recurrence_law 64 64 (lagfib4plus_521_ull 64) (by decide) minstd.g (minstd.ctor 0)
      ⟨{}, status_type.init⟩ 600 (by decide)⟩

theorem serialize_roundtrip_witness :
    (parse (lagfib4plus_521_ull 64)
      (serialize (lagfib4plus_521_ull 64) ⟨{}, status_type.init⟩)
      (lagfib4plus.ctor (lagfib4plus_521_ull 64) minstd)).1.fail = false :=
  (serialize_roundtrip (lagfib4plus_521_ull 64) ⟨{}, status_type.init⟩
    (lagfib4plus.ctor (lagfib4plus_521_ull 64) minstd) (by decide)
    (fun _ _ => Nat.two_pow_pos _)).1

theorem parse_failure_atomic_witness :
    (parse ⟨8, 1, 2, 3, 5⟩ "[lagfib4plus_8_1_2_3_5 () (4 1 2 3 4 5 6 7)]".toList
      ⟨{}, status_type.init⟩).1.fail = true ∧
    (parse ⟨8, 1, 2, 3, 5⟩ "[lagfib4plus_8_1_2_3_5 () (4 1 2 3 4 5 6 7)]".toList
      ⟨{}, status_type.init⟩).2 = ⟨{}, status_type.init⟩ ∧
    (param_type.get get_double_fixed get_int_digits (istream.of "(0.5 4]".toList)
      (param_type.ctor 0 0)).1.fail = true ∧
    (param_type.get get_double_fixed get_int_digits (istream.of "(0.5 4]".toList)
      (param_type.ctor 0 0)).2 = param_type.ctor 0 0 :=
  ⟨by decide,
    (parse_failure_atomic ⟨8, 1, 2, 3, 5⟩ "[lagfib4plus_8_1_2_3_5 () (4 1 2 3 4 5 6 7)]".toList
      ⟨{}, status_type.init⟩ get_double_fixed get_int_digits (istream.of "(0.5 4]".toList)
      (param_type.ctor 0 0)).1 (by decide),
    by decide,
    (parse_failure_atomic ⟨8, 1, 2, 3, 5⟩ "[lagfib4plus_8_1_2_3_5 () (4 1 2 3 4 5 6 7)]".toList
      ⟨{}, status_type.init⟩ get_double_fixed get_int_digits (istream.of "(0.5 4]".toList)
      (param_type.ctor 0 0)).2.2 (by decide)⟩

theorem seed_spec_witness :
    0 < (lagfib4plus_521_ull 64).D ∧ (lagfib4plus_521_ull 64).D < 2 ^ 32 ∧
    (seed (lagfib4plus_521_ull 64) minstd.g (minstd.ctor 0) ⟨{}, status_type.init⟩).1.S.index
      = 521 - 1 :=
  ⟨by decide, by decide,
    (seed_spec (lagfib4plus_521_ull 64) (by decide) (by decide) minstd.g (minstd.ctor 0)
      ⟨{}, status_type.init⟩).2.2⟩

theorem lag_order_witness :
    lagfib4plus_19937_ull 64 ∈ predefined 32 64 ∧
    ((lagfib4plus_19937_ull 64).A < (lagfib4plus_19937_ull 64).B ∧
      (lagfib4plus_19937_ull 64).B < (lagfib4plus_19937_ull 64).C ∧
      (lagfib4plus_19937_ull 64).C < (lagfib4plus_19937_ull 64).D) :=
  ⟨by decide, lag_order 32 64 (lagfib4plus_19937_ull 64) (by decide)⟩

theorem table_consistent_witness :
    param_reachable ((param_type.ctor (1 / 2) 4).set_n 7) ∧
    ((param_type.ctor (1 / 2) 4).set_n 7).P_
      = calc_probabilities ((param_type.ctor (1 / 2) 4).set_n 7).p
          ((param_type.ctor (1 / 2) 4).set_n 7).n :=
  ⟨param_reachable.set_n _ 7 (param_reachable.ctor (1 / 2) 4),
    table_consistent.1 _ (param_reachable.set_n _ 7 (param_reachable.ctor (1 / 2) 4))⟩

theorem reseed_canonical_witness :
    (lagfib4plus_521_ull 64).wf ∧
    nth_value (lagfib4plus_521_ull 64)
        (seed_default (lagfib4plus_521_ull 64) minstd
          (run (lagfib4plus_521_ull 64) 3 (lagfib4plus.ctor (lagfib4plus_521_ull 64) minstd))) 1
      = nth_value (lagfib4plus_521_ull 64) (lagfib4plus.ctor (lagfib4plus_521_ull 64) minstd) 1 :=
  ⟨by unfold Species.wf; decide,
    (reseed_canonical (lagfib4plus_521_ull 64) (by unfold Species.wf; decide) minstd
      (run (lagfib4plus_521_ull 64) 3 (lagfib4plus.ctor (lagfib4plus_521_ull 64) minstd))
      ⟨{}, status_type.init⟩ 0 1).1⟩

theorem index_invariant_witness :
    (0 < (lagfib4plus_521_ull 64).D ∧ (lagfib4plus_521_ull 64).D < 2 ^ 32) ∧
    reachable (lagfib4plus_521_ull 64) minstd
      (generate (lagfib4plus_521_ull 64) (lagfib4plus.ctor (lagfib4plus_521_ull 64) minstd)).2 ∧
    (generate (lagfib4plus_521_ull 64)
      (lagfib4plus.ctor (lagfib4plus_521_ull 64) minstd)).2.S.index
        < ceil2 (lagfib4plus_521_ull 64).D :=
  ⟨⟨by decide, by decide⟩, reachable.generate _ reachable.ctor,
    (index_invariant (lagfib4plus_521_ull 64) (by decide) (by decide) minstd _
      (reachable.generate _ reachable.ctor)).2⟩

theorem seed_partial_overwrite_witness :
    ((lagfib4plus_521_ull 64).wf ∧ (lagfib4plus_521_ull 64).D < ceil2 (lagfib4plus_521_ull 64).D
      ∧ 3 ≤ (lagfib4plus_521_ull 64).wordbits) ∧
    lagfib4plus.eq (lagfib4plus_521_ull 64)
      (seed_ul (lagfib4plus_521_ull 64) minstd 7
        (lagfib4plus.ctor_gen (lagfib4plus_521_ull 64) all_ones ()).1)
      (seed_ul (lagfib4plus_521_ull 64) minstd 7
        (generate (lagfib4plus_521_ull 64)
          (lagfib4plus.ctor_gen (lagfib4plus_521_ull 64) all_ones ()).1).2) = false :=
  ⟨⟨by unfold Species.wf; decide, by decide, by decide⟩,
    (seed_partial_overwrite (lagfib4plus_521_ull 64) (by unfold Species.wf; decide) (by decide)
      (by decide) minstd 7 all_ones () ⟨{}, status_type.init⟩).2.2.1.1⟩

theorem last_entry_nonzero_witness :
    ((dbl.fin 1).is_zero = true ∨ dbl.fin 1 = .fin 1) ∧ (0 : Int) ≤ 80 ∧ (80 : Int) < INT_MAX ∧
      ∃ T z, machine.cumulative ieee (.fin 1) 80 = some T ∧ T.getLast? = some z ∧
        z.is_zero = false ∧ ((dbl.fin 1).is_zero = true → z = .fin 1 ∨ z = .nan) :=
  ⟨Or.inr rfl, by norm_num, by norm_num [INT_MAX],
    last_entry_nonzero (.fin 1) (Or.inr rfl) 80 (by norm_num) (by norm_num [INT_MAX])⟩

end trng
